import Mathlib

/-!
# gorm-studio: schema parsers

A shallow embedding of the DDL parser (`studio/sql_parser.go`) and of the DBML
parser (`studio/import_schema.go`), with the properties proved about them.

Go strings are modelled as lists of Unicode code points (`Str`).  Every byte the
parsers single out is ASCII, and an ASCII byte never occurs inside a multi-byte
UTF-8 sequence, so the byte loops of the source act on code points exactly as
modelled here.  Integer counters (`depth`) are `Int`.
-/

namespace GormStudio

abbrev Str := List Char

/-! ## Go library primitives (`strings`, `unicode`) -/

/-- Go `unicode.IsSpace`. -/
def isSpace (c : Char) : Bool :=
  let n := c.toNat
  n = 32 || (9 ≤ n && n ≤ 13) || n = 0x85 || n = 0xA0 || n = 0x1680 ||
    (0x2000 ≤ n && n ≤ 0x200A) || n = 0x2028 || n = 0x2029 || n = 0x202F ||
    n = 0x205F || n = 0x3000

/-- Go `unicode.ToUpper`, exact on every rune whose upper case is ASCII (the letters
`a`-`z`, U+0131 and U+017F); every other rune has a non-ASCII upper case and is kept
as it is, which no comparison against an ASCII keyword can tell apart. -/
def toUpperRune (c : Char) : Char :=
  let n := c.toNat
  if 97 ≤ n ∧ n ≤ 122 then Char.ofNat (n - 32)
  else if n = 0x131 then 'I'
  else if n = 0x17F then 'S'
  else c

/-- Go `unicode.ToLower`, exact on every rune whose lower case is ASCII (the letters
`A`-`Z`, U+0130 and U+212A); other runes are kept. -/
def toLowerRune (c : Char) : Char :=
  let n := c.toNat
  if 65 ≤ n ∧ n ≤ 90 then Char.ofNat (n + 32)
  else if n = 0x130 then 'i'
  else if n = 0x212A then 'k'
  else c

/-- Go `strings.ToUpper`. -/
def ToUpper (s : Str) : Str := s.map toUpperRune

/-- Go `strings.ToLower`. -/
def ToLower (s : Str) : Str := s.map toLowerRune

/-- Simple case folding to a canonical representative, exact on the orbits that
contain an ASCII letter (`k`/`K`/U+212A and `s`/`S`/U+017F are the two orbits with a
non-ASCII member). -/
def foldRune (c : Char) : Char :=
  let n := c.toNat
  if 65 ≤ n ∧ n ≤ 90 then Char.ofNat (n + 32)
  else if n = 0x212A then 'k'
  else if n = 0x17F then 's'
  else c

/-- Go `strings.EqualFold` (exact when one side is ASCII). -/
def EqualFold (s t : Str) : Bool := s.map foldRune == t.map foldRune

/-- Go `strings.HasPrefix(s, p)`. -/
def HasPrefix (s p : Str) : Bool := p.isPrefixOf s

/-- Go `strings.HasSuffix(s, p)`. -/
def HasSuffix (s p : Str) : Bool := p.isSuffixOf s

/-- Go `strings.Index(s, sub)`; `none` stands for `-1`. -/
def Index : Str → Str → Option Nat
  | [], sub => if sub.isEmpty then some 0 else none
  | c :: cs, sub =>
    if sub.isPrefixOf (c :: cs) then some 0 else (Index cs sub).map Nat.succ

/-- Go `strings.Contains(s, sub)`. -/
def Contains (s sub : Str) : Bool := (Index s sub).isSome

/-- Go `strings.TrimLeft(s, cutset)`. -/
def TrimLeft (s cutset : Str) : Str := s.dropWhile (fun c => cutset.contains c)

/-- Go `strings.TrimRight(s, cutset)`. -/
def TrimRight (s cutset : Str) : Str := s.rdropWhile (fun c => cutset.contains c)

/-- Go `strings.Trim(s, cutset)`. -/
def Trim (s cutset : Str) : Str := TrimRight (TrimLeft s cutset) cutset

/-- Go `strings.TrimSpace(s)`. -/
def TrimSpace (s : Str) : Str := (s.dropWhile isSpace).rdropWhile isSpace

/-- Go `strings.TrimPrefix(s, p)`. -/
def TrimPrefix (s p : Str) : Str := if p.isPrefixOf s then s.drop p.length else s

/-- Go `strings.Split(s, sep)` for a one-character separator. -/
def Split (sep : Char) : Str → List Str
  | [] => [[]]
  | c :: cs =>
    if c = sep then [] :: Split sep cs
    else match Split sep cs with
      | [] => [[c]]
      | l :: ls => (c :: l) :: ls

/-- Go `strings.Join(parts, sep)`. -/
def Join (sep : Str) : List Str → Str
  | [] => []
  | [a] => a
  | a :: b :: rest => a ++ sep ++ Join sep (b :: rest)

/-- Worker of `Fields`: `cur` is the field being read. -/
def fieldsGo : Str → Str → List Str
  | cur, [] => if cur.isEmpty then [] else [cur]
  | cur, c :: cs =>
    if isSpace c then (if cur.isEmpty then fieldsGo [] cs else cur :: fieldsGo [] cs)
    else fieldsGo (cur ++ [c]) cs

/-- Go `strings.Fields(s)`. -/
def Fields (s : Str) : List Str := fieldsGo [] s

/-- Go `strings.SplitN(s, sep, 2)` for a non-empty separator. -/
def SplitN2 (s sep : Str) : List Str :=
  match Index s sep with
  | none => [s]
  | some i => [s.take i, s.drop (i + sep.length)]

/-! ## Data model (`studio/schema.go`) -/

/-- Go `ColumnInfo`; the field `Type` is a Lean keyword and is called `SqlType`. -/
structure ColumnInfo where
  Name : Str
  SqlType : Str := []
  GoType : Str := []
  IsPrimaryKey : Bool := false
  IsNullable : Bool := false
  IsForeignKey : Bool := false
  ForeignTable : Str := []
  ForeignKey : Str := []
  Default : Str := []
  deriving DecidableEq

/-- Go `RelationInfo`; the field `Type` is called `Kind`. -/
structure RelationInfo where
  Name : Str
  Kind : Str
  Table : Str
  ForeignKey : Str
  ReferenceKey : Str
  JoinTable : Str
  deriving DecidableEq

/-- Go `TableInfo`. -/
structure TableInfo where
  Name : Str
  Columns : List ColumnInfo := []
  Relations : List RelationInfo := []
  RowCount : Int := 0
  PrimaryKeys : List Str := []
  deriving DecidableEq

/-! ## Regular expressions (Go `regexp`, leftmost-first matching)

The patterns of the source only repeat single-character classes, so the matcher is
a backtracking search written by recursion on the pattern and on the input; it
tries the alternatives in the priority order of Go's `regexp` (greedy repetition
takes the longest run first, lazy repetition the shortest, alternation the left
branch first), and `find` takes the leftmost start position. -/

inductive Rx where
  | cls (p : Char → Bool)
  | seq (a b : Rx)
  | alt (a b : Rx)
  | opt (a : Rx)
  | star (p : Char → Bool)
  | plus (p : Char → Bool)
  | lazyPlus (p : Char → Bool)
  | group (i : Nat) (a : Rx)
  | eot
  | nil

abbrev Caps := List (Nat × Str)

/-- First alternative if it matches, else the second. -/
@[inline]
def orTry {α : Type} (a b : Option α) : Option α :=
  match a with
  | some r => some r
  | none => b

/-- Greedy `[p]*` followed by the continuation `k`. -/
def greedyStar {α : Type} (p : Char → Bool) : Str → (Str → Option α) → Option α
  | [], k => k []
  | c :: cs, k => if p c then orTry (greedyStar p cs k) (k (c :: cs)) else k (c :: cs)

/-- Lazy `[p]*?` followed by the continuation `k`. -/
def lazyStar {α : Type} (p : Char → Bool) : Str → (Str → Option α) → Option α
  | [], k => k []
  | c :: cs, k => orTry (k (c :: cs)) (if p c then lazyStar p cs k else none)

/-- Match `r` at the start of the input, then continue with `k` on the rest. -/
def Rx.run {α : Type} : Rx → Str → Caps → (Str → Caps → Option α) → Option α
  | .cls p, inp, caps, k =>
    match inp with
    | c :: cs => if p c then k cs caps else none
    | [] => none
  | .seq a b, inp, caps, k => a.run inp caps (fun r c => b.run r c k)
  | .alt a b, inp, caps, k => orTry (a.run inp caps k) (b.run inp caps k)
  | .opt a, inp, caps, k => orTry (a.run inp caps k) (k inp caps)
  | .star p, inp, caps, k => greedyStar p inp (fun r => k r caps)
  | .plus p, inp, caps, k =>
    match inp with
    | c :: cs => if p c then greedyStar p cs (fun r => k r caps) else none
    | [] => none
  | .lazyPlus p, inp, caps, k =>
    match inp with
    | c :: cs => if p c then lazyStar p cs (fun r => k r caps) else none
    | [] => none
  | .group i a, inp, caps, k =>
    a.run inp caps (fun r c => k r ((i, inp.take (inp.length - r.length)) :: c))
  | .eot, inp, caps, k => if inp.isEmpty then k [] caps else none
  | .nil, inp, caps, k => k inp caps

/-- Go `FindStringSubmatch`: the captures of the leftmost match. -/
def Rx.find (r : Rx) : Str → Option Caps
  | [] => r.run [] [] (fun _ c => some c)
  | c :: cs => orTry (r.run (c :: cs) [] (fun _ m => some m)) (Rx.find r cs)

/-- Text of capture group `i` (empty when the group did not take part). -/
def capture (m : Caps) (i : Nat) : Str :=
  match m.lookup i with
  | some s => s
  | none => []

/-- Concatenation of patterns. -/
def Rx.cat : List Rx → Rx
  | [] => .nil
  | a :: rest => .seq a (Rx.cat rest)

/-- One literal character. -/
def Rx.chr (c : Char) : Rx := .cls (fun x => x == c)

/-- A literal under `(?i)`. -/
def Rx.lit : Str → Rx
  | [] => .nil
  | c :: cs => .seq (.cls (fun x => foldRune x == foldRune c)) (Rx.lit cs)

/-- Class `\s` of Go `regexp`: `[\t\n\f\r ]`. -/
def rxSpace (c : Char) : Bool :=
  let n := c.toNat
  n = 9 || n = 10 || n = 12 || n = 13 || n = 32

/-- Class `\w` under `(?i)`: `[0-9A-Za-z_]` closed under case folding, which adds
U+017F and U+212A. -/
def rxWordFold (c : Char) : Bool :=
  let n := c.toNat
  (48 ≤ n && n ≤ 57) || (65 ≤ n && n ≤ 90) || n = 95 || (97 ≤ n && n ≤ 122) ||
    n = 0x17F || n = 0x212A

/-- Class `.` of Go `regexp` without the `s` flag. -/
def rxDot (c : Char) : Bool := c != '\n'

/-! ## The DDL parser (`studio/sql_parser.go`) -/

/-- An optional back quote followed by an optional double quote, as in the patterns
of the source. -/
def rxOpenQuote : List Rx := [.opt (Rx.chr (Char.ofNat 96)), .opt (Rx.chr (Char.ofNat 34))]

/-- An optional double quote followed by an optional back quote. -/
def rxCloseQuote : List Rx := [.opt (Rx.chr (Char.ofNat 34)), .opt (Rx.chr (Char.ofNat 96))]

/-- Pattern of `parseCreateTable`:
`(?i)CREATE\s+TABLE\s+(?:IF\s+NOT\s+EXISTS\s+)?[bq]?[dq]?(\w+)[dq]?[bq]?\s*\(`
where `[bq]` is a back quote and `[dq]` a double quote. -/
def tableNameRe : Rx :=
  Rx.cat ([Rx.lit "CREATE".toList, .plus rxSpace, Rx.lit "TABLE".toList, .plus rxSpace,
      .opt (Rx.cat [Rx.lit "IF".toList, .plus rxSpace, Rx.lit "NOT".toList, .plus rxSpace,
        Rx.lit "EXISTS".toList, .plus rxSpace])]
    ++ rxOpenQuote ++ [.group 1 (.plus rxWordFold)] ++ rxCloseQuote
    ++ [.star rxSpace, Rx.chr '('])

/-- Pattern of the DEFAULT clause in `parseColumnDef`:
`(?i)DEFAULT\s+(.+?)(?:\s+(?:NOT\s+NULL|NULL|PRIMARY|UNIQUE|CHECK|REFERENCES|CONSTRAINT)|$)`. -/
def defaultRe : Rx :=
  Rx.cat [Rx.lit "DEFAULT".toList, .plus rxSpace, .group 1 (.lazyPlus rxDot),
    .alt
      (Rx.cat [.plus rxSpace,
        .alt (Rx.cat [Rx.lit "NOT".toList, .plus rxSpace, Rx.lit "NULL".toList])
        (.alt (Rx.lit "NULL".toList)
        (.alt (Rx.lit "PRIMARY".toList)
        (.alt (Rx.lit "UNIQUE".toList)
        (.alt (Rx.lit "CHECK".toList)
        (.alt (Rx.lit "REFERENCES".toList) (Rx.lit "CONSTRAINT".toList))))))])
      .eot]

/-- The part `[bq]?[dq]?(\w+)[dq]?[bq]?\s*\(\s*[bq]?[dq]?(\w+)[dq]?[bq]?\s*\)` shared by
the two REFERENCES patterns, with capture groups `i` and `i + 1`. -/
def rxTarget (i : Nat) : List Rx :=
  rxOpenQuote ++ [.group i (.plus rxWordFold)] ++ rxCloseQuote
    ++ [.star rxSpace, Rx.chr '(', .star rxSpace]
    ++ rxOpenQuote ++ [.group (i + 1) (.plus rxWordFold)] ++ rxCloseQuote
    ++ [.star rxSpace, Rx.chr ')']

/-- Pattern of the inline reference in `parseColumnDef`:
`(?i)REFERENCES\s+` followed by the target part. -/
def referencesRe : Rx :=
  Rx.cat ([Rx.lit "REFERENCES".toList, .plus rxSpace] ++ rxTarget 1)

/-- Pattern of `parseForeignKeyConstraint`:
`(?i)FOREIGN\s+KEY\s*\(\s*[bq]?[dq]?(\w+)[dq]?[bq]?\s*\)\s*REFERENCES\s+` followed by
the target part. -/
def foreignKeyRe : Rx :=
  Rx.cat ([Rx.lit "FOREIGN".toList, .plus rxSpace, Rx.lit "KEY".toList, .star rxSpace,
      Rx.chr '(', .star rxSpace]
    ++ rxOpenQuote ++ [.group 1 (.plus rxWordFold)] ++ rxCloseQuote
    ++ [.star rxSpace, Rx.chr ')', .star rxSpace, Rx.lit "REFERENCES".toList, .plus rxSpace]
    ++ rxTarget 2)

/-- Pattern of `extractConstraintColumns`: `\(\s*(.+?)\s*\)` (no `(?i)`). -/
def constraintColsRe : Rx :=
  Rx.cat [Rx.chr '(', .star rxSpace, .group 1 (.lazyPlus rxDot), .star rxSpace, Rx.chr ')']

/-- Go `detectDialect`. -/
def detectDialect (sql : Str) : Str :=
  let upper := ToUpper sql
  if Contains upper "AUTOINCREMENT".toList then "sqlite".toList
  else if Contains upper "SERIAL".toList || Contains upper "::".toList
      || Contains upper "BYTEA".toList then "postgres".toList
  else if Contains upper "AUTO_INCREMENT".toList || Contains upper "ENGINE=".toList then
    "mysql".toList
  else "sqlite".toList

/-- First loop of `removeComments`, one line: cut at the first `--`. -/
def cutLineComment (line : Str) : Str :=
  match Index line "--".toList with
  | some idx => line.take idx
  | none => line

/-- Second loop of `removeComments`; every round that goes on removes at least three
characters, so `fuel` larger than the length of the text never runs out. -/
def removeBlockComments : Nat → Str → Str
  | 0, result => result
  | fuel + 1, result =>
    match Index result "/*".toList with
    | none => result
    | some start =>
      match Index (result.drop start) "*/".toList with
      | none => result.take start
      | some e => removeBlockComments fuel (result.take start ++ result.drop (start + e + 2))

/-- Go `removeComments`. -/
def removeComments (sql : Str) : Str :=
  let cleaned := (Split '\n' sql).map cutLineComment
  let result := Join "\n".toList cleaned
  removeBlockComments (result.length + 1) result

/-- Non-empty trimmed text as a one-element list. -/
def keepNonEmpty (s : Str) : List Str := if s.isEmpty then [] else [s]

/-- The loop shared, up to the separator, by `splitStatements` (`;`) and
`splitColumnDefs` (`,`): `cur` is the slice from `start` to the current index. -/
def splitTopGo (sep : Char) : Int → Str → Str → List Str
  | _, cur, [] => keepNonEmpty (TrimSpace cur)
  | depth, cur, ch :: rest =>
    if ch = '(' then splitTopGo sep (depth + 1) (cur ++ [ch]) rest
    else if ch = ')' then splitTopGo sep (depth - 1) (cur ++ [ch]) rest
    else if ch = sep then
      if depth = 0 then keepNonEmpty (TrimSpace cur) ++ splitTopGo sep depth [] rest
      else splitTopGo sep depth (cur ++ [ch]) rest
    else splitTopGo sep depth (cur ++ [ch]) rest

/-- Go `splitStatements`. -/
def splitStatements (sql : Str) : List Str := splitTopGo ';' 0 [] sql

/-- Loop of `extractParenBody`: `cur` is `stmt[start:i]`. -/
def extractParenBodyGo : Int → Str → Str → Str
  | _, _, [] => []
  | depth, cur, ch :: rest =>
    if ch = '(' then extractParenBodyGo (depth + 1) (cur ++ [ch]) rest
    else if ch = ')' then
      if depth - 1 = 0 then cur.drop 1
      else extractParenBodyGo (depth - 1) (cur ++ [ch]) rest
    else extractParenBodyGo depth (cur ++ [ch]) rest

/-- Go `extractParenBody`. -/
def extractParenBody (stmt : Str) : Str :=
  match Index stmt "(".toList with
  | none => []
  | some start => extractParenBodyGo 0 [] (stmt.drop start)

/-- Go `splitColumnDefs`. -/
def splitColumnDefs (body : Str) : List Str := splitTopGo ',' 0 [] body

/-- The token under construction, if any. -/
def flushToken (cur : Str) : List Str := if cur.isEmpty then [] else [cur]

/-- Loop of `tokenizeSQL`: `cur` is the builder `current`. -/
def tokenizeGo : Str → Bool → Char → Str → List Str
  | cur, _, _, [] => flushToken cur
  | cur, true, quoteChar, ch :: rest =>
    if ch = quoteChar then (cur ++ [ch]) :: tokenizeGo [] false quoteChar rest
    else tokenizeGo (cur ++ [ch]) true quoteChar rest
  | cur, false, quoteChar, ch :: rest =>
    if ch = Char.ofNat 39 ∨ ch = Char.ofNat 34 then tokenizeGo (cur ++ [ch]) true ch rest
    else if ch = '(' ∨ ch = ')' then flushToken cur ++ [ch] :: tokenizeGo [] false quoteChar rest
    else if ch = ' ' ∨ ch = '\t' ∨ ch = '\n' ∨ ch = '\r' then
      flushToken cur ++ tokenizeGo [] false quoteChar rest
    else if ch = Char.ofNat 96 then tokenizeGo cur false quoteChar rest
    else tokenizeGo (cur ++ [ch]) false quoteChar rest

/-- Go `tokenizeSQL`. -/
def tokenizeSQL (s : Str) : List Str := tokenizeGo [] false (Char.ofNat 0) s

/-- Cut set of `unquoteIdent`: back quote, double quote, single quote, `[`, `]`. -/
def identQuotes : Str := [Char.ofNat 96, Char.ofNat 34, Char.ofNat 39, '[', ']']

/-- Go `unquoteIdent`. -/
def unquoteIdent (s : Str) : Str := Trim s identQuotes

/-- Go `extractConstraintColumns`. -/
def extractConstraintColumns (df : Str) : List Str :=
  match constraintColsRe.find df with
  | none => []
  | some m =>
    ((Split ',' (capture m 1)).map (fun part => unquoteIdent (TrimSpace part))).filter
      (fun col => !col.isEmpty)

/-- Go `parseForeignKeyConstraint`: local column, foreign table, foreign column. -/
def parseForeignKeyConstraint (constraint : Str) : Str × Str × Str :=
  match foreignKeyRe.find constraint with
  | none => ([], [], [])
  | some m => (capture m 1, capture m 2, capture m 3)

/-- Go `markForeignKey`, on the column list of the table. -/
def markForeignKey (cols : List ColumnInfo) (localCol foreignTable foreignCol : Str) :
    List ColumnInfo :=
  cols.map (fun col =>
    if EqualFold col.Name localCol then
      { col with IsForeignKey := true, ForeignTable := foreignTable, ForeignKey := foreignCol }
    else col)

/-- Loop of `parseColumnDef` that appends the size specifier: runs while tokens are
left and `depth > 0`. -/
def typeParams : Int → List Str → Str
  | _, [] => []
  | depth, tok :: rest =>
    let depth1 := if tok = "(".toList then depth + 1
      else if tok = ")".toList then depth - 1 else depth
    tok ++ (if 0 < depth1 then typeParams depth1 rest else [])

/-- The column type built by `parseColumnDef` from the tokens after the name. -/
def buildColType (base : Str) (after : List Str) : Str :=
  match after with
  | tok :: rest => if tok = "(".toList then base ++ "(".toList ++ typeParams 1 rest else base
  | [] => base

/-- Cut set of the DEFAULT value in `parseColumnDef`: single quote, double quote. -/
def quoteChars : Str := [Char.ofNat 39, Char.ofNat 34]

/-- Block "Parse modifiers" of `parseColumnDef`. -/
def withModifiers (df colType : Str) (col : ColumnInfo) : ColumnInfo :=
  let upper := ToUpper df
  let col := if Contains upper "PRIMARY KEY".toList then
      { col with IsPrimaryKey := true, IsNullable := false } else col
  let col := if Contains upper "NOT NULL".toList then
      { col with IsNullable := false } else col
  if EqualFold colType "SERIAL".toList || EqualFold colType "BIGSERIAL".toList
      || EqualFold colType "SMALLSERIAL".toList then
    { col with IsPrimaryKey := true, IsNullable := false }
  else col

/-- Block "Extract DEFAULT value" of `parseColumnDef`. -/
def withDefault (df : Str) (col : ColumnInfo) : ColumnInfo :=
  match defaultRe.find df with
  | some dm =>
    { col with Default := Trim (TrimRight (TrimSpace (capture dm 1)) ",)".toList) quoteChars }
  | none => col

/-- Block "Extract REFERENCES (inline foreign key)" of `parseColumnDef`. -/
def withReferences (df : Str) (col : ColumnInfo) : ColumnInfo :=
  match referencesRe.find df with
  | some rm =>
    { col with IsForeignKey := true, ForeignTable := capture rm 1, ForeignKey := capture rm 2 }
  | none => col

/-- Go `parseColumnDef`; the result does not use `dialect`. -/
def parseColumnDef (df0 : Str) (_dialect : Str) : Except String ColumnInfo :=
  let df := TrimSpace df0
  match tokenizeSQL df with
  | name :: base :: after =>
    let colType := buildColType base after
    let col : ColumnInfo :=
      { Name := unquoteIdent name, IsNullable := true, SqlType := colType }
    .ok (withReferences df (withDefault df (withModifiers df colType col)))
  | _ => .error "sql parser: too few tokens in column def"

/-- State of the loop over the definitions in `parseCreateTable`. -/
structure DefsState where
  Columns : List ColumnInfo := []
  constraintPKs : List Str := []

/-- One round of the loop over the definitions in `parseCreateTable`. -/
def defStep (dialect : Str) (st : DefsState) (df0 : Str) : DefsState :=
  let df := TrimSpace df0
  let upper := ToUpper df
  if HasPrefix upper "PRIMARY KEY".toList then
    { st with constraintPKs := st.constraintPKs ++ extractConstraintColumns df }
  else if HasPrefix upper "FOREIGN KEY".toList then
    match parseForeignKeyConstraint df with
    | (localCol, foreignTable, foreignCol) =>
      if localCol ≠ [] then
        { st with Columns := markForeignKey st.Columns localCol foreignTable foreignCol }
      else st
  else if HasPrefix upper "UNIQUE".toList || HasPrefix upper "CHECK".toList
      || HasPrefix upper "CONSTRAINT".toList || HasPrefix upper "INDEX".toList
      || HasPrefix upper "KEY".toList then st
  else
    match parseColumnDef df dialect with
    | .ok col => { st with Columns := st.Columns ++ [col] }
    | .error _ => st

/-- The loop "Apply constraint-declared primary keys" of `parseCreateTable`. -/
def applyConstraintPKs (cols : List ColumnInfo) (constraintPKs : List Str) : List ColumnInfo :=
  constraintPKs.foldl (fun cs pkName =>
    cs.map (fun col =>
      if EqualFold col.Name pkName then { col with IsPrimaryKey := true, IsNullable := false }
      else col)) cols

/-- The loop that appends to the list `PrimaryKeys` the name of every column flagged
primary key, shared by `parseCreateTable` and `parseDBML`. -/
def appendPrimaryKeys (pks : List Str) (cols : List ColumnInfo) : List Str :=
  cols.foldl (fun acc col => if col.IsPrimaryKey then acc ++ [col.Name] else acc) pks

/-- The loop "Build PrimaryKeys list" of `parseCreateTable`. -/
def buildPrimaryKeys (cols : List ColumnInfo) : List Str := appendPrimaryKeys [] cols

/-- Go `parseCreateTable`. -/
def parseCreateTable (stmt : Str) (dialect : Str) : Except String TableInfo :=
  match tableNameRe.find stmt with
  | none => .error "sql parser: cannot extract table name"
  | some m =>
    let tableName := capture m 1
    let body := extractParenBody stmt
    if body.isEmpty then .error "sql parser: cannot extract column definitions"
    else
      let st := (splitColumnDefs body).foldl (defStep dialect) {}
      let cols := applyConstraintPKs st.Columns st.constraintPKs
      .ok { Name := tableName, Columns := cols, PrimaryKeys := buildPrimaryKeys cols }

/-- One round of the loop of `ParseCreateStatements`: the tables so far, then the
statement. -/
def stmtStep (dialect : Str) (tables : List TableInfo) (stmt : Str) : List TableInfo :=
  let trimmed := TrimSpace stmt
  let upper := ToUpper trimmed
  if !HasPrefix upper "CREATE TABLE".toList then tables
  else
    match parseCreateTable trimmed dialect with
    | .error _ => tables
    | .ok table => tables ++ [table]

/-- Go `ParseCreateStatements`. -/
def ParseCreateStatements (sql : Str) (dialect0 : Str) : Except String (List TableInfo) :=
  let dialect := if dialect0.isEmpty then detectDialect sql else dialect0
  let cleaned := removeComments sql
  let stmts := splitStatements cleaned
  .ok (stmts.foldl (stmtStep dialect) [])

/-! ## The DBML parser (`studio/import_schema.go`) -/

/-- Cut set of the default value in `parseDBMLColumn`: single quote, space, double
quote. -/
def dbmlDefaultQuotes : Str := [Char.ofNat 39, ' ', Char.ofNat 34]

/-- Go `parseDBMLColumn`; `none` stands for `nil`. -/
def parseDBMLColumn (line0 : Str) : Option ColumnInfo :=
  let line := TrimSpace line0
  if line.isEmpty then none
  else
    let attrs : Str := match Index line "[".toList with
      | some idx =>
        (match Index line "]".toList with
         | some endIdx => if idx < endIdx then ToLower ((line.take endIdx).drop (idx + 1)) else []
         | none => [])
      | none => []
    let line := match Index line "[".toList with
      | some idx => TrimSpace (line.take idx)
      | none => line
    match Fields line with
    | name :: ty :: more =>
      let col : ColumnInfo :=
        { Name := name, SqlType := Join " ".toList (ty :: more), IsNullable := true }
      let col := if Contains attrs "pk".toList then
          { col with IsPrimaryKey := true, IsNullable := false } else col
      let col := if Contains attrs "not null".toList then
          { col with IsNullable := false } else col
      let col := match Index attrs "default:".toList with
        | some idx =>
          let rest := TrimRight (TrimSpace (attrs.drop (idx + 8))) ",]".toList
          { col with Default := Trim rest dbmlDefaultQuotes }
        | none => col
      let col := match Index attrs "ref:".toList with
        | some idx =>
          let rest := TrimSpace (TrimLeft (TrimSpace (attrs.drop (idx + 4))) "> <-".toList)
          (match Split '.' rest with
           | [r0, r1] =>
             { col with IsForeignKey := true, ForeignTable := TrimRight r0 ",]".toList,
                        ForeignKey := TrimRight r1 ",]".toList }
           | _ => col)
        | none => col
      some col
    | _ => none

/-- The relationship operators tried by `parseDBMLRef`, in order. -/
def dbmlRefOps : List Str := [" > ".toList, " < ".toList, " - ".toList]

/-- The innermost loops of `parseDBMLRef`: mark column `fromCol` of every table named
`fromTable`. -/
def markRef (tables : List TableInfo) (fromTable fromCol toTable toCol : Str) :
    List TableInfo :=
  tables.map (fun table =>
    if table.Name = fromTable then
      { table with Columns := table.Columns.map (fun col =>
          if col.Name = fromCol then
            { col with IsForeignKey := true, ForeignTable := toTable, ForeignKey := toCol }
          else col) }
    else table)

/-- Go `parseDBMLRef`, returning the updated `tables`. -/
def parseDBMLRef (line0 : Str) (tables : List TableInfo) : List TableInfo :=
  let line := TrimSpace (TrimPrefix (TrimPrefix line0 "Ref:".toList) "ref:".toList)
  match dbmlRefOps.find? (fun op => Contains line op) with
  | none => tables
  | some op =>
    match SplitN2 line op with
    | [p0, p1] =>
      (match Split '.' (TrimSpace p0), Split '.' (TrimSpace p1) with
       | [ft, fc], [tt, tc] => markRef tables ft fc tt tc
       | _, _ => tables)
    | _ => tables

/-- Variables of the loop of `parseDBML`. -/
structure DBMLState where
  tables : List TableInfo := []
  currentTable : Option TableInfo := none
  inTable : Bool := false
  deriving DecidableEq

/-- Cut set of the table name in `parseDBML`: double quote, braces, back quote. -/
def dbmlNameQuotes : Str := [Char.ofNat 34, Char.ofNat 123, Char.ofNat 125, Char.ofNat 96]

/-- The branch "Table definition start" of `parseDBML`: the new state when the line
opens a table (the branch ends with `continue`), `none` when it falls through. -/
def dbmlOpen (st : DBMLState) (line : Str) : Option DBMLState :=
  if HasPrefix (ToLower line) "table ".toList && HasSuffix line [Char.ofNat 123] then
    match Fields line with
    | _ :: p1 :: _ =>
      some { st with currentTable := some { Name := Trim p1 dbmlNameQuotes }, inTable := true }
    | _ => none
  else none

/-- One round of the loop of `parseDBML`. -/
def dbmlStep (st : DBMLState) (line0 : Str) : DBMLState :=
  let line := TrimSpace line0
  if line.isEmpty || HasPrefix line "//".toList then st
  else
    match dbmlOpen st line with
    | some st1 => st1
    | none =>
      if line = [Char.ofNat 125] && st.inTable then
        { tables := match st.currentTable with
            | some t =>
              st.tables ++ [{ t with PrimaryKeys := appendPrimaryKeys t.PrimaryKeys t.Columns }]
            | none => st.tables,
          currentTable := none, inTable := false }
      else
        let st1 : DBMLState :=
          match st.currentTable with
          | some t =>
            if st.inTable && !HasPrefix (ToLower line) "ref:".toList then
              match parseDBMLColumn line with
              | some col => { st with currentTable := some { t with Columns := t.Columns ++ [col] } }
              | none => st
            else st
          | none => st
        if HasPrefix (ToLower line) "ref:".toList then
          { st1 with tables := parseDBMLRef line st1.tables }
        else st1

/-- The loop of `parseDBML` over the lines, from a given state. -/
def dbmlRunFrom (st : DBMLState) (lines : List Str) : DBMLState := lines.foldl dbmlStep st

/-- Go `parseDBML`. -/
def parseDBML (content : Str) : Except String (List TableInfo) :=
  let st := dbmlRunFrom {} (Split '\n' content)
  if st.tables.isEmpty then .error "no tables found in DBML" else .ok st.tables

/-! ## Definitions used by the statements -/

deriving instance DecidableEq for Except

/-- The rules of dialect detection in the words of the specification: the keywords
of a rule, and the dialect it gives; the first rule with a keyword in the text wins. -/
def dialectRules : List (List Str × Str) :=
  [(["AUTOINCREMENT".toList], "sqlite".toList),
   (["SERIAL".toList, "BYTEA".toList, "::".toList], "postgres".toList),
   (["AUTO_INCREMENT".toList, "ENGINE=".toList], "mysql".toList)]

/-- Dialect detection as the specification words it: first matching rule on the
upper-cased text, `sqlite` when none matches. -/
def detectDialectSpec (sql : Str) : Str :=
  match dialectRules.find? (fun rule => rule.1.any (fun kw => Contains (ToUpper sql) kw)) with
  | some rule => rule.2
  | none => "sqlite".toList

/-- Characters of a plain identifier: ASCII letters, digits and the underscore. -/
def identChar (c : Char) : Bool :=
  let n := c.toNat
  (48 ≤ n && n ≤ 57) || (65 ≤ n && n ≤ 90) || n = 95 || (97 ≤ n && n ≤ 122)

/-- A plain identifier: non-empty, made of `identChar`s. -/
def isIdent (s : Str) : Bool := !s.isEmpty && s.all identChar

/-- The blanks that `tokenizeSQL` treats as separators. -/
def sqlBlank (c : Char) : Bool := c = ' ' || c = '\t' || c = '\n' || c = '\r'

/-- The quote characters that open a literal in `tokenizeSQL`. -/
def sqlQuote (c : Char) : Bool := c = Char.ofNat 39 || c = Char.ofNat 34

/-- The text with the blanks and back quotes that stand outside quoted literals
removed; `inQuote` and `quoteChar` give the state at the start of the text. -/
def stripBlanks : Bool → Char → Str → Str
  | _, _, [] => []
  | true, quoteChar, c :: cs => c :: stripBlanks (c != quoteChar) quoteChar cs
  | false, quoteChar, c :: cs =>
    if sqlQuote c then c :: stripBlanks true c cs
    else if sqlBlank c || c = Char.ofNat 96 then stripBlanks false quoteChar cs
    else c :: stripBlanks false quoteChar cs

/-- A parameter list is well nested: its quoted literals are closed, and its
parentheses outside literals are balanced; `depth` counts the parentheses open at the
start of the text. -/
def nestedOK : Bool → Char → Nat → Str → Bool
  | inQuote, _, depth, [] => !inQuote && depth == 0
  | true, quoteChar, depth, c :: cs => nestedOK (c != quoteChar) quoteChar depth cs
  | false, quoteChar, depth, c :: cs =>
    if sqlQuote c then nestedOK true c depth cs
    else if c = '(' then nestedOK false quoteChar (depth + 1) cs
    else if c = ')' then
      match depth with
      | 0 => false
      | d + 1 => nestedOK false quoteChar d cs
    else nestedOK false quoteChar depth cs

/-- Outside a literal the pending token is not a lone parenthesis; inside a literal it
is not empty. -/
def pendingOK (inQuote : Bool) (cur : Str) : Prop :=
  if inQuote then cur ≠ [] else cur ≠ ['('] ∧ cur ≠ [')']

/-- The parameter list of a type is well nested, read from the state in which
`tokenizeSQL` starts. -/
def paramsWellNested (params : Str) : Bool := nestedOK false (Char.ofNat 0) 0 params

/-- The parameter list without the blanks and back quotes that stand outside quoted
literals. -/
def withoutBlanks (params : Str) : Str := stripBlanks false (Char.ofNat 0) params

/-- The top-level line `Ref: t1.c1 op t2.c2` of the DSL, `op` being the relationship
operator. -/
def refLine (t1 c1 : Str) (op : Char) (t2 c2 : Str) : Str :=
  "Ref: ".toList ++ (t1 ++ '.' :: c1) ++ ' ' :: op :: ' ' :: (t2 ++ '.' :: c2)

/-- The result of `parseDBML` read off the state of its loop. -/
def dbmlFinish (st : DBMLState) : Except String (List TableInfo) :=
  if st.tables.isEmpty then .error "no tables found in DBML" else .ok st.tables

/-- A line that `parseDBML` does not hand to `parseDBMLRef`. -/
def notRefLine (line : Str) : Bool := !HasPrefix (ToLower (TrimSpace line)) "ref:".toList

/-- The tables closed by the end of a DSL text: the variable `tables` of `parseDBML`
after the lines of the text. -/
def closedTables (text : Str) : List TableInfo := (dbmlRunFrom {} (Split '\n' text)).tables

/-- What follows a run of a class: nothing, or a character outside the class. -/
def stopsAt (p : Char → Bool) (rest : Str) : Prop := ∀ c, rest.head? = some c → p c = false

/-- The text `CREATE TABLE t (body)`. -/
def createTableText (t body : Str) : Str :=
  "CREATE TABLE ".toList ++ t ++ ' ' :: '(' :: body ++ [')']

/-- The parentheses of a text balance character by character (a parenthesis inside
a quoted literal counts like any other); `depth` is the number of parentheses open
at the start. -/
def balanced : Nat → Str → Bool
  | depth, [] => depth == 0
  | depth, c :: cs =>
    if c = '(' then balanced (depth + 1) cs
    else if c = ')' then
      match depth with
      | 0 => false
      | d + 1 => balanced d cs
    else balanced depth cs

/-- The text is `balanced` and every separator `sep` in it stands inside
parentheses. -/
def sealed (sep : Char) : Nat → Str → Bool
  | depth, [] => depth == 0
  | depth, c :: cs =>
    if c = '(' then sealed sep (depth + 1) cs
    else if c = ')' then
      match depth with
      | 0 => false
      | d + 1 => sealed sep d cs
    else if c = sep then depth != 0 && sealed sep depth cs
    else sealed sep depth cs

/-- The text holds no comment marker `--` or `/*`. -/
def noCommentMarker (s : Str) : Bool :=
  !Contains s "--".toList && !Contains s "/*".toList

/-- The part of a script between two `;`: blank text, or one statement
`CREATE TABLE t (body)` with blank text before and after it. -/
inductive ScriptPiece where
  | blank (ws : Str)
  | table (lead t body trail : Str)

/-- The text of a piece. -/
def ScriptPiece.text : ScriptPiece → Str
  | .blank ws => ws
  | .table lead t body trail => lead ++ createTableText t body ++ trail

/-- A piece is well formed: the blank parts are white space, the table name is a plain
identifier, and the body is not empty and has balanced parentheses. -/
def ScriptPiece.wellFormed : ScriptPiece → Bool
  | .blank ws => ws.all isSpace
  | .table lead t body trail =>
    lead.all isSpace && isIdent t && balanced 0 body && !body.isEmpty && trail.all isSpace

/-- The table name of a piece that is a statement. -/
def ScriptPiece.names : ScriptPiece → List Str
  | .blank _ => []
  | .table _ t _ _ => [t]

/-- The script made of the pieces, separated by `;`. -/
def scriptText (pieces : List ScriptPiece) : Str := Join [';'] (pieces.map ScriptPiece.text)

/-- The table names of the statements of a script, in order. -/
def tableNames (pieces : List ScriptPiece) : List Str := pieces.flatMap ScriptPiece.names

/-- The table that `parseCreateTable` builds from a table name and the definitions of
the body. -/
def tableOfDefs (dialect tableName : Str) (defs : List Str) : TableInfo :=
  let st := defs.foldl (defStep dialect) {}
  let cols := applyConstraintPKs st.Columns st.constraintPKs
  { Name := tableName, Columns := cols, PrimaryKeys := buildPrimaryKeys cols }

/-- The statement that `splitStatements` cuts out of a piece. -/
def ScriptPiece.stmts : ScriptPiece → List Str
  | .blank _ => []
  | .table _ t body _ => [createTableText t body]

/-- The table constraint `PRIMARY KEY (k1, ..., km)`. -/
def pkConstraintText (ks : List Str) : Str :=
  "PRIMARY KEY (".toList ++ Join ", ".toList ks ++ [')']

/-- The column is named by one of the keys, compared as `strings.EqualFold` does. -/
def namedBy (ks : List Str) (col : ColumnInfo) : Bool := ks.any (fun k => EqualFold col.Name k)

/-- A definition of a CREATE TABLE body as it stands between two top-level commas:
not empty, without blank text around it, with balanced parentheses and every comma
inside parentheses. -/
def plainDef (df : Str) : Bool := sealed ',' 0 df && !df.isEmpty && TrimSpace df == df

/-- The characters of `k1, ..., km`. -/
def keyListChar (c : Char) : Bool := identChar c || c = ',' || c = ' '

/-- The parenthesis depth at the end of a text that holds no separator at depth 0,
starting from `depth`; `none` when a separator stands at depth 0. -/
def scanDepth (sep : Char) : Int → Str → Option Int
  | depth, [] => some depth
  | depth, c :: cs =>
    if c = '(' then scanDepth sep (depth + 1) cs
    else if c = ')' then scanDepth sep (depth - 1) cs
    else if c = sep then (if depth = 0 then none else scanDepth sep depth cs)
    else scanDepth sep depth cs

/-- The tables of a result, none for an error. -/
def tablesOf (r : Except String (List TableInfo)) : List TableInfo :=
  match r with
  | .ok tables => tables
  | .error _ => []

/-- A line that opens a table block, in the words of the specification: without the
blanks around it, it starts with the keyword `Table` in any letter case followed by a
space, and ends with an opening brace. -/
def opensBlock (line : Str) : Bool :=
  HasPrefix (ToLower (TrimSpace line)) "table ".toList
    && HasSuffix (TrimSpace line) [Char.ofNat 123]

/-- The name of the table that a line opens: its second word, without quotes and
braces around it. -/
def blockName (line : Str) : Str := Trim ((Fields (TrimSpace line)).getD 1 []) dbmlNameQuotes

/-- A line that closes a table block: a lone closing brace. -/
def closesBlock (line : Str) : Bool := TrimSpace line = [Char.ofNat 125]

/-- The names of the table blocks closed in a list of lines, in the order in which
they are closed; `cur` is the name of the block that is open before the lines.  A
block runs from the last opening line to the next closing line. -/
def closedBlocks : Option Str → List Str → List Str
  | _, [] => []
  | cur, line :: rest =>
    if opensBlock line then closedBlocks (some (blockName line)) rest
    else if closesBlock line then
      match cur with
      | some name => name :: closedBlocks none rest
      | none => closedBlocks none rest
    else closedBlocks cur rest

/-- The numbers of the capture groups of a pattern. -/
def Rx.groups : Rx → List Nat
  | .seq a b => a.groups ++ b.groups
  | .alt a b => a.groups ++ b.groups
  | .opt a => a.groups
  | .group i a => i :: a.groups
  | _ => []

/-! ## The Go model parser (`studio/import_models.go`) -/

/-- Go `ParsedField`. -/
structure ParsedField where
  Name : Str := []
  GoType : Str := []
  GORMTag : Str := []
  JSONTag : Str := []
  deriving DecidableEq

/-- Go `ParsedStruct`. -/
structure ParsedStruct where
  Name : Str := []
  Fields : List ParsedField := []
  deriving DecidableEq

/-- A literal text in a pattern without `(?i)`. -/
def Rx.str : Str → Rx
  | [] => .nil
  | c :: cs => .seq (Rx.chr c) (Rx.str cs)

/-- Class `\w` of Go `regexp`: `[0-9A-Za-z_]`. -/
def rxWord (c : Char) : Bool :=
  let n := c.toNat
  (48 ≤ n && n ≤ 57) || (65 ≤ n && n ≤ 90) || n = 95 || (97 ≤ n && n ≤ 122)

/-- Class `[\w.*\[\]]` of the field patterns. -/
def rxTypeChar (c : Char) : Bool := rxWord c || c = '.' || c = '*' || c = '[' || c = ']'

/-- Go `FindStringSubmatch` for a pattern that starts with `^`: the match begins at the
start of the text. -/
def Rx.findStart (r : Rx) (s : Str) : Option Caps := r.run s [] (fun _ m => some m)

/-- Loop of `FindAllStringSubmatchIndex` for a pattern that matches no empty text:
`skip` characters belong to the last match, `pos` is the index of the next character;
each match is given by its captures and the index of its end. -/
def findAllGo (r : Rx) : Nat → Nat → Str → List (Caps × Nat)
  | _, _, [] => []
  | skip + 1, pos, _ :: cs => findAllGo r skip (pos + 1) cs
  | 0, pos, c :: cs =>
    match r.run (c :: cs) [] (fun rest m => some (m, (c :: cs).length - rest.length)) with
    | some (m, n) => (m, pos + n) :: findAllGo r (n - 1) (pos + 1) cs
    | none => findAllGo r 0 (pos + 1) cs

/-- Go `FindAllStringSubmatchIndex(s, -1)`, for a pattern that matches no empty text. -/
def Rx.findAll (r : Rx) (s : Str) : List (Caps × Nat) := findAllGo r 0 0 s

/-- Pattern of `parseGoStructs`: `type\s+(\w+)\s+struct\s*\{`. -/
def structRe : Rx :=
  Rx.cat [Rx.str "type".toList, .plus rxSpace, .group 1 (.plus rxWord), .plus rxSpace,
    Rx.str "struct".toList, .star rxSpace, Rx.chr (Char.ofNat 123)]

/-- Pattern of a field with tags in `parseStructFields`:
`^\s*(\w+)\s+([\w.*\[\]]+)\s*[bq](.*)[bq]` where `[bq]` is a back quote. -/
def fieldRe : Rx :=
  Rx.cat [.star rxSpace, .group 1 (.plus rxWord), .plus rxSpace, .group 2 (.plus rxTypeChar),
    .star rxSpace, Rx.chr (Char.ofNat 96), .group 3 (.star rxDot), Rx.chr (Char.ofNat 96)]

/-- Pattern of a field without tags in `parseStructFields`:
`^\s*(\w+)\s+([\w.*\[\]]+)\s*$`. -/
def fieldNoTagRe : Rx :=
  Rx.cat [.star rxSpace, .group 1 (.plus rxWord), .plus rxSpace, .group 2 (.plus rxTypeChar),
    .star rxSpace, .eot]

/-- Pattern `key:"([^"]*)"` of a tag in `parseStructFields`, `key` being `gorm` or
`json`. -/
def tagRe (key : Str) : Rx :=
  Rx.cat [Rx.str key, Rx.chr ':', Rx.chr (Char.ofNat 34),
    .group 1 (.star (fun c => c != Char.ofNat 34)), Rx.chr (Char.ofNat 34)]

/-- Loop of `extractBraceBody`: `cur` is `s[start:i]`. -/
def extractBraceBodyGo : Int → Str → Str → Str
  | _, _, [] => []
  | depth, cur, ch :: rest =>
    if ch = Char.ofNat 123 then extractBraceBodyGo (depth + 1) (cur ++ [ch]) rest
    else if ch = Char.ofNat 125 then
      if depth - 1 = 0 then cur.drop 1
      else extractBraceBodyGo (depth - 1) (cur ++ [ch]) rest
    else extractBraceBodyGo depth (cur ++ [ch]) rest

/-- Go `extractBraceBody`. -/
def extractBraceBody (s : Str) : Str :=
  match Index s [Char.ofNat 123] with
  | none => []
  | some start => extractBraceBodyGo 0 [] (s.drop start)

/-- The keys of the map `basics` in `isBasicGoType`. -/
def basicGoTypes : List Str :=
  ["string".toList, "int".toList, "int8".toList, "int16".toList, "int32".toList,
   "int64".toList, "uint".toList, "uint8".toList, "uint16".toList, "uint32".toList,
   "uint64".toList, "float32".toList, "float64".toList, "bool".toList,
   "byte".toList, "rune".toList, "time.Time".toList, "json.RawMessage".toList,
   "[]byte".toList]

/-- Go `isBasicGoType`. -/
def isBasicGoType (t : Str) : Bool := basicGoTypes.contains (TrimPrefix t "*".toList)

/-- Go `isRelationField`. -/
def isRelationField (f : ParsedField) : Bool :=
  let t := f.GoType
  if HasPrefix t "[]".toList && !isBasicGoType (t.drop 2) then true
  else if HasPrefix t "*".toList && (!isBasicGoType (t.drop 1) && !Contains (t.drop 1) ".".toList)
    then true
  else if !isBasicGoType t && !HasPrefix t "*".toList && !HasPrefix t "[]".toList
      && !Contains t ".".toList then true
  else false

/-- The field read from one line of a struct body by `parseStructFields`, before the
test for relation fields; `none` when the loop moves on to the next line. -/
def parseFieldLine (line0 : Str) : Option ParsedField :=
  let line := TrimSpace line0
  if line.isEmpty || HasPrefix line "//".toList then none
  else
    match fieldRe.findStart line with
    | some m =>
      let field : ParsedField := { Name := capture m 1, GoType := capture m 2 }
      let field := match (tagRe "gorm".toList).find (capture m 3) with
        | some gm => { field with GORMTag := capture gm 1 }
        | none => field
      let field := match (tagRe "json".toList).find (capture m 3) with
        | some jm => { field with JSONTag := capture jm 1 }
        | none => field
      some field
    | none =>
      match fieldNoTagRe.findStart line with
      | some m => some { Name := capture m 1, GoType := capture m 2 }
      | none => none

/-- One round of the loop of `parseStructFields`. -/
def fieldStep (fields : List ParsedField) (line : Str) : List ParsedField :=
  match parseFieldLine line with
  | some field => if isRelationField field then fields else fields ++ [field]
  | none => fields

/-- Go `parseStructFields`. -/
def parseStructFields (body : Str) : List ParsedField :=
  (Split '\n' body).foldl fieldStep []

/-- One round of the loop of `parseGoStructs` over the matches of `structRe`. -/
def structStep (source : Str) (structs : List ParsedStruct) (m : Caps × Nat) :
    List ParsedStruct :=
  let name := capture m.1 1
  let braceStart := m.2 - 1
  let body := extractBraceBody (source.drop braceStart)
  if body.isEmpty then structs
  else
    let fields := parseStructFields body
    if 0 < fields.length then structs ++ [{ Name := name, Fields := fields }] else structs

/-- Go `parseGoStructs`. -/
def parseGoStructs (source : Str) : Except String (List ParsedStruct) :=
  .ok ((structRe.findAll source).foldl (structStep source) [])

/-- Go `goTypeToSQLType`. -/
def goTypeToSQLType (goType : Str) (dialect : Str) : Str :=
  let t := TrimPrefix goType "*".toList
  if t = "int".toList || t = "int64".toList || t = "uint".toList || t = "uint64".toList then
    if dialect = "postgres".toList then "BIGINT".toList else "INTEGER".toList
  else if t = "int8".toList || t = "int16".toList || t = "int32".toList
      || t = "uint8".toList || t = "uint16".toList || t = "uint32".toList then
    if dialect = "postgres".toList then "INTEGER".toList else "INTEGER".toList
  else if t = "float32".toList || t = "float64".toList then
    if dialect = "postgres".toList then "DOUBLE PRECISION".toList else "REAL".toList
  else if t = "bool".toList then "BOOLEAN".toList
  else if t = "string".toList then "TEXT".toList
  else if t = "[]byte".toList then
    if dialect = "postgres".toList then "BYTEA".toList else "BLOB".toList
  else if t = "time.Time".toList then
    if dialect = "postgres".toList then "TIMESTAMP".toList else "DATETIME".toList
  else if t = "json.RawMessage".toList then
    if dialect = "postgres".toList then "JSONB".toList else "TEXT".toList
  else "TEXT".toList

/-- The definition that `parseGoStructs` reads at a match of `structRe`: the captured
name, and the fields parsed from the brace body that starts at the end of the match. -/
def structAt (source : Str) (m : Caps × Nat) : ParsedStruct :=
  { Name := capture m.1 1,
    Fields := parseStructFields (extractBraceBody (source.drop (m.2 - 1))) }

/-! ## The merge of model and catalog (`studio/schema.go`) -/

/-- The map `dbColMap` of `mergeTableInfo`, as the list of its entries with the last
one written first: a later column of the same name takes the place of an earlier one
in a lookup. -/
def dbColMap (cols : List ColumnInfo) : List (Str × ColumnInfo) :=
  cols.foldl (fun m col => (col.Name, col) :: m) []

/-- One round of the loop of `mergeTableInfo` over the columns of the model: the
column appended to the merged table. -/
def mergeColumn (m : List (Str × ColumnInfo)) (modelCol : ColumnInfo) : ColumnInfo :=
  let col := modelCol
  match m.lookup col.Name with
  | some dbCol =>
    let col := if col.SqlType = [] then { col with SqlType := dbCol.SqlType } else col
    if !col.IsForeignKey && dbCol.IsForeignKey then
      { col with IsForeignKey := true, ForeignTable := dbCol.ForeignTable,
                 ForeignKey := dbCol.ForeignKey }
    else col
  | none => col

/-- Go `mergeTableInfo`. -/
def mergeTableInfo (modelTable dbTable : TableInfo) : TableInfo :=
  { Name := modelTable.Name,
    Relations := modelTable.Relations,
    PrimaryKeys := modelTable.PrimaryKeys,
    Columns := modelTable.Columns.foldl
      (fun cols modelCol => cols ++ [mergeColumn (dbColMap dbTable.Columns) modelCol]) [] }

/-- The merged column in the words of the specification: the model column, with an
empty type filled from the catalog column of the same name, and with the foreign key
of that catalog column when the model column has none. -/
def mergedColumnSpec (modelCol : ColumnInfo) (catalog : List ColumnInfo) : ColumnInfo :=
  match catalog.find? (fun dbCol => dbCol.Name = modelCol.Name) with
  | none => modelCol
  | some dbCol =>
    { modelCol with
      SqlType := if modelCol.SqlType = [] then dbCol.SqlType else modelCol.SqlType,
      IsForeignKey := modelCol.IsForeignKey || dbCol.IsForeignKey,
      ForeignTable := if !modelCol.IsForeignKey && dbCol.IsForeignKey then dbCol.ForeignTable
        else modelCol.ForeignTable,
      ForeignKey := if !modelCol.IsForeignKey && dbCol.IsForeignKey then dbCol.ForeignKey
        else modelCol.ForeignKey }

/-! ## Quoting of identifiers (`studio/handlers.go`) -/

/-- Go `strings.ReplaceAll(s, old, new)` for a one-character `old`. -/
def ReplaceAll (s : Str) (old : Char) (new : Str) : Str :=
  match s with
  | [] => []
  | c :: cs => (if c = old then new else [c]) ++ ReplaceAll cs old new

/-- Go `quoteIdent`. -/
def quoteIdent (dialect name : Str) : Str :=
  if dialect = "mysql".toList then
    [Char.ofNat 96] ++ ReplaceAll name (Char.ofNat 96) [Char.ofNat 96, Char.ofNat 96]
      ++ [Char.ofNat 96]
  else
    [Char.ofNat 34] ++ ReplaceAll name (Char.ofNat 34) [Char.ofNat 34, Char.ofNat 34]
      ++ [Char.ofNat 34]

/-- The quote character of a dialect in the words of the specification: the back
quote for `mysql`, the double quote for every other dialect. -/
def quoteCharOf (dialect : Str) : Char :=
  if dialect = "mysql".toList then Char.ofNat 96 else Char.ofNat 34

/-- The text with every quote character `q` written twice. -/
def doubled (q : Char) (s : Str) : Str := s.flatMap (fun c => if c = q then [q, q] else [c])

/-- Worker of `undoubled`: `second` tells that the character before was a quote
character `q` that a second `q` may follow. -/
def undoubledGo (q : Char) : Bool → Str → Str
  | _, [] => []
  | true, a :: rest =>
    if a = q then undoubledGo q false rest else a :: undoubledGo q false rest
  | false, a :: rest => a :: undoubledGo q (decide (a = q)) rest

/-- The text with every pair `qq` of quote characters, read from the left, replaced
by one `q`. -/
def undoubled (q : Char) (s : Str) : Str := undoubledGo q false s

/-- The quoted text without its two outer quotes and with the inner ones undoubled. -/
def unquoted (q : Char) (s : Str) : Str := undoubled q ((s.drop 1).dropLast)

/-! ## The Go source emitter (`studio/codegen.go`) -/

/-- Go `SchemaInfo`. -/
structure SchemaInfo where
  Tables : List TableInfo := []
  Database : Str := []
  Driver : Str := []
  deriving DecidableEq

/-- Go `unicode.IsUpper` on the ASCII range: the letters `A`-`Z`. -/
def isUpperRune (c : Char) : Bool := 65 ≤ c.toNat && c.toNat ≤ 90

/-- The functions of Go's package `unicode` that `codegen.go` calls, given by what they
answer for a rune: `unicode.IsUpper`, `unicode.ToUpper` and `unicode.ToLower`
(`strings.ToLower` applies the last one to every rune of a text). -/
structure CaseTables where
  IsUpper : Char → Bool
  ToUpper : Char → Char
  ToLower : Char → Char

/-- The rows of the tables for the ASCII letters (and for the four other runes whose
upper or lower case is an ASCII letter); every other rune is kept and is no upper-case
letter.  Go's tables agree with these rows on every ASCII rune. -/
def asciiCase : CaseTables :=
  { IsUpper := isUpperRune, ToUpper := toUpperRune, ToLower := toLowerRune }

/-- The rows of `asciiCase`, and the row of U+03D2 (GREEK UPSILON WITH HOOK SYMBOL),
which Go's tables have as an upper-case letter without a lower-case form:
`unicode.IsUpper` holds for it and `unicode.ToLower` returns it. -/
def hookCase : CaseTables :=
  { IsUpper := fun c => isUpperRune c || c.toNat = 0x3D2, ToUpper := toUpperRune,
    ToLower := toLowerRune }

/-- The map `acronyms` of `toGoName`. -/
def acronyms : List (Str × Str) :=
  [("id".toList, "ID".toList), ("url".toList, "URL".toList), ("api".toList, "API".toList),
   ("ip".toList, "IP".toList), ("http".toList, "HTTP".toList),
   ("https".toList, "HTTPS".toList), ("sql".toList, "SQL".toList),
   ("ssh".toList, "SSH".toList), ("uuid".toList, "UUID".toList),
   ("uri".toList, "URI".toList), ("html".toList, "HTML".toList),
   ("css".toList, "CSS".toList), ("json".toList, "JSON".toList),
   ("xml".toList, "XML".toList), ("cpu".toList, "CPU".toList), ("gpu".toList, "GPU".toList)]

/-- One round of the loop of `toGoName` over the parts of the name, with the tables
`u` of package `unicode`. -/
def CaseTables.goNameStep (u : CaseTables) (result : Str) (part : Str) : Str :=
  match part with
  | [] => result
  | r0 :: runes =>
    match acronyms.lookup (part.map u.ToLower) with
    | some acronym => result ++ acronym
    | none => result ++ u.ToUpper r0 :: runes

/-- Go `toGoName`, with the tables `u` of package `unicode`. -/
def CaseTables.toGoName (u : CaseTables) (name : Str) : Str :=
  if name.isEmpty then [] else (Split '_' name).foldl u.goNameStep []

/-- Go `toGoName` on the rows `asciiCase` of the tables, as the emitter below is
evaluated; it is the code's result on every ASCII name. -/
def toGoName (name : Str) : Str := asciiCase.toGoName name

/-- Loop of `toSnakeCase`, with the tables `u` of package `unicode`: `first` tells
that the rune is the first one of the name (index 0). -/
def CaseTables.toSnakeCaseGo (u : CaseTables) : Bool → Str → Str
  | _, [] => []
  | first, r :: rest =>
    if u.IsUpper r then
      (if first then [] else ['_']) ++ u.ToLower r :: u.toSnakeCaseGo false rest
    else r :: u.toSnakeCaseGo false rest

/-- Go `toSnakeCase`, with the tables `u` of package `unicode`. -/
def CaseTables.toSnakeCase (u : CaseTables) (name : Str) : Str := u.toSnakeCaseGo true name

/-- Go `toSnakeCase` on the rows `asciiCase` of the tables, as the emitter below is
evaluated; it is the code's result on every ASCII name. -/
def toSnakeCase (name : Str) : Str := asciiCase.toSnakeCase name

/-- Go `extractSize`. -/
def extractSize (sqlType : Str) : Str :=
  match Index sqlType "(".toList, Index sqlType ")".toList with
  | some start, some stop =>
    if start < stop then (sqlType.take stop).drop (start + 1) else []
  | _, _ => []

/-- Go `buildGORMTag`. -/
def buildGORMTag (col : ColumnInfo) : Str :=
  let parts : List Str := if col.IsPrimaryKey then ["primaryKey".toList] else []
  let parts := parts ++ ["column:".toList ++ col.Name]
  let size := extractSize col.SqlType
  let parts := if size ≠ [] then parts ++ ["size:".toList ++ size] else parts
  let parts := if !col.IsNullable && !col.IsPrimaryKey then parts ++ ["not null".toList]
    else parts
  let parts := if col.Default ≠ [] then parts ++ ["default:".toList ++ col.Default]
    else parts
  "gorm:\"".toList ++ Join ";".toList parts ++ "\"".toList

/-- Go `singularize`. -/
def singularize (name : Str) : Str :=
  if HasSuffix name "ies".toList then name.take (name.length - 3) ++ "y".toList
  else if HasSuffix name "ses".toList || HasSuffix name "xes".toList
      || HasSuffix name "zes".toList then name.take (name.length - 2)
  else if HasSuffix name "s".toList && !HasSuffix name "ss".toList then
    name.take (name.length - 1)
  else name

/-- The `switch` of `sqlTypeToGoType` on the base type: the Go type of the case, and
whether the case returns it at once (`true`) or sets `goType` (`false`). -/
def baseGoType (base : Str) : Str × Bool :=
  if base ∈ ["INTEGER".toList, "INT".toList, "BIGINT".toList, "INT8".toList, "INT4".toList]
    then ("int64".toList, false)
  else if base ∈ ["SMALLINT".toList, "TINYINT".toList, "INT2".toList] then
    ("int32".toList, false)
  else if base ∈ ["REAL".toList, "FLOAT".toList, "DOUBLE".toList, "DOUBLE PRECISION".toList,
      "FLOAT8".toList, "FLOAT4".toList] then ("float64".toList, false)
  else if base ∈ ["NUMERIC".toList, "DECIMAL".toList] then ("float64".toList, false)
  else if base ∈ ["BOOLEAN".toList, "BOOL".toList] then ("bool".toList, false)
  else if base ∈ ["TEXT".toList, "VARCHAR".toList, "CHAR".toList, "CHARACTER".toList,
      "CHARACTER VARYING".toList, "NVARCHAR".toList, "LONGTEXT".toList, "MEDIUMTEXT".toList,
      "TINYTEXT".toList, "STRING".toList] then ("string".toList, false)
  else if base ∈ ["BLOB".toList, "BYTEA".toList, "BINARY".toList, "VARBINARY".toList,
      "LONGBLOB".toList, "MEDIUMBLOB".toList] then ("[]byte".toList, true)
  else if base ∈ ["TIMESTAMP".toList, "DATETIME".toList, "DATE".toList, "TIMESTAMPTZ".toList,
      "TIMESTAMP WITHOUT TIME ZONE".toList, "TIMESTAMP WITH TIME ZONE".toList]
    then ("time.Time".toList, false)
  else if base = "UUID".toList then ("string".toList, false)
  else if base ∈ ["JSON".toList, "JSONB".toList] then ("json.RawMessage".toList, true)
  else if base ∈ ["SERIAL".toList, "BIGSERIAL".toList, "SMALLSERIAL".toList]
    then ("int64".toList, false)
  else ("string".toList, false)

/-- The end of `sqlTypeToGoType`, after the `switch`: a case that returned keeps its
type, otherwise a nullable column gets a pointer type. -/
def afterSwitch (nullable : Bool) (r : Str × Bool) : Str :=
  if r.2 then r.1
  else if nullable && r.1 ≠ "[]byte".toList && r.1 ≠ "json.RawMessage".toList then
    "*".toList ++ r.1
  else r.1

/-- The step "Strip size/precision" of `sqlTypeToGoType`: the text before the first
opening parenthesis. -/
def stripSize (base : Str) : Str :=
  match Index base "(".toList with
  | some idx => base.take idx
  | none => base

/-- Go `sqlTypeToGoType`. -/
def sqlTypeToGoType (sqlType : Str) (nullable : Bool) : Str :=
  let upper := ToUpper sqlType
  let base := stripSize upper
  afterSwitch nullable (baseGoType (TrimSpace base))

/-- The Go type of a column in the generated source: `col.GoType` when it is set,
else the type mapped from the SQL type. -/
def columnGoType (col : ColumnInfo) : Str :=
  if col.GoType ≠ [] then col.GoType else sqlTypeToGoType col.SqlType col.IsNullable

/-- One round of the loop of `generateStructForTable` over the columns: the line
written for the column. -/
def columnFieldLine (col : ColumnInfo) : Str :=
  let goType := columnGoType col
  let fieldName := toGoName col.Name
  let gormTag := buildGORMTag col
  let jsonTag := "json:\"".toList ++ col.Name ++ "\"".toList
  "\t".toList ++ fieldName ++ " ".toList ++ goType ++ [' ', Char.ofNat 96] ++ gormTag
    ++ " ".toList ++ jsonTag ++ [Char.ofNat 96, '\n']

/-- The `switch` of the loop of `generateStructForTable` over the relations: the type
and the tag of the field, `none` for the `default` branch (`continue`). -/
def relationTypeAndTag (table : TableInfo) (rel : RelationInfo) : Option (Str × Str) :=
  let relStructName := toGoName (singularize rel.Table)
  if rel.Kind = "has_one".toList || rel.Kind = "belongs_to".toList then
    some (relStructName, "gorm:\"foreignKey:".toList ++ toGoName rel.ForeignKey ++ "\"".toList)
  else if rel.Kind = "has_many".toList then
    some ("[]".toList ++ relStructName,
      "gorm:\"foreignKey:".toList ++ toGoName rel.ForeignKey ++ "\"".toList)
  else if rel.Kind = "many_to_many".toList then
    some ("[]".toList ++ relStructName,
      if rel.JoinTable ≠ [] then "gorm:\"many2many:".toList ++ rel.JoinTable ++ "\"".toList
      else "gorm:\"many2many:".toList ++ table.Name ++ "_".toList ++ rel.Table
        ++ "\"".toList)
  else none

/-- One round of the loop of `generateStructForTable` over the relations: the text
written for the relation (nothing for a relation of another kind). -/
def relationFieldLine (table : TableInfo) (rel : RelationInfo) : Str :=
  match relationTypeAndTag table rel with
  | some (fieldType, tag) =>
    "\t".toList ++ toGoName rel.Name ++ " ".toList ++ fieldType ++ [' ', Char.ofNat 96] ++ tag
      ++ " json:\"".toList ++ toSnakeCase rel.Name ++ ",omitempty\"".toList
      ++ [Char.ofNat 96, '\n']
  | none => []

/-- Go `generateStructForTable`; the schema argument is not used by the source. -/
def generateStructForTable (table : TableInfo) (_schema : SchemaInfo) : Str :=
  let sb := "type ".toList ++ toGoName (singularize table.Name) ++ " struct \x7b\n".toList
  let sb := table.Columns.foldl (fun sb col => sb ++ columnFieldLine col) sb
  let sb := table.Relations.foldl (fun sb rel => sb ++ relationFieldLine table rel) sb
  sb ++ "\x7d\n".toList

/-- The first loop of `GenerateGoModels`: the imports needed, `(needsTime, needsJSON)`. -/
def neededImports (schema : SchemaInfo) : Bool × Bool :=
  schema.Tables.foldl (fun acc table =>
    table.Columns.foldl (fun acc col =>
      let goType := columnGoType col
      (acc.1 || Contains goType "time.Time".toList,
       acc.2 || Contains goType "json.RawMessage".toList)) acc) (false, false)

/-- The last loop of `GenerateGoModels`: `i` is the index of the first table of the
list, `n` the number of tables of the schema. -/
def writeStructs (schema : SchemaInfo) (n : Nat) : Nat → List TableInfo → Str → Str
  | _, [], sb => sb
  | i, table :: rest, sb =>
    let sb := sb ++ generateStructForTable table schema
    let sb := if i < n - 1 then sb ++ "\n".toList else sb
    writeStructs schema n (i + 1) rest sb

/-- The block `if needsTime || needsJSON` of `GenerateGoModels`: the import
declaration written for `needs = (needsTime, needsJSON)`. -/
def importBlock (needs : Bool × Bool) : Str :=
  if needs.1 || needs.2 then
    let sb := "import (\n".toList
    let sb := if needs.2 then sb ++ "\t\"encoding/json\"\n".toList else sb
    let sb := if needs.1 then sb ++ "\t\"time\"\n".toList else sb
    sb ++ ")\n\n".toList
  else []

/-- Go `GenerateGoModels`. -/
def GenerateGoModels (schema : SchemaInfo) : Str :=
  let sb := "package models\n\n".toList
  let sb := sb ++ importBlock (neededImports schema)
  writeStructs schema schema.Tables.length 0 schema.Tables sb

/-- The relation has one of the four kinds for which `generateStructForTable` writes
a field. -/
def knownKind (rel : RelationInfo) : Bool :=
  rel.Kind = "has_one".toList || rel.Kind = "belongs_to".toList
    || rel.Kind = "has_many".toList || rel.Kind = "many_to_many".toList

/-- The struct block of a table in the words of the specification: the line
`type Name struct \x7b` with `Name = toGoName (singularize table.Name)`, one field line
per column in column order, one field line per relation of a known kind, and the
closing brace. -/
def structBlock (table : TableInfo) : Str :=
  "type ".toList ++ toGoName (singularize table.Name) ++ " struct \x7b\n".toList
    ++ table.Columns.flatMap columnFieldLine
    ++ (table.Relations.filter knownKind).flatMap (relationFieldLine table)
    ++ "\x7d\n".toList

/-- The text that `toGoName` writes for one non-empty part of a name, in the words of
the specification: the acronym of the part when its lower-case form is a listed
acronym, else the part with its first character in upper case. -/
def CaseTables.goNamePart (u : CaseTables) (part : Str) : Str :=
  match acronyms.lookup (part.map u.ToLower) with
  | some acronym => acronym
  | none =>
    match part with
    | [] => []
    | r0 :: runes => u.ToUpper r0 :: runes

/-- The text holds ASCII characters only. -/
def isASCII (s : Str) : Bool := s.all (fun c => c.toNat < 128)

/-- The snake-case form of a name in the words of the specification: each upper-case
letter is replaced by its lower-case form, with an underscore before it unless it is
the first character; every other character is kept. -/
def CaseTables.snakeCaseSpec (u : CaseTables) (name : Str) : Str :=
  name.enum.flatMap (fun ic =>
    if u.IsUpper ic.2 then (if ic.1 = 0 then [] else ['_']) ++ [u.ToLower ic.2]
    else [ic.2])

/-- The tables agree with Go's on the ASCII runes: there `unicode.IsUpper` holds for
the letters `A`-`Z`, and `unicode.ToUpper` and `unicode.ToLower` change the case of a
letter and keep every other rune. -/
def CaseTables.onASCII (u : CaseTables) : Prop :=
  ∀ c : Char, c.toNat < 128 →
    u.IsUpper c = isUpperRune c ∧ u.ToUpper c = toUpperRune c ∧ u.ToLower c = toLowerRune c

/-- No rune other than the underscore has the underscore as upper case (the underscore
is no letter, so Go's tables have no row that leads to it). -/
def CaseTables.keepsUnderscore (u : CaseTables) : Prop :=
  ∀ c : Char, u.ToUpper c = '_' → c = '_'

/-! ## Introspection (`studio/schema.go`) -/

/-- What the connection `db` answers to `IntrospectSchema`: the name of its dialect
(`db.Dialector.Name()`), the tables that the catalog queries of that dialect return
(`introspectSQLite`, `introspectPostgres`, `introspectMySQL`), and the row count of a
table (`db.Table(name).Count`). -/
structure Connection where
  dialect : Str
  catalog : List TableInfo
  rowCount : Str → Int

/-- Go `introspectDatabase`. -/
def introspectDatabase (db : Connection) : Except String (List TableInfo) :=
  if db.dialect = "sqlite".toList then .ok db.catalog
  else if db.dialect = "postgres".toList then .ok db.catalog
  else if db.dialect = "mysql".toList then .ok db.catalog
  else .error ("unsupported dialect: " ++ String.mk db.dialect)

/-- The assignment `m[key] = value` on a Go map kept as the list of its entries: the
entry of the key is replaced, a new key is added at the end. -/
def mapPut (m : List (Str × TableInfo)) (key : Str) (value : TableInfo) :
    List (Str × TableInfo) :=
  if m.any (fun kv => kv.1 = key) then
    m.map (fun kv => if kv.1 = key then (key, value) else kv)
  else m ++ [(key, value)]

/-- The first loop of `IntrospectSchema`: the map `modelTables`; a model is given by
the result of `parseGORMModel` on it, `none` standing for an error. -/
def modelTables (models : List (Option TableInfo)) : List (Str × TableInfo) :=
  models.foldl (fun m r =>
    match r with
    | some table => mapPut m table.Name table
    | none => m) []

/-- The loop "Merge information from both sources" of `IntrospectSchema`. -/
def mergeCatalog (m : List (Str × TableInfo)) (dbTables : List TableInfo) : List TableInfo :=
  dbTables.foldl (fun tables dbTable =>
    match m.lookup dbTable.Name with
    | some modelTable => tables ++ [mergeTableInfo modelTable dbTable]
    | none => tables ++ [dbTable]) []

/-- Go `IntrospectSchema`; the models are given by the results of `parseGORMModel`.
Go leaves the order of a loop over a map open: the embedding takes the order in which
the keys were first written. -/
def IntrospectSchema (db : Connection) (models : List (Option TableInfo)) :
    Except String SchemaInfo :=
  let schema : SchemaInfo := { Tables := [], Driver := db.dialect }
  let m := modelTables models
  match introspectDatabase db with
  | .error _ => .ok { schema with Tables := schema.Tables ++ m.map (fun kv => kv.2) }
  | .ok dbTables =>
    let tables := schema.Tables ++ mergeCatalog m dbTables
    let seen := dbTables.map (fun t => t.Name)
    let tables := tables ++ (m.filter (fun kv => !seen.contains kv.1)).map (fun kv => kv.2)
    .ok { schema with
          Tables := tables.map (fun t => { t with RowCount := db.rowCount t.Name }) }

/-- The pieces of a script between the semicolons at which it is cut: every piece
holds no `;` at parenthesis depth 0, and every piece but the last ends at depth 0, so
that the `;` after it stands at depth 0; `depth` is the depth at the start of the first
piece, and a parenthesis counts wherever it stands, also inside a quoted literal. -/
def cutAtDepthZero : Int → List Str → Bool
  | _, [] => false
  | depth, [p] => (scanDepth ';' depth p).isSome
  | depth, p :: q :: rest => scanDepth ';' depth p == some 0 && cutAtDepthZero 0 (q :: rest)

/-! ## Definitions used by the statement on DEFAULT values -/

/-- The alternatives `NOT\s+NULL|NULL|PRIMARY|UNIQUE|CHECK|REFERENCES|CONSTRAINT` of
the pattern `defaultRe`. -/
def modifierAlt : Rx :=
  .alt (Rx.cat [Rx.lit "NOT".toList, .plus rxSpace, Rx.lit "NULL".toList])
    (.alt (Rx.lit "NULL".toList)
    (.alt (Rx.lit "PRIMARY".toList)
    (.alt (Rx.lit "UNIQUE".toList)
    (.alt (Rx.lit "CHECK".toList)
    (.alt (Rx.lit "REFERENCES".toList) (Rx.lit "CONSTRAINT".toList))))))

/-- The end `(?:\s+(?:NOT\s+NULL|...|CONSTRAINT)|$)` of the pattern `defaultRe`. -/
def defaultTail : Rx := .alt (Rx.cat [.plus rxSpace, modifierAlt]) .eot

/-- The keywords that end the value in the pattern `defaultRe` (`NOT NULL` ends
with the first of them). -/
def modifierWords : List Str :=
  ["NULL".toList, "PRIMARY".toList, "UNIQUE".toList, "CHECK".toList, "REFERENCES".toList,
    "CONSTRAINT".toList]

/-- The texts a modifier after the value starts with. -/
def modifierStarts : List Str := "NOT NULL".toList :: modifierWords

/-- No keyword of `modifierWords` stands in `w`, in any letter case. -/
def noModifierWord (w : Str) : Bool :=
  modifierWords.all (fun kw => !Contains (w.map foldRune) (kw.map foldRune))

/-- The first character of `s` is one of `cut`. -/
def firstIn (s cut : Str) : Bool :=
  match s.head? with
  | some a => cut.contains a
  | none => false

/-- The last character of `s` is one of `cut`. -/
def lastIn (s cut : Str) : Bool :=
  match s.getLast? with
  | some a => cut.contains a
  | none => false

/-- A bare value: not empty, without white space, with no quote character at either
end and no `,` or `)` at its end. -/
def bareDefault (w : Str) : Bool :=
  !w.isEmpty && w.all (fun c => !isSpace c) && !firstIn w quoteChars
    && !lastIn w (",)".toList ++ quoteChars)

/-- The content of a quoted literal: no line feed, no quote character at either end,
and none of the keywords of `modifierWords`. -/
def literalContent (w : Str) : Bool :=
  w.all rxDot && !firstIn w quoteChars && !lastIn w quoteChars && noModifierWord w

/-- The word `s` ends in the letters `default`, in any letter case. -/
def endsInDefault (s : Str) : Bool := HasSuffix (s.map foldRune) "default".toList

/-- The text `s` does not end in white space. -/
def endsClean (s : Str) : Bool :=
  match s.getLast? with
  | some a => !isSpace a
  | none => true

/-- The column definition `c T DEFAULT v` followed by `tail`. -/
def defaultDefText (c T v tail : Str) : Str :=
  c ++ ' ' :: (T ++ ' ' :: ("DEFAULT".toList ++ ' ' :: (v ++ tail)))

/-! ## Definitions used by the statements on the body of a CREATE TABLE -/

/-- The test of the loop of `parseCreateTable` for a table constraint: the upper-case
form of the definition starts with `PRIMARY KEY`, `FOREIGN KEY`, `UNIQUE`, `CHECK`,
`CONSTRAINT`, `INDEX` or `KEY`. -/
def constraintStart (df : Str) : Bool :=
  HasPrefix (ToUpper df) "PRIMARY KEY".toList || HasPrefix (ToUpper df) "FOREIGN KEY".toList
    || HasPrefix (ToUpper df) "UNIQUE".toList || HasPrefix (ToUpper df) "CHECK".toList
    || HasPrefix (ToUpper df) "CONSTRAINT".toList || HasPrefix (ToUpper df) "INDEX".toList
    || HasPrefix (ToUpper df) "KEY".toList

/-- The type is one of `SERIAL`, `BIGSERIAL`, `SMALLSERIAL`, in any letter case. -/
def serialType (colType : Str) : Bool :=
  EqualFold colType "SERIAL".toList || EqualFold colType "BIGSERIAL".toList
    || EqualFold colType "SMALLSERIAL".toList

/-- A definition of the body of a CREATE TABLE statement: the declaration
`name T rest` of a column, or a table constraint. -/
inductive BodyItem where
  | column (name typ rest : Str)
  | constraint (text : Str)

/-- The text of a definition. -/
def BodyItem.text : BodyItem → Str
  | .column name typ rest => name ++ ' ' :: (typ ++ rest)
  | .constraint text => text

/-- A definition is well formed.  A column declaration `name T rest`: `name` and `T`
are plain identifiers, `rest` is empty or starts with a blank or with `(`, the text is
a `plainDef`, it does not start with a constraint keyword, and it gives no
column-level key (no `PRIMARY KEY` in it, `T` no serial type).  A table constraint: a
`plainDef` that starts with a constraint keyword other than `PRIMARY KEY`. -/
def BodyItem.wellFormed : BodyItem → Bool
  | .column name typ rest =>
    isIdent name && isIdent typ
      && (rest.isEmpty || rest.head? = some ' ' || rest.head? = some '(')
      && plainDef (name ++ ' ' :: (typ ++ rest))
      && !constraintStart (name ++ ' ' :: (typ ++ rest))
      && !Contains (ToUpper (name ++ ' ' :: (typ ++ rest))) "PRIMARY KEY".toList
      && !serialType typ
  | .constraint text =>
    plainDef text && constraintStart text && !HasPrefix (ToUpper text) "PRIMARY KEY".toList

/-- The name of the column that a definition declares. -/
def BodyItem.names : BodyItem → List Str
  | .column name _ _ => [name]
  | .constraint _ => []

/-- The names of the declared columns of a body, in the order of the declarations. -/
def declaredNames (items : List BodyItem) : List Str := items.flatMap BodyItem.names

/-- The column definition `name BASE(params)rest`. -/
def columnDefText (name base params rest : Str) : Str :=
  name ++ ' ' :: (base ++ '(' :: (params ++ ')' :: rest))

/-! # Properties -/

/-! ## C8: dialect detection -/

/-- C8: `detectDialect` decides by first match on the upper-cased text (AUTOINCREMENT
gives sqlite; else SERIAL, BYTEA or `::` give postgres; else AUTO_INCREMENT or ENGINE=
give mysql; else sqlite), and its result is one of sqlite, postgres, mysql. -/
theorem detectDialect_first_match (sql : Str) :
    detectDialect sql = detectDialectSpec sql ∧
    detectDialect sql ∈ ["sqlite".toList, "postgres".toList, "mysql".toList] := by
  unfold detectDialect detectDialectSpec dialectRules
  simp only [List.find?, List.any, Bool.or_false]
  generalize Contains (ToUpper sql) "AUTOINCREMENT".toList = b1
  generalize Contains (ToUpper sql) "SERIAL".toList = b2
  generalize Contains (ToUpper sql) "::".toList = b3
  generalize Contains (ToUpper sql) "BYTEA".toList = b4
  generalize Contains (ToUpper sql) "AUTO_INCREMENT".toList = b5
  generalize Contains (ToUpper sql) "ENGINE=".toList = b6
  cases b1 <;> cases b2 <;> cases b3 <;> cases b4 <;> cases b5 <;> cases b6 <;> decide

/-! ## Characters and the tokenizer -/

theorem identChar_not_space {c : Char} (h : identChar c = true) : isSpace c = false := by
  simp only [identChar, Bool.or_eq_true, Bool.and_eq_true, decide_eq_true_eq] at h
  simp only [isSpace, Bool.or_eq_false_iff, Bool.and_eq_false_iff, decide_eq_false_iff_not]
  omega


theorem identChar_not_blank {c : Char} (h : identChar c = true) : sqlBlank c = false := by
  by_contra hb
  simp only [sqlBlank, Bool.not_eq_false, Bool.or_eq_true, decide_eq_true_eq] at hb
  rcases hb with ((rfl | rfl) | rfl) | rfl <;> revert h <;> decide

theorem identChar_not_quote {c : Char} (h : identChar c = true) : sqlQuote c = false := by
  by_contra hb
  simp only [sqlQuote, Bool.not_eq_false, Bool.or_eq_true, decide_eq_true_eq] at hb
  rcases hb with rfl | rfl <;> revert h <;> decide

theorem identChar_ne {c : Char} (h : identChar c = true) (x : Char) (hx : identChar x = false) :
    c ≠ x := by
  rintro rfl
  rw [h] at hx
  exact absurd hx (by decide)

/-! ## The tokenizer -/

theorem tokenizeGo_quote_open (cur : Str) (q c : Char) (rest : Str) (h : sqlQuote c = true) :
    tokenizeGo cur false q (c :: rest) = tokenizeGo (cur ++ [c]) true c rest := by
  simp only [sqlQuote, Bool.or_eq_true, decide_eq_true_eq] at h
  simp [tokenizeGo, h]

theorem tokenizeGo_paren (cur : Str) (q c : Char) (rest : Str) (h : c = '(' ∨ c = ')') :
    tokenizeGo cur false q (c :: rest) = flushToken cur ++ [c] :: tokenizeGo [] false q rest := by
  have hq : ¬ (c = Char.ofNat 39 ∨ c = Char.ofNat 34) := by
    rcases h with rfl | rfl <;> decide
  simp [tokenizeGo, hq, h]

theorem tokenizeGo_blank (cur : Str) (q c : Char) (rest : Str) (h : sqlBlank c = true) :
    tokenizeGo cur false q (c :: rest) = flushToken cur ++ tokenizeGo [] false q rest := by
  simp only [sqlBlank, Bool.or_eq_true, decide_eq_true_eq] at h
  have hq : ¬ (c = Char.ofNat 39 ∨ c = Char.ofNat 34) := by
    rcases h with ((rfl | rfl) | rfl) | rfl <;> decide
  have hp : ¬ (c = '(' ∨ c = ')') := by
    rcases h with ((rfl | rfl) | rfl) | rfl <;> decide
  have hb : c = ' ' ∨ c = '\t' ∨ c = '\n' ∨ c = '\r' := by tauto
  simp [tokenizeGo, hq, hp, hb]

theorem tokenizeGo_tick (cur : Str) (q : Char) (rest : Str) :
    tokenizeGo cur false q (Char.ofNat 96 :: rest) = tokenizeGo cur false q rest := by
  simp [tokenizeGo]

theorem tokenizeGo_plain (cur : Str) (q c : Char) (rest : Str) (hq : sqlQuote c = false)
    (hb : sqlBlank c = false) (h1 : c ≠ '(') (h2 : c ≠ ')') (h3 : c ≠ Char.ofNat 96) :
    tokenizeGo cur false q (c :: rest) = tokenizeGo (cur ++ [c]) false q rest := by
  simp only [sqlQuote, Bool.or_eq_false_iff, decide_eq_false_iff_not] at hq
  simp only [sqlBlank, Bool.or_eq_false_iff, decide_eq_false_iff_not] at hb
  simp [tokenizeGo, hq, hb, h1, h2, h3]

theorem tokenizeGo_ident (w : Str) (hw : w.all identChar = true) (cur : Str) (q : Char)
    (rest : Str) :
    tokenizeGo cur false q (w ++ rest) = tokenizeGo (cur ++ w) false q rest := by
  induction w generalizing cur with
  | nil => simp
  | cons c w ih =>
    simp only [List.all_cons, Bool.and_eq_true] at hw
    rw [List.cons_append, tokenizeGo_plain cur q c _ (identChar_not_quote hw.1)
      (identChar_not_blank hw.1) (identChar_ne hw.1 _ (by decide))
      (identChar_ne hw.1 _ (by decide)) (identChar_ne hw.1 _ (by decide)), ih hw.2]
    simp

theorem typeParams_flush (depth : Int) (hd : 0 < depth) (cur : Str)
    (hc : cur ≠ ['('] ∧ cur ≠ [')']) (toks : List Str) :
    typeParams depth (flushToken cur ++ toks) = cur ++ typeParams depth toks := by
  by_cases he : cur = []
  · simp [he, flushToken]
  · have : flushToken cur = [cur] := by
      cases cur with
      | nil => exact absurd rfl he
      | cons a l => simp [flushToken]
    rw [this]
    simp [typeParams, hc.1, hc.2, hd]

theorem tokenizeGo_close (cur : Str) (q : Char) (rest : Str) :
    tokenizeGo cur true q (q :: rest) = (cur ++ [q]) :: tokenizeGo [] false q rest := by
  simp [tokenizeGo]

theorem tokenizeGo_inside (cur : Str) (q c : Char) (rest : Str) (h : c ≠ q) :
    tokenizeGo cur true q (c :: rest) = tokenizeGo (cur ++ [c]) true q rest := by
  simp [tokenizeGo, h]

theorem typeParams_open (depth : Int) (hd : 0 < depth) (toks : List Str) :
    typeParams depth (['('] :: toks) = '(' :: typeParams (depth + 1) toks := by
  have : 0 < depth + 1 := by omega
  simp [typeParams, this]

theorem typeParams_close (depth : Int) (toks : List Str) :
    typeParams (depth + 1) ([')'] :: toks)
      = ')' :: (if 0 < depth then typeParams depth toks else []) := by
  simp [typeParams]

theorem typeParams_token (depth : Int) (hd : 0 < depth) (tok : Str)
    (hc : tok ≠ ['('] ∧ tok ≠ [')']) (toks : List Str) :
    typeParams depth (tok :: toks) = tok ++ typeParams depth toks := by
  simp [typeParams, hc.1, hc.2, hd]

/-- The size specifier built from a well-nested parameter list is the list without
its blanks and back quotes outside literals. -/
theorem typeParams_tokenize (s : Str) : ∀ (cur : Str) (inQuote : Bool) (q : Char) (d : Nat)
    (rest : Str), nestedOK inQuote q d s = true → pendingOK inQuote cur →
    typeParams ((d : Int) + 1) (tokenizeGo cur inQuote q (s ++ ')' :: rest))
      = cur ++ stripBlanks inQuote q s ++ [')'] := by
  induction s with
  | nil =>
    intro cur inQuote q d rest hn hp
    cases inQuote with
    | true => simp [nestedOK] at hn
    | false =>
      simp only [nestedOK, Bool.not_false, Bool.true_and, beq_iff_eq] at hn
      subst hn
      simp only [pendingOK] at hp
      rw [List.nil_append, tokenizeGo_paren _ _ _ _ (Or.inr rfl),
        typeParams_flush _ (by simp) _ (by simpa using hp), typeParams_close]
      simp [stripBlanks]
  | cons c s ih =>
    intro cur inQuote q d rest hn hp
    have hpos : (0 : Int) < (d : Int) + 1 := by omega
    cases inQuote with
    | true =>
      simp only [nestedOK] at hn
      simp only [pendingOK, if_true] at hp
      by_cases hcq : c = q
      · subst hcq
        have hlen : cur ++ [c] ≠ ['('] ∧ cur ++ [c] ≠ [')'] := by
          constructor <;> intro h <;> have := congrArg List.length h <;>
            cases cur <;> simp at this hp
        simp only [bne_self_eq_false] at hn
        rw [List.cons_append, tokenizeGo_close, typeParams_token _ hpos _ hlen,
          ih [] false c d rest hn (by simp [pendingOK])]
        simp [stripBlanks]
      · have hne : (c != q) = true := by simp [hcq]
        rw [hne] at hn
        rw [List.cons_append, tokenizeGo_inside _ _ _ _ hcq,
          ih (cur ++ [c]) true q d rest hn (by simp [pendingOK])]
        simp [stripBlanks, hne]
    | false =>
      simp only [pendingOK] at hp
      have hp' : cur ≠ ['('] ∧ cur ≠ [')'] := by simpa using hp
      simp only [nestedOK] at hn
      by_cases hq : sqlQuote c = true
      · simp only [hq, if_true] at hn
        rw [List.cons_append, tokenizeGo_quote_open _ _ _ _ hq,
          ih (cur ++ [c]) true c d rest hn (by simp [pendingOK])]
        simp [stripBlanks, hq]
      · have hq' : sqlQuote c = false := by simpa using hq
        simp only [hq', Bool.false_eq_true, if_false] at hn
        by_cases h1 : c = '('
        · subst h1
          simp only [if_true] at hn
          have := ih [] false q (d + 1) rest hn (by simp [pendingOK])
          rw [Nat.cast_succ] at this
          rw [List.cons_append, tokenizeGo_paren _ _ _ _ (Or.inl rfl),
            typeParams_flush _ hpos _ hp', typeParams_open _ hpos, this]
          simp [stripBlanks, sqlQuote, sqlBlank]
        · simp only [h1, if_false] at hn
          by_cases h2 : c = ')'
          · subst h2
            simp only [if_true] at hn
            cases d with
            | zero => simp at hn
            | succ d' =>
              simp only at hn
              have hpos' : (0 : Int) < (d' : Int) + 1 := by omega
              rw [List.cons_append, tokenizeGo_paren _ _ _ _ (Or.inr rfl),
                typeParams_flush _ hpos _ hp', Nat.cast_succ, typeParams_close, if_pos hpos',
                ih [] false q d' rest hn (by simp [pendingOK])]
              simp [stripBlanks, sqlQuote, sqlBlank]
          · simp only [h2, if_false] at hn
            by_cases hb : sqlBlank c = true
            · rw [List.cons_append, tokenizeGo_blank _ _ _ _ hb,
                typeParams_flush _ hpos _ hp',
                ih [] false q d rest hn (by simp [pendingOK])]
              simp [stripBlanks, hq', hb]
            · have hb' : sqlBlank c = false := by simpa using hb
              by_cases h3 : c = Char.ofNat 96
              · subst h3
                rw [List.cons_append, tokenizeGo_tick,
                  ih cur false q d rest hn (by simpa [pendingOK] using hp')]
                simp [stripBlanks, sqlQuote, sqlBlank]
              · have hnp : cur ++ [c] ≠ ['('] ∧ cur ++ [c] ≠ [')'] := by
                  constructor <;> intro h <;> cases cur with
                  | nil => simp at h; first | exact h1 h | exact h2 h
                  | cons a l => cases l <;> simp at h
                rw [List.cons_append, tokenizeGo_plain _ _ _ _ hq' hb' h1 h2 h3,
                  ih (cur ++ [c]) false q d rest hn (by simpa [pendingOK] using hnp)]
                simp [stripBlanks, hq', hb', h3]

/-! ## Trimming, and the fields set by `parseColumnDef` -/

theorem rdropWhile_append_keep {α : Type} (p : α → Bool) (x : List α) (a : α) (rest : List α)
    (ha : p a = false) : List.rdropWhile p (x ++ a :: rest) = x ++ a :: List.rdropWhile p rest := by
  induction rest using List.reverseRecOn with
  | nil =>
    have : x ++ [a] = x ++ [a] := rfl
    rw [List.rdropWhile_nil, List.rdropWhile_concat_neg _ _ _ (by simp [ha])]
  | append_singleton r b ih =>
    have e : x ++ a :: (r ++ [b]) = (x ++ a :: r) ++ [b] := by simp
    rw [e]
    by_cases hb : p b = true
    · rw [List.rdropWhile_concat_pos _ _ _ hb, List.rdropWhile_concat_pos _ _ _ hb, ih]
    · rw [List.rdropWhile_concat_neg _ _ _ hb, List.rdropWhile_concat_neg _ _ _ hb]
      simp

theorem TrimSpace_keep (a : Char) (mid : Str) (b : Char) (rest : Str)
    (ha : isSpace a = false) (hb : isSpace b = false) :
    TrimSpace (a :: (mid ++ b :: rest)) = a :: (mid ++ b :: rest.rdropWhile isSpace) := by
  unfold TrimSpace
  rw [List.dropWhile_cons_of_neg (by simp [ha])]
  have := rdropWhile_append_keep isSpace (a :: mid) b rest hb
  simpa using this

theorem TrimSpace_self (a : Char) (mid : Str) (b : Char)
    (ha : isSpace a = false) (hb : isSpace b = false) :
    TrimSpace (a :: (mid ++ [b])) = a :: (mid ++ [b]) := by
  simpa using TrimSpace_keep a mid b [] ha hb

theorem isIdent_iff {s : Str} : isIdent s = true ↔ s ≠ [] ∧ s.all identChar = true := by
  cases s <;> simp [isIdent]

theorem parseColumnDef_of_tokens (df d name base : Str) (after : List Str)
    (h : tokenizeSQL (TrimSpace df) = name :: base :: after) :
    ∃ col, parseColumnDef df d = .ok col ∧ col.SqlType = buildColType base after
      ∧ col.Name = unquoteIdent name := by
  unfold parseColumnDef
  simp only [h]
  refine ⟨_, rfl, ?_, ?_⟩
  · unfold withReferences withDefault withModifiers
    simp only []
    split <;> split <;> split <;> split <;> split <;> rfl
  · unfold withReferences withDefault withModifiers
    simp only []
    split <;> split <;> split <;> split <;> split <;> rfl

/-! ## C3: the stored column type -/

theorem stripBlanks_id (s : Str) (h : ∀ c ∈ s, sqlBlank c = false ∧ c ≠ Char.ofNat 96) :
    ∀ (inQuote : Bool) (q : Char), stripBlanks inQuote q s = s := by
  induction s with
  | nil => intro inQuote q; cases inQuote <;> rfl
  | cons c s ih =>
    intro inQuote q
    have hc := h c (List.mem_cons_self _ _)
    have hs : ∀ x ∈ s, sqlBlank x = false ∧ x ≠ Char.ofNat 96 :=
      fun x hx => h x (List.mem_cons_of_mem _ hx)
    cases inQuote with
    | true => simp [stripBlanks, ih hs]
    | false =>
      by_cases hq : sqlQuote c = true
      · simp [stripBlanks, hq, ih hs]
      · simp [stripBlanks, hq, hc.1, hc.2, ih hs]

/-- The tokens of a column definition `name BASE(params)rest`. -/
theorem tokenizeSQL_columnDef (name base params rest : Str) (hn : name.all identChar = true)
    (hb : base.all identChar = true) (hne : name ≠ []) (hbe : base ≠ []) :
    tokenizeSQL (name ++ ' ' :: (base ++ '(' :: (params ++ ')' :: rest)))
      = name :: base :: ['('] :: tokenizeGo [] false (Char.ofNat 0) (params ++ ')' :: rest) := by
  unfold tokenizeSQL
  rw [tokenizeGo_ident name hn, tokenizeGo_blank _ _ _ _ (by decide), List.nil_append,
    tokenizeGo_ident base hb, tokenizeGo_paren _ _ _ _ (Or.inl rfl)]
  cases name with
  | nil => exact absurd rfl hne
  | cons a l =>
    cases base with
    | nil => exact absurd rfl hbe
    | cons b m => simp [flushToken]

/-- The column that `parseColumnDef` reads from a definition `name BASE(params)rest`
with a well-nested parameter list: its type is `BASE(params)` with the blanks and back
quotes outside quoted literals removed. -/
theorem parseColumnDef_type (name base params rest d : Str)
    (hn : isIdent name = true) (hb : isIdent base = true)
    (hp : paramsWellNested params = true) :
    ∃ col, parseColumnDef (name ++ ' ' :: (base ++ '(' :: (params ++ ')' :: rest))) d = .ok col
      ∧ col.Name = unquoteIdent name
      ∧ col.SqlType = base ++ '(' :: (withoutBlanks params ++ [')']) := by
  obtain ⟨hne, hn⟩ := isIdent_iff.1 hn
  obtain ⟨hbe, hb⟩ := isIdent_iff.1 hb
  obtain ⟨a, l, rfl⟩ := List.exists_cons_of_ne_nil hne
  have ha : identChar a = true := by simp at hn; exact hn.1
  have htrim : TrimSpace (a :: l ++ ' ' :: (base ++ '(' :: (params ++ ')' :: rest)))
      = a :: l ++ ' ' :: (base ++ '(' :: (params ++ ')' :: rest.rdropWhile isSpace)) := by
    have := TrimSpace_keep a (l ++ ' ' :: (base ++ '(' :: params)) ')' rest
      (identChar_not_space ha) (by decide)
    simpa using this
  have htok := tokenizeSQL_columnDef (a :: l) base params (rest.rdropWhile isSpace) hn hb hne hbe
  obtain ⟨col, hcol, hty, hnm⟩ := parseColumnDef_of_tokens _ d _ _ _ (htrim ▸ htok)
  have hparams := typeParams_tokenize params [] false (Char.ofNat 0) 0
    (rest.rdropWhile isSpace) hp (by simp [pendingOK])
  have hty' : col.SqlType = base ++ '(' :: (withoutBlanks params ++ [')']) := by
    rw [hty]
    simp only [buildColType, if_true]
    simp only [Nat.cast_zero, zero_add, List.nil_append] at hparams
    rw [hparams]
    simp [withoutBlanks]
  exact ⟨col, hcol, hnm, hty'⟩

/-- C3 (counterexample): the parameter list of `DECIMAL(10, 2)` is not stored as it is
written: the blank after the comma is dropped. -/
theorem columnType_drops_blanks :
    ParseCreateStatements "CREATE TABLE t (price DECIMAL(10, 2))".toList [] =
      .ok [{ Name := "t".toList,
             Columns := [{ Name := "price".toList, SqlType := "DECIMAL(10,2)".toList,
                           IsNullable := true }] }]
    ∧ "DECIMAL(10,2)".toList ≠ "DECIMAL(10, 2)".toList := by
  decide

/-! ## C1, C5, C7, C9: the parsers on the failing inputs -/

/-- C1 (failing input): in `CREATE TABLE t (id INT, checksum TEXT)` the column
`checksum` starts with CHECK, is taken for a table constraint and is lost; the table
has one column instead of two. -/
theorem column_named_checksum_dropped :
    ParseCreateStatements "CREATE TABLE t (id INT, checksum TEXT)".toList [] =
      .ok [{ Name := "t".toList,
             Columns := [{ Name := "id".toList, SqlType := "INT".toList, IsNullable := true }] }] := by
  decide

/-- C5 (failing input): a second blank between CREATE and TABLE makes the statement
disappear from the result. -/
theorem two_blanks_after_create :
    ParseCreateStatements "CREATE TABLE t (id INT)".toList [] =
      .ok [{ Name := "t".toList,
             Columns := [{ Name := "id".toList, SqlType := "INT".toList, IsNullable := true }] }]
    ∧ ParseCreateStatements "CREATE  TABLE t (id INT)".toList [] = .ok [] := by
  decide

/-- C7 (failing input): a column named `key_id` is lost, whether its reference is
written inline or as a table constraint, so no column of the result is foreign. -/
theorem reference_on_column_named_key :
    ParseCreateStatements "CREATE TABLE t (id INT, key_id INT REFERENCES u(k))".toList [] =
      .ok [{ Name := "t".toList,
             Columns := [{ Name := "id".toList, SqlType := "INT".toList, IsNullable := true }] }]
    ∧ ParseCreateStatements
        "CREATE TABLE t (id INT, key_id INT, FOREIGN KEY (key_id) REFERENCES u(k))".toList [] =
      .ok [{ Name := "t".toList,
             Columns := [{ Name := "id".toList, SqlType := "INT".toList, IsNullable := true }] }] := by
  decide

/-- C9 (failing input): the target `Users.ID` of a column reference is stored in
lower case. -/
theorem dbml_ref_target_lowercased :
    parseDBMLColumn "author_id integer [ref: > Users.ID]".toList =
      some { Name := "author_id".toList, SqlType := "integer".toList, IsNullable := true,
             IsForeignKey := true, ForeignTable := "users".toList, ForeignKey := "id".toList } := by
  decide

/-! ## `Split`, `Index` -/

theorem Split_ne_nil (sep : Char) (s : Str) : Split sep s ≠ [] := by
  induction s with
  | nil => simp [Split]
  | cons c s ih =>
    unfold Split
    split
    · simp
    · split <;> simp

theorem Split_append_sep (sep : Char) (a b : Str) :
    Split sep (a ++ sep :: b) = Split sep a ++ Split sep b := by
  induction a with
  | nil => simp [Split]
  | cons c a ih =>
    by_cases h : c = sep
    · subst h
      simp [Split, ih]
    · obtain ⟨l, ls, hl⟩ := List.exists_cons_of_ne_nil (Split_ne_nil sep a)
      simp [Split, h, ih, hl]

theorem Split_no_sep (sep : Char) (s : Str) (h : ∀ c ∈ s, c ≠ sep) : Split sep s = [s] := by
  induction s with
  | nil => simp [Split]
  | cons c s ih =>
    have hc : c ≠ sep := h c (List.mem_cons_self _ _)
    simp [Split, hc, ih (fun x hx => h x (List.mem_cons_of_mem _ hx))]

theorem Index_first (x : Str) (s0 : Char) (sub y : Str) (h : s0 ∉ x) :
    Index (x ++ (s0 :: sub) ++ y) (s0 :: sub) = some x.length := by
  induction x with
  | nil =>
    cases sub <;> simp [Index, List.isPrefixOf]
  | cons c x ih =>
    have hc : ¬ (s0 = c) := fun e => h (e ▸ List.mem_cons_self _ _)
    have hx : s0 ∉ x := fun e => h (List.mem_cons_of_mem _ e)
    have := ih hx
    simp only [List.append_assoc, List.cons_append] at this ⊢
    simp [Index, List.isPrefixOf, hc, this]

theorem Index_none_of_not_mem (s sub : Str) (c : Char) (hc : c ∈ sub) (hs : c ∉ s) :
    Index s sub = none := by
  induction s with
  | nil =>
    cases sub with
    | nil => simp at hc
    | cons a l => simp [Index]
  | cons a s ih =>
    have hpre : List.isPrefixOf sub (a :: s) = false := by
      by_contra hp
      simp only [Bool.not_eq_false] at hp
      have := List.isPrefixOf_iff_prefix.1 hp
      exact hs (this.subset hc)
    simp [Index, hpre, ih (fun e => hs (List.mem_cons_of_mem _ e))]

/-! ## C10: a top-level `Ref:` line -/

theorem ident_no_char {s : Str} (hs : s.all identChar = true) (x : Char)
    (hx : identChar x = false) : x ∉ s := by
  intro hmem
  have := List.all_eq_true.1 hs x hmem
  rw [hx] at this
  exact absurd this (by decide)

theorem TrimSpace_ident_ends (a : Str) (mid : Str) (b : Str) (ha : isIdent a = true)
    (hb : isIdent b = true) : TrimSpace (a ++ mid ++ b) = a ++ mid ++ b := by
  obtain ⟨hane, ha⟩ := isIdent_iff.1 ha
  obtain ⟨hbne, hb⟩ := isIdent_iff.1 hb
  obtain ⟨x, xs, rfl⟩ := List.exists_cons_of_ne_nil hane
  have hlast := List.dropLast_append_getLast hbne
  have hx : identChar x = true := by simp at ha; exact ha.1
  have hl : identChar (b.getLast hbne) = true :=
    List.all_eq_true.1 hb _ (List.getLast_mem hbne)
  have := TrimSpace_self x (xs ++ mid ++ b.dropLast) (b.getLast hbne)
    (identChar_not_space hx) (identChar_not_space hl)
  rw [← hlast]
  simpa using this

/-- The operand `t.c` of a `Ref:` line splits at the dot into `t` and `c`. -/
theorem Split_dot (t c : Str) (ht : isIdent t = true) (hc : isIdent c = true) :
    Split '.' (t ++ '.' :: c) = [t, c] := by
  rw [Split_append_sep, Split_no_sep _ _ (fun x hx => ?_), Split_no_sep _ _ (fun x hx => ?_)]
  · rfl
  · rintro rfl; exact ident_no_char (isIdent_iff.1 hc).2 '.' (by decide) hx
  · rintro rfl; exact ident_no_char (isIdent_iff.1 ht).2 '.' (by decide) hx

theorem operand_no_char (t c : Str) (ht : isIdent t = true) (hc : isIdent c = true) (x : Char)
    (hx : identChar x = false) (hdot : x ≠ '.') : x ∉ t ++ '.' :: c := by
  simp only [List.mem_append, List.mem_cons, not_or]
  exact ⟨ident_no_char (isIdent_iff.1 ht).2 x hx, hdot,
    ident_no_char (isIdent_iff.1 hc).2 x hx⟩

theorem SplitN2_at (x sub y : Str) (hidx : Index (x ++ sub ++ y) sub = some x.length) :
    SplitN2 (x ++ sub ++ y) sub = [x, y] := by
  unfold SplitN2
  rw [hidx]
  have e1 : List.take x.length (x ++ sub ++ y) = x := by
    rw [List.append_assoc, List.take_left]
  have e2 : List.drop (x.length + sub.length) (x ++ sub ++ y) = y := by
    rw [← List.length_append, List.drop_left]
  simp only [e1, e2]

/-- `parseDBMLRef` on the line `Ref: t1.c1 op t2.c2`. -/
theorem parseDBMLRef_refLine (t1 c1 t2 c2 : Str) (op : Char) (tables : List TableInfo)
    (h1 : isIdent t1 = true) (h2 : isIdent c1 = true) (h3 : isIdent t2 = true)
    (h4 : isIdent c2 = true) (hop : op = '>' ∨ op = '<' ∨ op = '-') :
    parseDBMLRef (refLine t1 c1 op t2 c2) tables = markRef tables t1 c1 t2 c2 := by
  have hline : TrimSpace (TrimPrefix (TrimPrefix (refLine t1 c1 op t2 c2) "Ref:".toList)
      "ref:".toList) = (t1 ++ '.' :: c1) ++ (' ' :: op :: ' ' :: []) ++ (t2 ++ '.' :: c2) := by
    have e1 : TrimPrefix (refLine t1 c1 op t2 c2) "Ref:".toList
        = ' ' :: ((t1 ++ '.' :: c1) ++ ' ' :: op :: ' ' :: (t2 ++ '.' :: c2)) := by
      simp [TrimPrefix, refLine, List.isPrefixOf]
    have e2 : TrimPrefix (' ' :: ((t1 ++ '.' :: c1) ++ ' ' :: op :: ' ' :: (t2 ++ '.' :: c2)))
        "ref:".toList = ' ' :: ((t1 ++ '.' :: c1) ++ ' ' :: op :: ' ' :: (t2 ++ '.' :: c2)) := by
      simp [TrimPrefix, List.isPrefixOf]
    rw [e1, e2]
    have e3 := TrimSpace_ident_ends t1 ('.' :: c1 ++ ' ' :: op :: ' ' :: t2 ++ ['.']) c2 h1 h4
    have e4 : TrimSpace (' ' :: ((t1 ++ '.' :: c1) ++ ' ' :: op :: ' ' :: (t2 ++ '.' :: c2)))
        = TrimSpace ((t1 ++ '.' :: c1) ++ ' ' :: op :: ' ' :: (t2 ++ '.' :: c2)) := by
      unfold TrimSpace
      rw [List.dropWhile_cons_of_pos (by decide)]
    rw [e4]
    simpa using e3
  have hidx : Index ((t1 ++ '.' :: c1) ++ (' ' :: op :: ' ' :: []) ++ (t2 ++ '.' :: c2))
      (' ' :: op :: ' ' :: []) = some (t1 ++ '.' :: c1).length :=
    Index_first _ _ _ _ (operand_no_char t1 c1 h1 h2 ' ' (by decide) (by decide))
  have hother : ∀ o : Char, o ≠ op → identChar o = false → o ≠ '.' → o ≠ ' ' →
      Contains ((t1 ++ '.' :: c1) ++ (' ' :: op :: ' ' :: []) ++ (t2 ++ '.' :: c2))
        (' ' :: o :: ' ' :: []) = false := by
    intro o ho hio hod hos
    unfold Contains
    rw [Index_none_of_not_mem _ _ o (by simp)]
    · rfl
    · simp only [List.mem_append, List.mem_cons, List.mem_singleton, List.not_mem_nil,
        or_false, not_or]
      have a1 := operand_no_char t1 c1 h1 h2 o hio hod
      have a2 := operand_no_char t2 c2 h3 h4 o hio hod
      simp only [List.mem_append, List.mem_cons, not_or] at a1 a2
      exact ⟨⟨⟨a1.1, a1.2.1, a1.2.2⟩, hos, ho, hos⟩, a2.1, a2.2.1, a2.2.2⟩
  have hfind : dbmlRefOps.find? (fun o =>
      Contains ((t1 ++ '.' :: c1) ++ (' ' :: op :: ' ' :: []) ++ (t2 ++ '.' :: c2)) o)
      = some (' ' :: op :: ' ' :: []) := by
    have hself : Contains ((t1 ++ '.' :: c1) ++ (' ' :: op :: ' ' :: []) ++ (t2 ++ '.' :: c2))
        (' ' :: op :: ' ' :: []) = true := by
      unfold Contains; rw [hidx]; rfl
    rcases hop with rfl | rfl | rfl
    · simp only [dbmlRefOps, List.find?]
      have : " > ".toList = [' ', '>', ' '] := rfl
      rw [this, hself]
    · have hn := hother '>' (by decide) (by decide) (by decide) (by decide)
      simp only [dbmlRefOps, List.find?]
      have e1 : " > ".toList = [' ', '>', ' '] := rfl
      have e2 : " < ".toList = [' ', '<', ' '] := rfl
      rw [e1, e2, hn, hself]
    · have hn := hother '>' (by decide) (by decide) (by decide) (by decide)
      have hn2 := hother '<' (by decide) (by decide) (by decide) (by decide)
      simp only [dbmlRefOps, List.find?]
      have e1 : " > ".toList = [' ', '>', ' '] := rfl
      have e2 : " < ".toList = [' ', '<', ' '] := rfl
      have e3 : " - ".toList = [' ', '-', ' '] := rfl
      rw [e1, e2, e3, hn, hn2, hself]
  have hsplit : SplitN2 ((t1 ++ '.' :: c1) ++ (' ' :: op :: ' ' :: []) ++ (t2 ++ '.' :: c2))
      (' ' :: op :: ' ' :: []) = [t1 ++ '.' :: c1, t2 ++ '.' :: c2] :=
    SplitN2_at _ _ _ hidx
  unfold parseDBMLRef
  simp only [hline, hfind, hsplit]
  have t1' := TrimSpace_ident_ends t1 ['.'] c1 h1 h2
  have t2' := TrimSpace_ident_ends t2 ['.'] c2 h3 h4
  simp only [List.append_assoc, List.singleton_append] at t1' t2'
  rw [t1', t2', Split_dot t1 c1 h1 h2, Split_dot t2 c2 h3 h4]

theorem TrimSpace_refLine (t1 c1 t2 c2 : Str) (op : Char) (h4 : isIdent c2 = true) :
    TrimSpace (refLine t1 c1 op t2 c2) = refLine t1 c1 op t2 c2 := by
  obtain ⟨hne, hc⟩ := isIdent_iff.1 h4
  have hl : identChar (c2.getLast hne) = true :=
    List.all_eq_true.1 hc _ (List.getLast_mem hne)
  have := TrimSpace_self 'R' ("ef: ".toList ++ (t1 ++ '.' :: c1) ++ ' ' :: op :: ' ' ::
    (t2 ++ '.' :: c2.dropLast)) (c2.getLast hne) (by decide) (identChar_not_space hl)
  have e : refLine t1 c1 op t2 c2 = 'R' :: ("ef: ".toList ++ (t1 ++ '.' :: c1) ++ ' ' :: op ::
      ' ' :: (t2 ++ '.' :: c2.dropLast) ++ [c2.getLast hne]) := by
    conv_lhs => rw [← List.dropLast_append_getLast hne]
    simp [refLine]
  rw [e]
  exact this

/-- The round of the loop of `parseDBML` on the line `Ref: t1.c1 op t2.c2`. -/
theorem dbmlStep_refLine (st : DBMLState) (t1 c1 t2 c2 : Str) (op : Char)
    (h1 : isIdent t1 = true) (h2 : isIdent c1 = true) (h3 : isIdent t2 = true)
    (h4 : isIdent c2 = true) (hop : op = '>' ∨ op = '<' ∨ op = '-') :
    dbmlStep st (refLine t1 c1 op t2 c2)
      = { st with tables := markRef st.tables t1 c1 t2 c2 } := by
  have hshape : refLine t1 c1 op t2 c2 = 'R' :: 'e' :: 'f' :: ':' :: ' ' ::
      ((t1 ++ '.' :: c1) ++ ' ' :: op :: ' ' :: (t2 ++ '.' :: c2)) := by
    simp [refLine]
  have hempty : (refLine t1 c1 op t2 c2).isEmpty = false := by rw [hshape]; rfl
  have hcomment : HasPrefix (refLine t1 c1 op t2 c2) "//".toList = false := by
    rw [hshape]; simp [HasPrefix, List.isPrefixOf]
  have hopen : dbmlOpen st (refLine t1 c1 op t2 c2) = none := by
    unfold dbmlOpen
    have : HasPrefix (ToLower (refLine t1 c1 op t2 c2)) "table ".toList = false := by
      rw [hshape]; simp [HasPrefix, ToLower, List.isPrefixOf, toLowerRune]
    rw [this]; rfl
  have hclose : decide (refLine t1 c1 op t2 c2 = [Char.ofNat 125]) = false := by
    rw [hshape]; simp
  have hrefp : HasPrefix (ToLower (refLine t1 c1 op t2 c2)) "ref:".toList = true := by
    rw [hshape]; simp [HasPrefix, ToLower, List.isPrefixOf, toLowerRune]
  unfold dbmlStep
  simp only [TrimSpace_refLine t1 c1 t2 c2 op h4, hempty, hcomment, hopen, hrefp, hclose,
    parseDBMLRef_refLine t1 c1 t2 c2 op _ h1 h2 h3 h4 hop]
  rcases st with ⟨tbls, _ | t, inT⟩ <;> simp

theorem refLine_no_newline (t1 c1 t2 c2 : Str) (op : Char)
    (h1 : isIdent t1 = true) (h2 : isIdent c1 = true) (h3 : isIdent t2 = true)
    (h4 : isIdent c2 = true) (hop : op = '>' ∨ op = '<' ∨ op = '-') :
    ∀ c ∈ refLine t1 c1 op t2 c2, c ≠ '\n' := by
  intro c hc hn
  subst hn
  have a1 := operand_no_char t1 c1 h1 h2 '\n' (by decide) (by decide)
  have a2 := operand_no_char t2 c2 h3 h4 '\n' (by decide) (by decide)
  have hop' : '\n' ≠ op := by rcases hop with rfl | rfl | rfl <;> decide
  simp only [refLine, List.mem_append, List.mem_cons] at hc
  simp only [List.mem_append, List.mem_cons, not_or] at a1 a2
  rcases hc with (hc | hc | hc | hc) | hc | hc | hc | hc | hc | hc
  · revert hc; decide
  · exact a1.1 hc
  · revert hc; decide
  · exact a1.2.2 hc
  · revert hc; decide
  · exact hop' hc
  · revert hc; decide
  · exact a2.1 hc
  · revert hc; decide
  · exact a2.2.2 hc

theorem markRef_absent (tables : List TableInfo) (t1 c1 t2 c2 : Str)
    (h : ∀ tb ∈ tables, tb.Name ≠ t1) : markRef tables t1 c1 t2 c2 = tables := by
  unfold markRef
  conv_rhs => rw [← List.map_id tables]
  apply List.map_congr_left
  intro tb htb
  simp [h tb htb]

theorem dbmlStep_notRef (st : DBMLState) (l : Str) (h : notRefLine l = true)
    (T : List TableInfo) :
    dbmlStep { st with tables := T } l
      = { dbmlStep { st with tables := [] } l with
          tables := T ++ (dbmlStep { st with tables := [] } l).tables } := by
  simp only [notRefLine, Bool.not_eq_true'] at h
  rcases st with ⟨tbls, cur, inT⟩
  unfold dbmlStep dbmlOpen
  simp only [h]
  generalize TrimSpace l = line
  generalize (line.isEmpty || HasPrefix line "//".toList) = b0
  generalize (HasPrefix (ToLower line) "table ".toList && HasSuffix line [Char.ofNat 123]) = b1
  generalize Fields line = fs
  generalize parseDBMLColumn line = pc
  generalize decide (line = [Char.ofNat 125]) = b2
  cases b0 <;> cases b1 <;> cases b2 <;> cases inT <;> cases cur <;> cases pc <;>
    rcases fs with _ | ⟨f0, _ | ⟨f1, fr⟩⟩ <;> simp

theorem dbmlRunFrom_notRef (ls : List Str) (h : ∀ l ∈ ls, notRefLine l = true) :
    ∀ (st : DBMLState) (T : List TableInfo),
    dbmlRunFrom { st with tables := T } ls
      = { dbmlRunFrom { st with tables := [] } ls with
          tables := T ++ (dbmlRunFrom { st with tables := [] } ls).tables } := by
  induction ls with
  | nil => intro st T; simp [dbmlRunFrom]
  | cons l ls ih =>
    intro st T
    have hl := h l (List.mem_cons_self _ _)
    have hls : ∀ x ∈ ls, notRefLine x = true := fun x hx => h x (List.mem_cons_of_mem _ hx)
    have e1 := dbmlStep_notRef st l hl T
    have i1 := ih hls (dbmlStep { st with tables := [] } l) (T ++ (dbmlStep { st with tables := [] } l).tables)
    have i2 := ih hls (dbmlStep { st with tables := [] } l) (dbmlStep { st with tables := [] } l).tables
    simp only [dbmlRunFrom, List.foldl_cons] at i1 i2 ⊢
    rw [e1, i1]
    conv_rhs => rw [show dbmlStep { st with tables := [] } l = { dbmlStep { st with tables := [] } l with tables := (dbmlStep { st with tables := [] } l).tables } from rfl, i2]
    simp

theorem parseDBML_eq (content : Str) :
    parseDBML content = dbmlFinish (dbmlRunFrom {} (Split '\n' content)) := rfl

theorem dbmlRunFrom_append (st : DBMLState) (xs ys : List Str) :
    dbmlRunFrom st (xs ++ ys) = dbmlRunFrom (dbmlRunFrom st xs) ys := by
  simp [dbmlRunFrom, List.foldl_append]

/-- C10: a line `Ref: t1.c1 op t2.c2` (`op` one of `>`, `<`, `-`) marks column `c1` of
the tables named `t1` that are closed when the line is read (first part: the state of
the loop after the line is the state before it with `markRef` applied to the closed
tables, nothing else changed).  When `t1` is closed before the line, the result is the
result without the line with that column made foreign to `t2.c2`, the other tables
and columns unchanged (second part, for following lines that are not `Ref:` lines,
which would mark columns themselves).  When `t1` is not closed before the line,
`parseDBML` returns what it returns for the input without the line (third part). -/
theorem ref_line_marks_closed_table (A B t1 c1 t2 c2 : Str) (op : Char)
    (h1 : isIdent t1 = true) (h2 : isIdent c1 = true) (h3 : isIdent t2 = true)
    (h4 : isIdent c2 = true) (hop : op = '>' ∨ op = '<' ∨ op = '-') :
    dbmlRunFrom {} (Split '\n' (A ++ '\n' :: refLine t1 c1 op t2 c2))
      = { dbmlRunFrom {} (Split '\n' A) with
          tables := markRef (closedTables A) t1 c1 t2 c2 }
    ∧ ((∃ tb ∈ closedTables A, tb.Name = t1) → (∀ l ∈ Split '\n' B, notRefLine l = true) →
        ∃ later, parseDBML (A ++ '\n' :: B) = .ok (closedTables A ++ later)
          ∧ parseDBML (A ++ '\n' :: (refLine t1 c1 op t2 c2 ++ '\n' :: B))
              = .ok (markRef (closedTables A) t1 c1 t2 c2 ++ later))
    ∧ ((∀ tb ∈ closedTables A, tb.Name ≠ t1) →
        parseDBML (A ++ '\n' :: (refLine t1 c1 op t2 c2 ++ '\n' :: B))
          = parseDBML (A ++ '\n' :: B)) := by
  have hline : Split '\n' (refLine t1 c1 op t2 c2) = [refLine t1 c1 op t2 c2] :=
    Split_no_sep _ _ (refLine_no_newline t1 c1 t2 c2 op h1 h2 h3 h4 hop)
  have hstep := dbmlStep_refLine (dbmlRunFrom {} (Split '\n' A)) t1 c1 t2 c2 op h1 h2 h3 h4 hop
  have hstate : dbmlRunFrom {} (Split '\n' (A ++ '\n' :: refLine t1 c1 op t2 c2))
      = { dbmlRunFrom {} (Split '\n' A) with
          tables := markRef (closedTables A) t1 c1 t2 c2 } := by
    rw [Split_append_sep, hline, dbmlRunFrom_append]
    simpa [dbmlRunFrom, closedTables] using hstep
  have hwith : dbmlRunFrom {} (Split '\n' (A ++ '\n' :: (refLine t1 c1 op t2 c2 ++ '\n' :: B)))
      = dbmlRunFrom { dbmlRunFrom {} (Split '\n' A) with
          tables := markRef (closedTables A) t1 c1 t2 c2 } (Split '\n' B) := by
    have e : A ++ '\n' :: (refLine t1 c1 op t2 c2 ++ '\n' :: B)
        = (A ++ '\n' :: refLine t1 c1 op t2 c2) ++ '\n' :: B := by simp
    rw [e, Split_append_sep, dbmlRunFrom_append, hstate]
  have hwithout : dbmlRunFrom {} (Split '\n' (A ++ '\n' :: B))
      = dbmlRunFrom (dbmlRunFrom {} (Split '\n' A)) (Split '\n' B) := by
    rw [Split_append_sep, dbmlRunFrom_append]
  refine ⟨hstate, ?_, ?_⟩
  · rintro ⟨tb, htb, -⟩ hB
    have hne : closedTables A ≠ [] := List.ne_nil_of_mem htb
    refine ⟨(dbmlRunFrom { dbmlRunFrom {} (Split '\n' A) with tables := [] }
      (Split '\n' B)).tables, ?_, ?_⟩
    · rw [parseDBML_eq, hwithout]
      have := dbmlRunFrom_notRef (Split '\n' B) hB (dbmlRunFrom {} (Split '\n' A))
        (closedTables A)
      have e : ({ dbmlRunFrom {} (Split '\n' A) with tables := closedTables A } : DBMLState)
          = dbmlRunFrom {} (Split '\n' A) := rfl
      rw [e] at this
      rw [this]
      simp [dbmlFinish, hne]
    · rw [parseDBML_eq, hwith]
      have := dbmlRunFrom_notRef (Split '\n' B) hB (dbmlRunFrom {} (Split '\n' A))
        (markRef (closedTables A) t1 c1 t2 c2)
      rw [this]
      have hne' : markRef (closedTables A) t1 c1 t2 c2 ≠ [] := by
        simpa [markRef] using hne
      simp [dbmlFinish, hne']
  · intro habs
    rw [parseDBML_eq, parseDBML_eq, hwith, hwithout, markRef_absent _ _ _ _ _ habs]
    rfl


/-- C10 (witness): the line `Ref: posts.author_id > users.id` after the table `posts`
is closed. -/
theorem ref_line_marks_closed_table_witness :
    (∃ later,
      parseDBML ("Table posts \x7b\n  author_id integer\n\x7d".toList ++ '\n' :: [])
        = .ok (closedTables "Table posts \x7b\n  author_id integer\n\x7d".toList ++ later)
      ∧ parseDBML ("Table posts \x7b\n  author_id integer\n\x7d".toList ++ '\n' ::
          (refLine "posts".toList "author_id".toList '>' "users".toList "id".toList ++ '\n' :: []))
        = .ok (markRef (closedTables "Table posts \x7b\n  author_id integer\n\x7d".toList)
            "posts".toList "author_id".toList "users".toList "id".toList ++ later))
    ∧ parseDBML
        "Table posts \x7b\n  author_id integer\n\x7d\nRef: posts.author_id > users.id\n".toList
      = .ok [{ Name := "posts".toList,
               Columns := [{ Name := "author_id".toList, SqlType := "integer".toList,
                             IsNullable := true, IsForeignKey := true,
                             ForeignTable := "users".toList, ForeignKey := "id".toList }] }] :=
  ⟨(ref_line_marks_closed_table "Table posts \x7b\n  author_id integer\n\x7d".toList []
      "posts".toList "author_id".toList "users".toList "id".toList '>'
      (by decide) (by decide) (by decide) (by decide) (Or.inl rfl)).2.1 (by decide) (by decide),
    by decide⟩

/-! ## The matcher -/

theorem orTry_none {α : Type} (b : Option α) : orTry none b = b := rfl

theorem orTry_some {α : Type} (a : α) (b : Option α) : orTry (some a) b = some a := rfl

theorem orTry_of_isSome {α : Type} (a b : Option α) (h : a.isSome = true) : orTry a b = a := by
  cases a with
  | none => simp at h
  | some x => rfl

theorem run_cat_nil {α : Type} (inp : Str) (caps : Caps) (k : Str → Caps → Option α) :
    (Rx.cat []).run inp caps k = k inp caps := by
  simp [Rx.cat, Rx.run]

theorem run_cat_cons {α : Type} (a : Rx) (rest : List Rx) (inp : Str) (caps : Caps)
    (k : Str → Caps → Option α) :
    (Rx.cat (a :: rest)).run inp caps k = a.run inp caps (fun r c => (Rx.cat rest).run r c k) := by
  simp [Rx.cat, Rx.run]

theorem run_cat_append {α : Type} (xs ys : List Rx) (inp : Str) (caps : Caps)
    (k : Str → Caps → Option α) :
    (Rx.cat (xs ++ ys)).run inp caps k
      = (Rx.cat xs).run inp caps (fun r c => (Rx.cat ys).run r c k) := by
  induction xs generalizing inp caps k with
  | nil => simp [run_cat_nil]
  | cons a xs ih => simp [run_cat_cons, ih]

/-- A literal under `(?i)` matches a prefix that is equal to it up to case. -/
theorem run_lit {α : Type} (s : Str) : ∀ (pre rest : Str) (caps : Caps)
    (k : Str → Caps → Option α), pre.map foldRune = s.map foldRune →
    (Rx.lit s).run (pre ++ rest) caps k = k rest caps := by
  induction s with
  | nil =>
    intro pre rest caps k h
    have : pre = [] := by simpa using h
    subst this
    simp [Rx.lit, Rx.run]
  | cons c s ih =>
    intro pre rest caps k h
    cases pre with
    | nil => simp at h
    | cons a pre =>
      simp only [List.map_cons, List.cons.injEq] at h
      simp [Rx.lit, Rx.run, h.1, ih pre rest caps k h.2]

/-- A literal under `(?i)` fails where the first character differs up to case. -/
theorem run_lit_fail {α : Type} (c : Char) (s : Str) (a : Char) (rest : Str) (caps : Caps)
    (k : Str → Caps → Option α) (h : foldRune a ≠ foldRune c) :
    (Rx.lit (c :: s)).run (a :: rest) caps k = none := by
  simp [Rx.lit, Rx.run, h]

theorem run_lit_nil_input {α : Type} (c : Char) (s : Str) (caps : Caps)
    (k : Str → Caps → Option α) : (Rx.lit (c :: s)).run [] caps k = none := by
  simp [Rx.lit, Rx.run]

theorem greedyStar_stop {α : Type} (p : Char → Bool) (rest : Str) (k : Str → Option α)
    (h : stopsAt p rest) : greedyStar p rest k = k rest := by
  cases rest with
  | nil => rfl
  | cons c cs => simp [greedyStar, h c rfl]

theorem greedyStar_all {α : Type} (p : Char → Bool) (xs rest : Str) (k : Str → Option α)
    (hxs : ∀ x ∈ xs, p x = true) (h : stopsAt p rest) (hk : (k rest).isSome = true) :
    greedyStar p (xs ++ rest) k = k rest := by
  induction xs with
  | nil => simpa using greedyStar_stop p rest k h
  | cons x xs ih =>
    have hx := hxs x (List.mem_cons_self _ _)
    have := ih (fun y hy => hxs y (List.mem_cons_of_mem _ hy))
    show greedyStar p (x :: (xs ++ rest)) k = k rest
    rw [greedyStar, if_pos hx, this]
    exact orTry_of_isSome _ _ hk

theorem run_chr {α : Type} (c : Char) (rest : Str) (caps : Caps) (k : Str → Caps → Option α) :
    (Rx.chr c).run (c :: rest) caps k = k rest caps := by
  simp [Rx.chr, Rx.run]

theorem run_opt_chr_skip {α : Type} (c : Char) (inp : Str) (caps : Caps)
    (k : Str → Caps → Option α) (h : ∀ a, inp.head? = some a → a ≠ c) :
    (Rx.opt (Rx.chr c)).run inp caps k = k inp caps := by
  cases inp with
  | nil => simp [Rx.run, Rx.chr, orTry]
  | cons a l => simp [Rx.run, Rx.chr, orTry, h a rfl]

theorem run_plus_all {α : Type} (p : Char → Bool) (x : Char) (xs rest : Str) (caps : Caps)
    (k : Str → Caps → Option α) (hx : p x = true) (hxs : ∀ y ∈ xs, p y = true)
    (h : stopsAt p rest) (hk : (k rest caps).isSome = true) :
    (Rx.plus p).run (x :: xs ++ rest) caps k = k rest caps := by
  show (Rx.plus p).run (x :: (xs ++ rest)) caps k = k rest caps
  rw [Rx.run, if_pos hx]
  exact greedyStar_all p xs rest (fun r => k r caps) hxs h hk

theorem run_plus_one {α : Type} (p : Char → Bool) (x : Char) (rest : Str) (caps : Caps)
    (k : Str → Caps → Option α) (hx : p x = true) (h : stopsAt p rest) :
    (Rx.plus p).run (x :: rest) caps k = k rest caps := by
  rw [Rx.run, if_pos hx]
  exact greedyStar_stop p rest _ h

theorem run_plus_fail {α : Type} (p : Char → Bool) (inp : Str) (caps : Caps)
    (k : Str → Caps → Option α) (h : stopsAt p inp) : (Rx.plus p).run inp caps k = none := by
  cases inp with
  | nil => simp [Rx.run]
  | cons a l => simp [Rx.run, h a rfl]

theorem run_star_all {α : Type} (p : Char → Bool) (xs rest : Str) (caps : Caps)
    (k : Str → Caps → Option α) (hxs : ∀ y ∈ xs, p y = true)
    (h : stopsAt p rest) (hk : (k rest caps).isSome = true) :
    (Rx.star p).run (xs ++ rest) caps k = k rest caps := by
  rw [Rx.run]
  exact greedyStar_all p xs rest (fun r => k r caps) hxs h hk

theorem find_of_run (r : Rx) (inp : Str) (m : Caps)
    (h : r.run inp [] (fun _ c => some c) = some m) : r.find inp = some m := by
  cases inp with
  | nil => simpa [Rx.find] using h
  | cons a l => simp [Rx.find, h, orTry]

theorem identChar_not_rxSpace {c : Char} (h : identChar c = true) : rxSpace c = false := by
  simp only [identChar, Bool.or_eq_true, Bool.and_eq_true, decide_eq_true_eq] at h
  simp only [rxSpace, Bool.or_eq_false_iff, decide_eq_false_iff_not]
  omega

theorem identChar_rxWordFold {c : Char} (h : identChar c = true) : rxWordFold c = true := by
  simp only [identChar, Bool.or_eq_true, Bool.and_eq_true, decide_eq_true_eq] at h
  simp only [rxWordFold, Bool.or_eq_true, Bool.and_eq_true, decide_eq_true_eq]
  omega

/-- The optional part `IF\s+NOT\s+EXISTS\s+` does not match at a plain table name that
is followed by ` (`. -/
theorem run_ifNotExists_fail {α : Type} (t tail : Str) (caps : Caps)
    (k : Str → Caps → Option α) (ht : isIdent t = true) :
    (Rx.cat [Rx.lit "IF".toList, .plus rxSpace, Rx.lit "NOT".toList, .plus rxSpace,
        Rx.lit "EXISTS".toList, .plus rxSpace]).run (t ++ ' ' :: '(' :: tail) caps k = none := by
  obtain ⟨hne, hall⟩ := isIdent_iff.1 ht
  have hI : "IF".toList = ['I', 'F'] := rfl
  have hN : "NOT".toList = ['N', 'O', 'T'] := rfl
  rw [run_cat_cons, hI]
  rcases t with _ | ⟨a, _ | ⟨b, _ | ⟨c, r⟩⟩⟩
  · exact absurd rfl hne
  · by_cases ha : foldRune a = foldRune 'I'
    · simp [Rx.lit, Rx.run, ha]
      intro h
      exact absurd h (by decide)
    · simp [Rx.lit, Rx.run, ha]
  · by_cases ha : foldRune a = foldRune 'I'
    · by_cases hb : foldRune b = foldRune 'F'
      · have e : ([a, b] ++ ' ' :: '(' :: tail) = [a, b] ++ (' ' :: '(' :: tail) := rfl
        rw [e, run_lit ['I', 'F'] [a, b] _ _ _ (by simp [ha, hb]), run_cat_cons,
          run_plus_one rxSpace ' ' _ _ _ (by decide) (by intro c hc; simp at hc; subst hc; decide),
          run_cat_cons, hN, run_lit_fail _ _ _ _ _ _ (by decide)]
      · simp [Rx.lit, Rx.run, ha, hb]
    · simp [Rx.lit, Rx.run, ha]
  · by_cases ha : foldRune a = foldRune 'I'
    · by_cases hb : foldRune b = foldRune 'F'
      · have hc : identChar c = true := by simp at hall; exact hall.2.2.1
        have e : (a :: b :: c :: r ++ ' ' :: '(' :: tail)
            = [a, b] ++ (c :: (r ++ ' ' :: '(' :: tail)) := by simp
        rw [e, run_lit ['I', 'F'] [a, b] _ _ _ (by simp [ha, hb]), run_cat_cons,
          run_plus_fail rxSpace _ _ _
            (by intro x hx; simp at hx; subst hx; exact identChar_not_rxSpace hc)]
      · simp [Rx.lit, Rx.run, ha, hb]
    · simp [Rx.lit, Rx.run, ha]

theorem stopsAt_cons (p : Char → Bool) (c : Char) (rest : Str) (h : p c = false) :
    stopsAt p (c :: rest) := by
  intro x hx
  simp at hx
  subst hx
  exact h

theorem head_ne_of_ident (t rest : Str) (ht : isIdent t = true) (c : Char)
    (hc : identChar c = false) : ∀ a, (t ++ rest).head? = some a → a ≠ c := by
  obtain ⟨hne, hall⟩ := isIdent_iff.1 ht
  obtain ⟨x, xs, rfl⟩ := List.exists_cons_of_ne_nil hne
  intro a ha
  simp at ha
  subst ha
  simp at hall
  exact identChar_ne hall.1 c hc

/-- The pattern of `parseCreateTable` finds the table name of `CREATE TABLE t (body)`. -/
theorem tableNameRe_find (t body : Str) (ht : isIdent t = true) :
    tableNameRe.find (createTableText t body) = some [(1, t)] := by
  obtain ⟨hne, hall⟩ := isIdent_iff.1 ht
  apply find_of_run
  have hre : tableNameRe = Rx.cat [Rx.lit "CREATE".toList, .plus rxSpace, Rx.lit "TABLE".toList,
      .plus rxSpace,
      .opt (Rx.cat [Rx.lit "IF".toList, .plus rxSpace, Rx.lit "NOT".toList, .plus rxSpace,
        Rx.lit "EXISTS".toList, .plus rxSpace]),
      .opt (Rx.chr (Char.ofNat 96)), .opt (Rx.chr (Char.ofNat 34)),
      .group 1 (.plus rxWordFold),
      .opt (Rx.chr (Char.ofNat 34)), .opt (Rx.chr (Char.ofNat 96)),
      .star rxSpace, Rx.chr '('] := rfl
  have htext : createTableText t body = "CREATE".toList ++ (' ' :: ("TABLE".toList ++
      (' ' :: (t ++ ' ' :: '(' :: (body ++ [')']))))) := by
    simp [createTableText]
  have hidT : stopsAt rxSpace (t ++ ' ' :: '(' :: (body ++ [')'])) := by
    obtain ⟨x, xs, rfl⟩ := List.exists_cons_of_ne_nil hne
    simp at hall
    exact stopsAt_cons _ _ _ (identChar_not_rxSpace hall.1)
  have hidC : stopsAt rxSpace ("TABLE".toList ++ ' ' :: (t ++ ' ' :: '(' :: (body ++ [')']))) :=
    stopsAt_cons rxSpace 'T' _ (by decide)
  rw [hre, htext, run_cat_cons, run_lit _ _ _ _ _ rfl, run_cat_cons,
    run_plus_one rxSpace ' ' _ _ _ (by decide) hidC,
    run_cat_cons, run_lit _ _ _ _ _ rfl, run_cat_cons,
    run_plus_one rxSpace ' ' _ _ _ (by decide) hidT, run_cat_cons]
  rw [Rx.run, run_ifNotExists_fail t _ _ _ ht, orTry_none, run_cat_cons,
    run_opt_chr_skip _ _ _ _ (head_ne_of_ident t _ ht _ (by decide)), run_cat_cons,
    run_opt_chr_skip _ _ _ _ (head_ne_of_ident t _ ht _ (by decide)), run_cat_cons, Rx.run]
  obtain ⟨x, xs, rfl⟩ := List.exists_cons_of_ne_nil hne
  have hx : identChar x = true := by simp at hall; exact hall.1
  have hxs : ∀ y ∈ xs, rxWordFold y = true := by
    intro y hy
    simp at hall
    exact identChar_rxWordFold (hall.2 y hy)
  have hfinal : ∀ caps : Caps,
      (Rx.cat [.opt (Rx.chr (Char.ofNat 34)), .opt (Rx.chr (Char.ofNat 96)),
        .star rxSpace, Rx.chr '(']).run (' ' :: '(' :: (body ++ [')'])) caps
          (fun _ c => some c) = some caps := by
    intro caps
    rw [run_cat_cons, run_opt_chr_skip _ _ _ _ (by intro a ha; simp at ha; subst ha; decide),
      run_cat_cons, run_opt_chr_skip _ _ _ _ (by intro a ha; simp at ha; subst ha; decide),
      run_cat_cons]
    have := run_star_all rxSpace [' '] ('(' :: (body ++ [')'])) caps
      (fun r c => (Rx.cat [Rx.chr '(']).run r c (fun _ c => some c))
      (by simp; decide) (stopsAt_cons _ _ _ (by decide))
      (by simp [run_cat_cons, run_chr, run_cat_nil])
    rw [List.singleton_append] at this
    beta_reduce at this
    rw [this, run_cat_cons, run_chr, run_cat_nil]
  have := run_plus_all rxWordFold x xs (' ' :: '(' :: (body ++ [')'])) []
    (fun r c => (Rx.cat [.opt (Rx.chr (Char.ofNat 34)), .opt (Rx.chr (Char.ofNat 96)),
        .star rxSpace, Rx.chr '(']).run r
        ((1, (x :: xs ++ ' ' :: '(' :: (body ++ [')'])).take
          ((x :: xs ++ ' ' :: '(' :: (body ++ [')'])).length - r.length)) :: c)
        (fun _ c => some c))
    (identChar_rxWordFold hx) hxs (stopsAt_cons _ _ _ (by decide))
    (by simp [hfinal])
  beta_reduce at this
  rw [this, hfinal]
  have hlen : (x :: xs ++ ' ' :: '(' :: (body ++ [')'])).length
      - (' ' :: '(' :: (body ++ [')'])).length = (x :: xs).length := by
    simp
    omega
  rw [hlen, List.take_left]

/-! ## Parenthesis depth -/

theorem extractParenBodyGo_balanced (s : Str) : ∀ (n : Nat) (cur rest : Str),
    balanced n s = true →
    extractParenBodyGo ((n : Int) + 1) cur (s ++ ')' :: rest) = (cur ++ s).drop 1 := by
  induction s with
  | nil =>
    intro n cur rest h
    simp only [balanced, beq_iff_eq] at h
    subst h
    simp [extractParenBodyGo]
  | cons c s ih =>
    intro n cur rest h
    simp only [balanced] at h
    by_cases h1 : c = '('
    · subst h1
      simp only [if_true] at h
      have := ih (n + 1) (cur ++ ['(']) rest h
      rw [Nat.cast_succ] at this
      rw [List.cons_append, extractParenBodyGo, if_pos rfl, this]
      simp
    · simp only [h1, if_false] at h
      by_cases h2 : c = ')'
      · subst h2
        simp only [if_true] at h
        cases n with
        | zero => simp at h
        | succ m =>
          simp only at h
          have := ih m (cur ++ [')']) rest h
          have hne : ¬ ((((m + 1 : Nat) : Int) + 1) - 1 = 0) := by omega
          have he : (((m + 1 : Nat) : Int) + 1) - 1 = (m : Int) + 1 := by omega
          rw [List.cons_append, extractParenBodyGo, if_neg (by decide), if_pos rfl, if_neg hne,
            he, this]
          simp
      · simp only [h2, if_false] at h
        rw [List.cons_append, extractParenBodyGo, if_neg h1, if_neg h2,
          ih n (cur ++ [c]) rest h]
        simp

theorem splitTopGo_sealed (sep : Char) (s : Str) : ∀ (n : Nat) (cur rest : Str),
    sealed sep n s = true →
    splitTopGo sep (n : Int) cur (s ++ rest) = splitTopGo sep 0 (cur ++ s) rest := by
  induction s with
  | nil =>
    intro n cur rest h
    simp only [sealed, beq_iff_eq] at h
    subst h
    simp
  | cons c s ih =>
    intro n cur rest h
    simp only [sealed] at h
    by_cases h1 : c = '('
    · subst h1
      simp only [if_true] at h
      have := ih (n + 1) (cur ++ ['(']) rest h
      rw [Nat.cast_succ] at this
      rw [List.cons_append, splitTopGo, if_pos rfl, this]
      simp
    · simp only [h1, if_false] at h
      by_cases h2 : c = ')'
      · subst h2
        simp only [if_true] at h
        cases n with
        | zero => simp at h
        | succ m =>
          simp only at h
          have := ih m (cur ++ [')']) rest h
          have he : ((m + 1 : Nat) : Int) - 1 = (m : Int) := by omega
          rw [List.cons_append, splitTopGo, if_neg (by decide), if_pos rfl, he, this]
          simp
      · simp only [h2, if_false] at h
        by_cases h3 : c = sep
        · subst h3
          simp only [if_true, Bool.and_eq_true, bne_iff_ne, ne_eq] at h
          have hn : ¬ ((n : Int) = 0) := by omega
          rw [List.cons_append, splitTopGo, if_neg h1, if_neg h2, if_pos rfl, if_neg hn,
            ih n (cur ++ [c]) rest h.2]
          simp
        · simp only [h3, if_false] at h
          rw [List.cons_append, splitTopGo, if_neg h1, if_neg h2, if_neg h3,
            ih n (cur ++ [c]) rest h]
          simp

/-- Splitting a text made of sealed pieces joined by the separator gives the pieces,
trimmed, without the empty ones. -/
theorem splitTopGo_Join (sep : Char) (hs1 : sep ≠ '(') (hs2 : sep ≠ ')') (pieces : List Str)
    (h : ∀ p ∈ pieces, sealed sep 0 p = true) :
    splitTopGo sep 0 [] (Join [sep] pieces)
      = pieces.flatMap (fun p => keepNonEmpty (TrimSpace p)) := by
  induction pieces with
  | nil => simp [Join, splitTopGo, keepNonEmpty, TrimSpace]
  | cons a rest ih =>
    have ha := h a (List.mem_cons_self _ _)
    have hrest : ∀ p ∈ rest, sealed sep 0 p = true :=
      fun p hp => h p (List.mem_cons_of_mem _ hp)
    cases rest with
    | nil =>
      have := splitTopGo_sealed sep a 0 [] [] ha
      simp only [Nat.cast_zero, List.append_nil, List.nil_append] at this
      simp [Join, this, splitTopGo]
    | cons b rest' =>
      have := splitTopGo_sealed sep a 0 [] (sep :: Join [sep] (b :: rest')) ha
      simp only [Nat.cast_zero, List.nil_append] at this
      have e : Join [sep] (a :: b :: rest') = a ++ sep :: Join [sep] (b :: rest') := by
        simp [Join]
      rw [e, this, splitTopGo, if_neg hs1, if_neg hs2, if_pos rfl, if_pos rfl, ih hrest]
      simp

/-! ## The text `CREATE TABLE t (body)` -/

theorem sealed_open (sep : Char) (n : Nat) (cs : Str) :
    sealed sep n ('(' :: cs) = sealed sep (n + 1) cs := by
  simp [sealed]

theorem sealed_close (sep : Char) (n : Nat) (cs : Str) :
    sealed sep (n + 1) (')' :: cs) = sealed sep n cs := by
  simp [sealed]

theorem sealed_sep (sep : Char) (h1 : sep ≠ '(') (h2 : sep ≠ ')') (n : Nat) (cs : Str) :
    sealed sep n (sep :: cs) = (n != 0 && sealed sep n cs) := by
  simp [sealed, h1, h2]

theorem sealed_other (sep c : Char) (h1 : c ≠ '(') (h2 : c ≠ ')') (h3 : c ≠ sep) (n : Nat)
    (cs : Str) : sealed sep n (c :: cs) = sealed sep n cs := by
  simp [sealed, h1, h2, h3]

theorem sealed_plain (sep : Char) (w : Str) (n : Nat) (rest : Str)
    (hw : ∀ c ∈ w, c ≠ '(' ∧ c ≠ ')' ∧ c ≠ sep) :
    sealed sep n (w ++ rest) = sealed sep n rest := by
  induction w with
  | nil => rfl
  | cons c w ih =>
    obtain ⟨h1, h2, h3⟩ := hw c (List.mem_cons_self _ _)
    rw [List.cons_append, sealed_other sep c h1 h2 h3,
      ih (fun x hx => hw x (List.mem_cons_of_mem _ hx))]

theorem sealed_balanced (sep : Char) (hs1 : sep ≠ '(') (hs2 : sep ≠ ')') (s : Str) :
    ∀ (n m : Nat) (rest : Str), balanced n s = true →
    sealed sep (m + 1 + n) (s ++ rest) = sealed sep (m + 1) rest := by
  induction s with
  | nil =>
    intro n m rest h
    simp only [balanced, beq_iff_eq] at h
    subst h
    rfl
  | cons c s ih =>
    intro n m rest h
    simp only [balanced] at h
    by_cases h1 : c = '('
    · subst h1
      simp only [if_true] at h
      rw [List.cons_append, sealed_open]
      exact ih (n + 1) m rest h
    · simp only [h1, if_false] at h
      by_cases h2 : c = ')'
      · subst h2
        simp only [if_true] at h
        cases n with
        | zero => simp at h
        | succ k =>
          simp only at h
          rw [List.cons_append]
          have e : m + 1 + (k + 1) = (m + 1 + k) + 1 := by omega
          rw [e, sealed_close]
          exact ih k m rest h
      · simp only [h2, if_false] at h
        rw [List.cons_append]
        by_cases h3 : c = sep
        · subst h3
          rw [sealed_sep c hs1 hs2]
          have : (m + 1 + n != 0) = true := by simp
          rw [this, Bool.true_and]
          exact ih n m rest h
        · rw [sealed_other sep c h1 h2 h3]
          exact ih n m rest h

theorem ident_plain (sep : Char) (hsep : identChar sep = false) (t : Str)
    (ht : isIdent t = true) : ∀ c ∈ t, c ≠ '(' ∧ c ≠ ')' ∧ c ≠ sep := by
  intro c hc
  have := List.all_eq_true.1 (isIdent_iff.1 ht).2 c hc
  exact ⟨identChar_ne this _ (by decide), identChar_ne this _ (by decide),
    identChar_ne this _ hsep⟩

/-- In `CREATE TABLE t (body)` with balanced parentheses every `;` stands inside
the parentheses. -/
theorem sealed_createTableText (t body : Str) (ht : isIdent t = true)
    (hb : balanced 0 body = true) : sealed ';' 0 (createTableText t body) = true := by
  have e : createTableText t body
      = "CREATE TABLE ".toList ++ (t ++ ([' '] ++ ('(' :: (body ++ [')'])))) := by
    simp [createTableText]
  rw [e, sealed_plain ';' "CREATE TABLE ".toList _ _ (by decide),
    sealed_plain ';' t _ _ (ident_plain ';' (by decide) t ht),
    sealed_plain ';' [' '] _ _ (by decide), sealed_open]
  have := sealed_balanced ';' (by decide) (by decide) body 0 0 [')'] hb
  simp only [Nat.add_zero, Nat.zero_add] at this ⊢
  rw [this]
  rfl

theorem extractParenBody_createTableText (t body : Str) (ht : isIdent t = true)
    (hb : balanced 0 body = true) : extractParenBody (createTableText t body) = body := by
  have e : createTableText t body
      = ("CREATE TABLE ".toList ++ t ++ [' ']) ++ ('(' :: []) ++ (body ++ [')']) := by
    simp [createTableText]
  have hno : '(' ∉ "CREATE TABLE ".toList ++ t ++ [' '] := by
    simp only [List.mem_append, List.mem_singleton, not_or]
    refine ⟨⟨by decide, ?_⟩, by decide⟩
    intro hm
    exact (ident_plain ';' (by decide) t ht _ hm).1 rfl
  have hidx := Index_first _ '(' [] (body ++ [')']) hno
  unfold extractParenBody
  have hp : "(".toList = ['('] := rfl
  rw [hp, e, hidx]
  simp only []
  have hd : ∀ x : Str, List.drop x.length (x ++ ['('] ++ (body ++ [')']))
      = '(' :: (body ++ [')']) := by
    intro x
    rw [List.append_assoc, List.drop_left]
    rfl
  rw [hd, extractParenBodyGo, if_pos rfl]
  have := extractParenBodyGo_balanced body 0 ([] ++ ['(']) [] hb
  simp only [Nat.cast_zero] at this
  rw [this]
  simp

theorem HasPrefix_createTableText (t body : Str) :
    HasPrefix (ToUpper (createTableText t body)) "CREATE TABLE".toList = true := by
  have e : createTableText t body
      = "CREATE TABLE".toList ++ (' ' :: (t ++ ' ' :: '(' :: (body ++ [')']))) := by
    simp [createTableText]
  rw [e]
  unfold HasPrefix ToUpper
  rw [List.map_append, List.isPrefixOf_iff_prefix]
  exact ⟨_, rfl⟩

theorem TrimSpace_createTableText (lead trail t body : Str)
    (hl : ∀ c ∈ lead, isSpace c = true) (ht : ∀ c ∈ trail, isSpace c = true) :
    TrimSpace (lead ++ createTableText t body ++ trail) = createTableText t body := by
  have e : createTableText t body
      = 'C' :: ("REATE TABLE ".toList ++ t ++ ' ' :: '(' :: body ++ [')']) := by
    simp [createTableText]
  unfold TrimSpace
  rw [List.append_assoc, List.dropWhile_append_of_pos hl, e, List.cons_append,
    List.dropWhile_cons_of_neg (by decide)]
  have := rdropWhile_append_keep isSpace ('C' :: ("REATE TABLE ".toList ++ t ++ ' ' :: '(' :: body))
    ')' trail (by decide)
  have ht' : List.rdropWhile isSpace trail = [] := List.rdropWhile_eq_nil_iff.2 ht
  rw [ht'] at this
  simpa using this

/-! ## Comments -/

theorem Index_eq_none_iff (s sub : Str) : Index s sub = none ↔ ¬ sub <:+: s := by
  induction s with
  | nil =>
    cases sub with
    | nil => simp [Index]
    | cons a l => simp [Index]
  | cons c s ih =>
    rw [Index, List.infix_cons_iff]
    by_cases hp : List.isPrefixOf sub (c :: s) = true
    · simp [hp, List.isPrefixOf_iff_prefix.1 hp]
    · have hp' : ¬ sub <+: c :: s := fun h => hp (List.isPrefixOf_iff_prefix.2 h)
      simp [hp, hp', ih]

theorem Contains_false_of_part (s t sub : Str) (hts : t <:+: s) (h : Contains s sub = false) :
    Contains t sub = false := by
  unfold Contains at h ⊢
  have hs : Index s sub = none := by
    cases hi : Index s sub with
    | none => rfl
    | some i => rw [hi] at h; simp at h
  have := (Index_eq_none_iff s sub).1 hs
  have ht : Index t sub = none :=
    (Index_eq_none_iff t sub).2 (fun h' => this (h'.trans hts))
  rw [ht]
  rfl

theorem Split_shape (sep : Char) (s : Str) :
    ∃ l ls, Split sep s = l :: ls ∧ l <+: s ∧ ∀ x ∈ ls, x <:+: s := by
  induction s with
  | nil => exact ⟨[], [], by simp [Split], List.prefix_refl _, by simp⟩
  | cons c s ih =>
    obtain ⟨l, ls, hl, hpre, hinf⟩ := ih
    by_cases hc : c = sep
    · refine ⟨[], l :: ls, by simp [Split, hc, hl], List.nil_prefix, ?_⟩
      intro x hx
      rcases List.mem_cons.1 hx with rfl | hx
      · exact hpre.isInfix.trans (List.infix_cons (List.infix_refl _))
      · exact (hinf x hx).trans (List.infix_cons (List.infix_refl _))
    · refine ⟨c :: l, ls, by simp [Split, hc, hl], ?_, ?_⟩
      · obtain ⟨r, hr⟩ := hpre
        exact ⟨r, by simp [hr]⟩
      · intro x hx
        exact (hinf x hx).trans (List.infix_cons (List.infix_refl _))

theorem Split_mem_part (sep : Char) (s : Str) : ∀ line ∈ Split sep s, line <:+: s := by
  obtain ⟨l, ls, hl, hpre, hinf⟩ := Split_shape sep s
  intro line h
  rw [hl] at h
  rcases List.mem_cons.1 h with rfl | h
  · exact hpre.isInfix
  · exact hinf line h

theorem Join_Split (sep : Char) (s : Str) : Join [sep] (Split sep s) = s := by
  induction s with
  | nil => simp [Split, Join]
  | cons c s ih =>
    obtain ⟨l, ls, hl⟩ := List.exists_cons_of_ne_nil (Split_ne_nil sep s)
    by_cases hc : c = sep
    · subst hc
      rw [hl] at ih
      simp [Split, hl, Join, ih]
    · rw [hl] at ih
      cases ls with
      | nil =>
        simp only [Join] at ih
        simp [Split, hc, hl, Join, ih]
      | cons b bs =>
        simp only [Join] at ih
        rw [Split, if_neg hc, hl]
        simp only [Join]
        rw [← ih]
        simp

theorem cutLineComment_id (line : Str) (h : Contains line "--".toList = false) :
    cutLineComment line = line := by
  unfold Contains at h
  unfold cutLineComment
  cases hi : Index line "--".toList with
  | none => rfl
  | some i => rw [hi] at h; simp at h

/-- A text without comment markers is left as it is by `removeComments`. -/
theorem removeComments_id (s : Str) (h : noCommentMarker s = true) : removeComments s = s := by
  simp only [noCommentMarker, Bool.and_eq_true, Bool.not_eq_true'] at h
  obtain ⟨h1, h2⟩ := h
  have hlines : (Split '\n' s).map cutLineComment = Split '\n' s := by
    conv_rhs => rw [← List.map_id (Split '\n' s)]
    apply List.map_congr_left
    intro line hline
    exact cutLineComment_id line (Contains_false_of_part s line _ (Split_mem_part _ _ _ hline) h1)
  have hn : "\n".toList = ['\n'] := rfl
  unfold removeComments
  simp only [hlines, hn, Join_Split]
  unfold Contains at h2
  cases hi : Index s "/*".toList with
  | some i => rw [hi] at h2; simp at h2
  | none => rw [removeBlockComments, hi]

/-! ## C4: the tables of a script -/

theorem capture_single (i : Nat) (t : Str) : capture [(i, t)] i = t := by
  simp [capture, List.lookup]

/-- `parseCreateTable` on `CREATE TABLE t (body)`. -/
theorem parseCreateTable_createTableText (t body d : Str) (ht : isIdent t = true)
    (hb : balanced 0 body = true) (hne : body ≠ []) :
    parseCreateTable (createTableText t body) d = .ok (tableOfDefs d t (splitColumnDefs body)) := by
  unfold parseCreateTable
  rw [tableNameRe_find t body ht]
  simp only [extractParenBody_createTableText t body ht hb, capture_single]
  have : body.isEmpty = false := by cases body <;> simp at hne ⊢
  simp [this, tableOfDefs]

theorem stmtStep_createTableText (t body d : Str) (tables : List TableInfo)
    (ht : isIdent t = true) (hb : balanced 0 body = true) (hne : body ≠ []) :
    stmtStep d tables (createTableText t body)
      = tables ++ [tableOfDefs d t (splitColumnDefs body)] := by
  have htrim : TrimSpace (createTableText t body) = createTableText t body := by
    simpa using TrimSpace_createTableText [] [] t body (by simp) (by simp)
  unfold stmtStep
  simp only [htrim, HasPrefix_createTableText, parseCreateTable_createTableText t body d ht hb hne]
  simp

theorem sealed_append (sep : Char) (a : Str) : ∀ (n : Nat) (b : Str),
    sealed sep n a = true → sealed sep 0 b = true → sealed sep n (a ++ b) = true := by
  induction a with
  | nil =>
    intro n b ha hb
    simp only [sealed, beq_iff_eq] at ha
    subst ha
    simpa using hb
  | cons c a ih =>
    intro n b ha hb
    simp only [sealed] at ha
    rw [List.cons_append]
    simp only [sealed]
    by_cases h1 : c = '('
    · simp only [h1, if_true] at ha ⊢
      exact ih _ b ha hb
    · simp only [h1, if_false] at ha ⊢
      by_cases h2 : c = ')'
      · simp only [h2, if_true] at ha ⊢
        cases n with
        | zero => simp at ha
        | succ m => exact ih _ b ha hb
      · simp only [h2, if_false] at ha ⊢
        by_cases h3 : c = sep
        · simp only [h3, if_true, Bool.and_eq_true] at ha ⊢
          exact ⟨ha.1, ih _ b ha.2 hb⟩
        · simp only [h3, if_false] at ha ⊢
          exact ih _ b ha hb

theorem space_plain (sep : Char) (hsep : isSpace sep = false) (ws : Str)
    (h : ws.all isSpace = true) : ∀ c ∈ ws, c ≠ '(' ∧ c ≠ ')' ∧ c ≠ sep := by
  intro c hc
  have := List.all_eq_true.1 h c hc
  refine ⟨?_, ?_, ?_⟩ <;> rintro rfl
  · exact absurd this (by decide)
  · exact absurd this (by decide)
  · rw [hsep] at this; exact absurd this (by decide)

theorem sealed_blank (sep : Char) (hsep : isSpace sep = false) (ws : Str)
    (h : ws.all isSpace = true) : sealed sep 0 ws = true := by
  have := sealed_plain sep ws 0 [] (space_plain sep hsep ws h)
  simpa [sealed] using this

theorem sealed_piece (p : ScriptPiece) (h : p.wellFormed = true) :
    sealed ';' 0 p.text = true := by
  cases p with
  | blank ws => exact sealed_blank ';' (by decide) ws h
  | table lead t body trail =>
    simp only [ScriptPiece.wellFormed, Bool.and_eq_true] at h
    obtain ⟨⟨⟨⟨hl, ht⟩, hb⟩, -⟩, htr⟩ := h
    simp only [ScriptPiece.text]
    rw [List.append_assoc, sealed_plain ';' lead _ _ (space_plain ';' (by decide) lead hl)]
    exact sealed_append ';' _ 0 trail (sealed_createTableText t body ht hb)
      (sealed_blank ';' (by decide) trail htr)

theorem keepNonEmpty_piece (p : ScriptPiece) (h : p.wellFormed = true) :
    keepNonEmpty (TrimSpace p.text) = p.stmts := by
  cases p with
  | blank ws =>
    have : TrimSpace ws = [] := by
      unfold TrimSpace
      rw [List.dropWhile_eq_nil_iff.2 (fun x hx => List.all_eq_true.1 h x hx)]
      rfl
    simp [ScriptPiece.text, ScriptPiece.stmts, this, keepNonEmpty]
  | table lead t body trail =>
    simp only [ScriptPiece.wellFormed, Bool.and_eq_true] at h
    obtain ⟨⟨⟨⟨hl, ht⟩, hb⟩, -⟩, htr⟩ := h
    simp only [ScriptPiece.text, ScriptPiece.stmts]
    rw [TrimSpace_createTableText lead trail t body (fun c hc => List.all_eq_true.1 hl c hc)
      (fun c hc => List.all_eq_true.1 htr c hc)]
    simp [keepNonEmpty, createTableText]

theorem splitStatements_script (pieces : List ScriptPiece)
    (h : ∀ p ∈ pieces, p.wellFormed = true) :
    splitStatements (scriptText pieces) = pieces.flatMap ScriptPiece.stmts := by
  unfold splitStatements scriptText
  rw [splitTopGo_Join ';' (by decide) (by decide) _ (by
    intro p hp
    obtain ⟨q, hq, rfl⟩ := List.mem_map.1 hp
    exact sealed_piece q (h q hq))]
  induction pieces with
  | nil => rfl
  | cons p ps ih =>
    simp only [List.map_cons, List.flatMap_cons]
    rw [keepNonEmpty_piece p (h p (List.mem_cons_self _ _)),
      ih (fun q hq => h q (List.mem_cons_of_mem _ hq))]

theorem foldl_stmtStep_script (d : Str) (pieces : List ScriptPiece)
    (h : ∀ p ∈ pieces, p.wellFormed = true) : ∀ acc : List TableInfo,
    ((pieces.flatMap ScriptPiece.stmts).foldl (stmtStep d) acc).map (·.Name)
      = acc.map (·.Name) ++ tableNames pieces := by
  induction pieces with
  | nil => intro acc; simp [tableNames]
  | cons p ps ih =>
    intro acc
    have hp := h p (List.mem_cons_self _ _)
    have hps : ∀ q ∈ ps, q.wellFormed = true := fun q hq => h q (List.mem_cons_of_mem _ hq)
    cases p with
    | blank ws =>
      simpa [ScriptPiece.stmts, tableNames, ScriptPiece.names] using ih hps acc
    | table lead t body trail =>
      simp only [ScriptPiece.wellFormed, Bool.and_eq_true] at hp
      obtain ⟨⟨⟨⟨-, ht⟩, hb⟩, hne⟩, -⟩ := hp
      have hne' : body ≠ [] := by cases body <;> simp at hne ⊢
      simp only [List.flatMap_cons, ScriptPiece.stmts, List.singleton_append, List.foldl_cons,
        stmtStep_createTableText t body d acc ht hb hne']
      rw [ih hps]
      simp [tableNames, ScriptPiece.names, tableOfDefs]

/-- C4 (as amended): a script of statements `CREATE TABLE t (body)` separated by `;`
(blank text around the statements and empty pieces allowed), in which no comment
marker occurs and the parentheses of every body balance character by character,
gives exactly one table per statement, named in the order of the statements; the
bodies are otherwise arbitrary, so a `;` inside a body does not change the count. -/
theorem script_tables_in_order (pieces : List ScriptPiece) (d : Str)
    (hwf : ∀ p ∈ pieces, p.wellFormed = true)
    (hnc : noCommentMarker (scriptText pieces) = true) :
    ∃ tables, ParseCreateStatements (scriptText pieces) d = .ok tables
      ∧ tables.map (·.Name) = tableNames pieces
      ∧ tables.length = (tableNames pieces).length := by
  have hnames := foldl_stmtStep_script
    (if d.isEmpty then detectDialect (scriptText pieces) else d) pieces hwf []
  refine ⟨(pieces.flatMap ScriptPiece.stmts).foldl
    (stmtStep (if d.isEmpty then detectDialect (scriptText pieces) else d)) [], ?_, ?_, ?_⟩
  · unfold ParseCreateStatements
    simp only [removeComments_id _ hnc, splitStatements_script pieces hwf]
  · simpa using hnames
  · have := congrArg List.length hnames
    simpa using this


set_option maxRecDepth 100000 in
/-- C4 (witness): two statements with blank text around them, a `;` inside a DEFAULT
literal and one inside a parameter list, and a final `;`. -/
theorem script_tables_in_order_witness :
    ∃ tables,
      ParseCreateStatements (scriptText
        [.table "\n\t".toList "users".toList "id INTEGER PRIMARY KEY, sep TEXT DEFAULT \x27;\x27".toList [],
         .table "\n\t".toList "posts".toList "id INTEGER, price NUMERIC(10;2)".toList [],
         .blank "\n".toList]) "sqlite".toList = .ok tables
      ∧ tables.map (·.Name) = tableNames
        [.table "\n\t".toList "users".toList "id INTEGER PRIMARY KEY, sep TEXT DEFAULT \x27;\x27".toList [],
         .table "\n\t".toList "posts".toList "id INTEGER, price NUMERIC(10;2)".toList [],
         .blank "\n".toList]
      ∧ tables.length = (tableNames
        [.table "\n\t".toList "users".toList "id INTEGER PRIMARY KEY, sep TEXT DEFAULT \x27;\x27".toList [],
         .table "\n\t".toList "posts".toList "id INTEGER, price NUMERIC(10;2)".toList [],
         .blank "\n".toList]).length :=
  script_tables_in_order _ _ (by decide) (by decide)

/-- C4 (counterexample): two statements separated by `;`, the first with a `)` inside
its DEFAULT literal; the result has one table, not two. -/
theorem quoted_paren_joins_statements :
    ParseCreateStatements
      "CREATE TABLE a (x TEXT DEFAULT \x27)\x27); CREATE TABLE b (y INT)".toList [] =
      .ok [{ Name := "a".toList,
             Columns := [{ Name := "x".toList, SqlType := "TEXT".toList, IsNullable := true }] }] := by
  decide

/-! ## The loops over the columns -/

/-- The effect of the constraint keys on one column. -/
theorem applyConstraintPKs_eq (ks : List Str) : ∀ cols : List ColumnInfo,
    applyConstraintPKs cols ks = cols.map (fun col =>
      if namedBy ks col then { col with IsPrimaryKey := true, IsNullable := false } else col) := by
  induction ks with
  | nil => intro cols; simp [applyConstraintPKs, namedBy]
  | cons k ks ih =>
    intro cols
    have := ih (cols.map (fun col =>
      if EqualFold col.Name k then { col with IsPrimaryKey := true, IsNullable := false }
      else col))
    simp only [applyConstraintPKs, List.foldl_cons] at this ⊢
    rw [this, List.map_map]
    apply List.map_congr_left
    intro col _
    simp only [Function.comp, namedBy, List.any_cons]
    by_cases h1 : EqualFold col.Name k = true
    · simp [h1]
    · simp [h1]

theorem appendPrimaryKeys_eq (cols : List ColumnInfo) : ∀ pks : List Str,
    appendPrimaryKeys pks cols = pks ++ (cols.filter (·.IsPrimaryKey)).map (·.Name) := by
  induction cols with
  | nil => intro pks; simp [appendPrimaryKeys]
  | cons c cols ih =>
    intro pks
    have := ih (if c.IsPrimaryKey then pks ++ [c.Name] else pks)
    simp only [appendPrimaryKeys, List.foldl_cons] at this ⊢
    rw [this]
    by_cases h : c.IsPrimaryKey = true
    · simp [h]
    · simp [h]

theorem buildPrimaryKeys_eq (cols : List ColumnInfo) :
    buildPrimaryKeys cols = (cols.filter (·.IsPrimaryKey)).map (·.Name) := by
  simp [buildPrimaryKeys, appendPrimaryKeys_eq]

/-- The primary keys of a table whose columns carry no key of their own. -/
theorem primaryKeys_of_constraint (cols : List ColumnInfo) (ks : List Str)
    (h : ∀ c ∈ cols, c.IsPrimaryKey = false) :
    buildPrimaryKeys (applyConstraintPKs cols ks)
        = ((applyConstraintPKs cols ks).filter (namedBy ks)).map (·.Name)
    ∧ ∀ c ∈ applyConstraintPKs cols ks, namedBy ks c = true →
        c.IsPrimaryKey = true ∧ c.IsNullable = false := by
  rw [buildPrimaryKeys_eq, applyConstraintPKs_eq]
  constructor
  · congr 1
    apply List.filter_congr
    intro c hc
    obtain ⟨c0, hc0, rfl⟩ := List.mem_map.1 hc
    by_cases hn : namedBy ks c0 = true
    · rw [if_pos hn]
      exact hn.symm
    · rw [if_neg hn, h c0 hc0]
      simp only [Bool.not_eq_true] at hn
      exact hn.symm
  · intro c hc hn
    obtain ⟨c0, hc0, rfl⟩ := List.mem_map.1 hc
    by_cases hn0 : namedBy ks c0 = true
    · rw [if_pos hn0]
      exact ⟨rfl, rfl⟩
    · rw [if_neg hn0] at hn
      exact absurd hn hn0

/-! ## The column list of a table constraint -/

theorem lazyStar_until {α : Type} (p : Char → Bool) (rest : Str) (k : Str → Option α)
    (hrest : (k rest).isSome = true)
    (xs : Str) (hp : ∀ x ∈ xs, p x = true)
    (hk : ∀ sfx, sfx ≠ [] → sfx <:+ xs → k (sfx ++ rest) = none) :
    lazyStar p (xs ++ rest) k = k rest := by
  induction xs with
  | nil =>
    cases rest with
    | nil => rfl
    | cons c cs =>
      simp only [List.nil_append, lazyStar]
      exact orTry_of_isSome _ _ hrest
  | cons x xs ih =>
    have h0 : k (x :: xs ++ rest) = none := hk (x :: xs) (by simp) (List.suffix_refl _)
    have hx := hp x (List.mem_cons_self _ _)
    show lazyStar p (x :: (xs ++ rest)) k = k rest
    rw [lazyStar, show x :: (xs ++ rest) = x :: xs ++ rest from rfl, h0, orTry_none, if_pos hx]
    exact ih (fun y hy => hp y (List.mem_cons_of_mem _ hy))
      (fun sfx h1 h2 => hk sfx h1 (h2.trans (List.suffix_cons _ _)))

/-- After text that does not end in a blank and holds no `)`, the pattern `\s*\)` does
not match. -/
theorem greedyStar_close_fail {α : Type} (rest : Str) (caps : Caps)
    (k : Str → Caps → Option α) (s : Str) (hne : s ≠ [])
    (hlast : rxSpace (s.getLast hne) = false) (hclose : ')' ∉ s) :
    greedyStar rxSpace (s ++ rest) (fun r => (Rx.cat [Rx.chr ')']).run r caps k) = none := by
  induction s with
  | nil => exact absurd rfl hne
  | cons c s ih =>
    have hc : c ≠ ')' := fun e => hclose (e ▸ List.mem_cons_self _ _)
    have hk0 : (Rx.cat [Rx.chr ')']).run (c :: (s ++ rest)) caps k = none := by
      simp [run_cat_cons, Rx.chr, Rx.run, hc]
    show greedyStar rxSpace (c :: (s ++ rest)) _ = none
    rw [greedyStar]
    by_cases hsp : rxSpace c = true
    · rw [if_pos hsp, hk0]
      have hs : s ≠ [] := by
        rintro rfl
        simp at hlast
        rw [hlast] at hsp
        exact absurd hsp (by decide)
      have hl' : rxSpace (s.getLast hs) = false := by
        rw [List.getLast_cons hs] at hlast
        exact hlast
      rw [ih hs hl' (fun h => hclose (List.mem_cons_of_mem _ h))]
      rfl
    · rw [if_neg hsp, hk0]

theorem find_skip (R : List Rx) (c : Char) (w rest : Str) (hw : c ∉ w) :
    (Rx.cat (Rx.chr c :: R)).find (w ++ c :: rest) = (Rx.cat (Rx.chr c :: R)).find (c :: rest) := by
  induction w with
  | nil => rfl
  | cons a w ih =>
    have ha : a ≠ c := fun e => hw (e ▸ List.mem_cons_self _ _)
    show (Rx.cat (Rx.chr c :: R)).find (a :: (w ++ c :: rest)) = _
    rw [Rx.find]
    have : (Rx.cat (Rx.chr c :: R)).run (a :: (w ++ c :: rest)) [] (fun _ m => some m) = none := by
      simp [run_cat_cons, Rx.chr, Rx.run, ha]
    rw [this, orTry_none]
    exact ih (fun h => hw (List.mem_cons_of_mem _ h))

theorem Join_keys_chars (ks : List Str) (hks : ∀ k ∈ ks, isIdent k = true) :
    ∀ c ∈ Join ", ".toList ks, keyListChar c = true := by
  induction ks with
  | nil => simp [Join]
  | cons k ks ih =>
    have hk := (isIdent_iff.1 (hks k (List.mem_cons_self _ _))).2
    have hk' : ∀ c ∈ k, keyListChar c = true := by
      intro c hc
      simp [keyListChar, List.all_eq_true.1 hk c hc]
    have ih' := ih (fun x hx => hks x (List.mem_cons_of_mem _ hx))
    cases ks with
    | nil => simpa [Join] using hk'
    | cons k2 ks' =>
      intro c hc
      simp only [Join, List.mem_append] at hc
      rcases hc with (hc | hc) | hc
      · exact hk' c hc
      · revert hc; revert c; decide
      · exact ih' c hc

theorem Join_keys_last (ks : List Str) (hks : ∀ k ∈ ks, isIdent k = true) (hne : ks ≠ []) :
    ∃ init b, Join ", ".toList ks = init ++ [b] ∧ identChar b = true := by
  induction ks with
  | nil => exact absurd rfl hne
  | cons k ks ih =>
    cases ks with
    | nil =>
      obtain ⟨hkne, hk⟩ := isIdent_iff.1 (hks k (List.mem_cons_self _ _))
      refine ⟨k.dropLast, k.getLast hkne, ?_, List.all_eq_true.1 hk _ (List.getLast_mem hkne)⟩
      simp [Join, List.dropLast_append_getLast]
    | cons k2 ks' =>
      obtain ⟨init, b, hj, hb⟩ := ih (fun x hx => hks x (List.mem_cons_of_mem _ hx)) (by simp)
      refine ⟨k ++ ", ".toList ++ init, b, ?_, hb⟩
      simp only [Join]
      rw [hj]
      simp

theorem Join_keys_head (ks : List Str) (hks : ∀ k ∈ ks, isIdent k = true) (hne : ks ≠ []) :
    ∃ a tl, Join ", ".toList ks = a :: tl ∧ identChar a = true := by
  obtain ⟨k, ks', rfl⟩ := List.exists_cons_of_ne_nil hne
  obtain ⟨hkne, hk⟩ := isIdent_iff.1 (hks k (List.mem_cons_self _ _))
  obtain ⟨a, l, rfl⟩ := List.exists_cons_of_ne_nil hkne
  have ha : identChar a = true := by simp at hk; exact hk.1
  cases ks' with
  | nil => exact ⟨a, l, by simp [Join], ha⟩
  | cons k2 r => exact ⟨a, l ++ ", ".toList ++ Join ", ".toList (k2 :: r), by simp [Join], ha⟩

theorem suffix_getLast (sfx init : Str) (b : Char) (h : sfx ≠ []) (hs : sfx <:+ init ++ [b]) :
    sfx.getLast h = b := by
  obtain ⟨pre, hpre⟩ := hs
  have e1 : (pre ++ sfx).getLast (by simp [h]) = sfx.getLast h := List.getLast_append_right h
  have e2 : (init ++ [b]).getLast (by simp) = b := List.getLast_concat _
  rw [← e1, ← e2]
  exact List.getLast_congr _ _ hpre

theorem keyListChar_not_close {c : Char} (h : keyListChar c = true) : c ≠ ')' := by
  rintro rfl
  exact absurd h (by decide)

theorem keyListChar_dot {c : Char} (h : keyListChar c = true) : rxDot c = true := by
  by_contra hd
  simp only [rxDot, bne_iff_ne, ne_eq, not_not] at hd
  subst hd
  exact absurd h (by decide)

/-- The pattern of `extractConstraintColumns` captures the list between the
parentheses of `PRIMARY KEY (k1, ..., km)`. -/
theorem constraintColsRe_find (ks : List Str) (hks : ∀ k ∈ ks, isIdent k = true)
    (hne : ks ≠ []) :
    constraintColsRe.find (pkConstraintText ks) = some [(1, Join ", ".toList ks)] := by
  obtain ⟨a, tl, hK, ha⟩ := Join_keys_head ks hks hne
  obtain ⟨init, b, hKl, hb⟩ := Join_keys_last ks hks hne
  have hchars := Join_keys_chars ks hks
  have hre : constraintColsRe = Rx.cat (Rx.chr '(' ::
      [.star rxSpace, .group 1 (.lazyPlus rxDot), .star rxSpace, Rx.chr ')']) := rfl
  have htext : pkConstraintText ks
      = "PRIMARY KEY ".toList ++ '(' :: (Join ", ".toList ks ++ [')']) := by
    simp [pkConstraintText]
  rw [hre, htext, find_skip _ _ _ _ (by decide)]
  apply find_of_run
  rw [run_cat_cons, run_chr, run_cat_cons, Rx.run, hK, List.cons_append,
    greedyStar_stop rxSpace _ _ (stopsAt_cons _ a _ (identChar_not_rxSpace ha)),
    run_cat_cons, Rx.run]
  show (Rx.lazyPlus rxDot).run (a :: (tl ++ [')'])) [] _ = _
  have hda : rxDot a = true := keyListChar_dot (hchars a (by rw [hK]; exact List.mem_cons_self _ _))
  rw [Rx.run, if_pos hda]
  have hfin : ∀ caps : Caps, (Rx.cat [.star rxSpace, Rx.chr ')']).run [')'] caps
      (fun _ c => some c) = some caps := by
    intro caps
    rw [run_cat_cons, Rx.run, greedyStar_stop rxSpace _ _ (stopsAt_cons _ ')' _ (by decide)),
      run_cat_cons, run_chr, run_cat_nil]
  rw [lazyStar_until rxDot [')'] _ (by simp [hfin]) tl
    (fun x hx => keyListChar_dot (hchars x (by rw [hK]; exact List.mem_cons_of_mem _ hx)))]
  · rw [hfin]
    have hlen : (a :: (tl ++ [')'])).length - [')'].length = (a :: tl).length := by simp
    rw [hlen, ← List.cons_append, List.take_left]
  · intro sfx hs1 hs2
    beta_reduce
    rw [run_cat_cons, Rx.run]
    have hsK : sfx <:+ init ++ [b] := by
      rw [← hKl, hK]
      exact hs2.trans (List.suffix_cons _ _)
    apply greedyStar_close_fail [')'] _ _ sfx hs1
    · rw [suffix_getLast sfx init b hs1 hsK]
      exact identChar_not_rxSpace hb
    · intro hmem
      have : ')' ∈ Join ", ".toList ks := by
        rw [hKl]
        exact hsK.subset hmem
      exact keyListChar_not_close (hchars _ this) rfl

theorem trimBoth_id (p : Char → Bool) (k : Str) (h : ∀ c ∈ k, p c = false) :
    (k.dropWhile p).rdropWhile p = k := by
  have h1 : k.dropWhile p = k := by
    cases k with
    | nil => rfl
    | cons a l => exact List.dropWhile_cons_of_neg (by simp [h a (List.mem_cons_self _ _)])
  rw [h1, List.rdropWhile_eq_self_iff]
  intro hl
  simp [h _ (List.getLast_mem hl)]

theorem TrimSpace_ident (k : Str) (hk : k.all identChar = true) : TrimSpace k = k :=
  trimBoth_id isSpace k (fun c hc => identChar_not_space (List.all_eq_true.1 hk c hc))

theorem unquoteIdent_ident (k : Str) (hk : k.all identChar = true) : unquoteIdent k = k := by
  unfold unquoteIdent Trim TrimRight TrimLeft
  apply trimBoth_id
  intro c hc
  have hi := List.all_eq_true.1 hk c hc
  by_contra hcon
  simp only [Bool.not_eq_false, identQuotes, List.contains_cons, Bool.or_eq_true, beq_iff_eq,
    List.contains_nil, or_false, Bool.false_eq_true] at hcon
  rcases hcon with rfl | rfl | rfl | rfl | rfl <;> exact absurd hi (by decide)

theorem Split_Join_keys (ks : List Str) (hks : ∀ k ∈ ks, isIdent k = true) :
    ∀ k, isIdent k = true →
    Split ',' (Join ", ".toList (k :: ks)) = k :: ks.map (fun x => ' ' :: x) := by
  induction ks with
  | nil =>
    intro k hk
    simp only [Join, List.map_nil]
    exact Split_no_sep _ _ (fun c hc => identChar_ne
      (List.all_eq_true.1 (isIdent_iff.1 hk).2 c hc) _ (by decide))
  | cons k2 ks ih =>
    intro k hk
    have h2 := ih (fun x hx => hks x (List.mem_cons_of_mem _ hx)) k2
      (hks k2 (List.mem_cons_self _ _))
    have e : Join ", ".toList (k :: k2 :: ks) = k ++ ',' :: (' ' :: Join ", ".toList (k2 :: ks)) := by
      simp [Join]
    rw [e, Split_append_sep, Split_no_sep _ k (fun c hc => identChar_ne
      (List.all_eq_true.1 (isIdent_iff.1 hk).2 c hc) _ (by decide))]
    rw [Split, if_neg (by decide), h2]
    rfl

theorem TrimSpace_cons_space (s : Str) : TrimSpace (' ' :: s) = TrimSpace s := by
  unfold TrimSpace
  rw [List.dropWhile_cons_of_pos (by decide)]

/-- `extractConstraintColumns` on `PRIMARY KEY (k1, ..., km)` gives `k1, ..., km`. -/
theorem extractConstraintColumns_pk (ks : List Str) (hks : ∀ k ∈ ks, isIdent k = true)
    (hne : ks ≠ []) : extractConstraintColumns (pkConstraintText ks) = ks := by
  obtain ⟨k, ks', rfl⟩ := List.exists_cons_of_ne_nil hne
  unfold extractConstraintColumns
  rw [constraintColsRe_find _ hks hne]
  simp only [capture_single]
  rw [Split_Join_keys ks' (fun x hx => hks x (List.mem_cons_of_mem _ hx)) k
    (hks k (List.mem_cons_self _ _))]
  have hall : ∀ x ∈ k :: ks', x.all identChar = true ∧ x ≠ [] :=
    fun x hx => ⟨(isIdent_iff.1 (hks x hx)).2, (isIdent_iff.1 (hks x hx)).1⟩
  have hmap : (k :: ks'.map (fun x => ' ' :: x)).map (fun part => unquoteIdent (TrimSpace part))
      = k :: ks' := by
    simp only [List.map_cons, List.map_map]
    rw [TrimSpace_ident k (hall k (List.mem_cons_self _ _)).1,
      unquoteIdent_ident k (hall k (List.mem_cons_self _ _)).1]
    congr 1
    conv_rhs => rw [← List.map_id ks']
    apply List.map_congr_left
    intro x hx
    have hx' := (hall x (List.mem_cons_of_mem _ hx)).1
    simp only [Function.comp, TrimSpace_cons_space, TrimSpace_ident x hx',
      unquoteIdent_ident x hx', id]
  rw [hmap]
  apply List.filter_eq_self.2
  intro x hx
  have := (hall x hx).2
  cases x <;> simp at this ⊢

theorem balanced_of_sealed (sep : Char) (s : Str) : ∀ n, sealed sep n s = true →
    balanced n s = true := by
  induction s with
  | nil => intro n h; simpa [sealed, balanced] using h
  | cons c s ih =>
    intro n h
    simp only [sealed] at h
    simp only [balanced]
    by_cases h1 : c = '('
    · simp only [h1, if_true] at h ⊢
      exact ih _ h
    · simp only [h1, if_false] at h ⊢
      by_cases h2 : c = ')'
      · simp only [h2, if_true] at h ⊢
        cases n with
        | zero => simp at h
        | succ m => exact ih _ h
      · simp only [h2, if_false] at h ⊢
        by_cases h3 : c = sep
        · simp only [h3, if_true, Bool.and_eq_true] at h
          exact ih _ h.2
        · simp only [h3, if_false] at h
          exact ih _ h

theorem balanced_append (a : Str) : ∀ (n : Nat) (b : Str),
    balanced n a = true → balanced 0 b = true → balanced n (a ++ b) = true := by
  induction a with
  | nil =>
    intro n b ha hb
    simp only [balanced, beq_iff_eq] at ha
    subst ha
    simpa using hb
  | cons c a ih =>
    intro n b ha hb
    simp only [balanced] at ha
    rw [List.cons_append]
    simp only [balanced]
    by_cases h1 : c = '('
    · simp only [h1, if_true] at ha ⊢
      exact ih _ b ha hb
    · simp only [h1, if_false] at ha ⊢
      by_cases h2 : c = ')'
      · simp only [h2, if_true] at ha ⊢
        cases n with
        | zero => simp at ha
        | succ m => exact ih _ b ha hb
      · simp only [h2, if_false] at ha ⊢
        exact ih _ b ha hb

theorem plainDef_iff {df : Str} : plainDef df = true ↔
    sealed ',' 0 df = true ∧ df ≠ [] ∧ TrimSpace df = df := by
  cases df <;> simp [plainDef]

theorem balanced_Join (defs : List Str) (h : ∀ df ∈ defs, plainDef df = true) :
    balanced 0 (Join ", ".toList defs) = true := by
  induction defs with
  | nil => rfl
  | cons a rest ih =>
    have ha := balanced_of_sealed ',' a 0 (plainDef_iff.1 (h a (List.mem_cons_self _ _))).1
    have ih' := ih (fun x hx => h x (List.mem_cons_of_mem _ hx))
    cases rest with
    | nil => simpa [Join] using ha
    | cons b r =>
      have e : Join ", ".toList (a :: b :: r) = a ++ (", ".toList ++ Join ", ".toList (b :: r)) := by
        simp [Join]
      rw [e]
      apply balanced_append a 0 _ ha
      exact ih'

theorem TrimSpace_lead (ws s : Str) (h : ∀ c ∈ ws, isSpace c = true) :
    TrimSpace (ws ++ s) = TrimSpace s := by
  unfold TrimSpace
  rw [List.dropWhile_append_of_pos h]

/-- The definitions of a body `d1, d2, ..., dn` are what `splitColumnDefs` returns. -/
theorem splitTopGo_defs (defs : List Str) (h : ∀ df ∈ defs, plainDef df = true) :
    ∀ ws : Str, (∀ c ∈ ws, isSpace c = true) →
    splitTopGo ',' 0 ws (Join ", ".toList defs) = defs := by
  induction defs with
  | nil =>
    intro ws hws
    have : TrimSpace ws = [] := by
      have := TrimSpace_lead ws [] hws
      simpa [TrimSpace] using this
    simp [Join, splitTopGo, this, keepNonEmpty]
  | cons a rest ih =>
    intro ws hws
    obtain ⟨hs, hne, htrim⟩ := plainDef_iff.1 (h a (List.mem_cons_self _ _))
    have hkeep : keepNonEmpty (TrimSpace (ws ++ a)) = [a] := by
      rw [TrimSpace_lead ws a hws, htrim]
      cases a <;> simp [keepNonEmpty] at hne ⊢
    cases rest with
    | nil =>
      have := splitTopGo_sealed ',' a 0 ws [] hs
      simp only [Nat.cast_zero, List.append_nil] at this
      simp only [Join]
      rw [this, splitTopGo, hkeep]
    | cons b r =>
      have e : Join ", ".toList (a :: b :: r) = a ++ (',' :: ' ' :: Join ", ".toList (b :: r)) := by
        simp [Join]
      have := splitTopGo_sealed ',' a 0 ws (',' :: ' ' :: Join ", ".toList (b :: r)) hs
      simp only [Nat.cast_zero] at this
      rw [e, this, splitTopGo, if_neg (by decide), if_neg (by decide), if_pos rfl, if_pos rfl,
        hkeep, splitTopGo, if_neg (by decide), if_neg (by decide), if_neg (by decide),
        List.nil_append,
        ih (fun x hx => h x (List.mem_cons_of_mem _ hx)) [' '] (by decide)]
      rfl

theorem splitColumnDefs_Join (defs : List Str) (h : ∀ df ∈ defs, plainDef df = true) :
    splitColumnDefs (Join ", ".toList defs) = defs :=
  splitTopGo_defs defs h [] (by simp)

theorem balanced_plain (s : Str) (h : ∀ c ∈ s, c ≠ '(' ∧ c ≠ ')') : balanced 0 s = true := by
  induction s with
  | nil => rfl
  | cons c s ih =>
    obtain ⟨h1, h2⟩ := h c (List.mem_cons_self _ _)
    simp only [balanced, h1, h2, if_false]
    exact ih (fun x hx => h x (List.mem_cons_of_mem _ hx))

theorem plainDef_pkConstraintText (ks : List Str) (hks : ∀ k ∈ ks, isIdent k = true) :
    plainDef (pkConstraintText ks) = true := by
  have hchars := Join_keys_chars ks hks
  have hbal : balanced 0 (Join ", ".toList ks) = true :=
    balanced_plain _ (fun c hc => by
      have := hchars c hc
      constructor <;> rintro rfl <;> exact absurd this (by decide))
  rw [plainDef_iff]
  refine ⟨?_, ?_, ?_⟩
  · have e : pkConstraintText ks
        = "PRIMARY KEY ".toList ++ ('(' :: (Join ", ".toList ks ++ [')'])) := by
      simp [pkConstraintText]
    rw [e, sealed_plain ',' "PRIMARY KEY ".toList _ _ (by decide), sealed_open]
    have := sealed_balanced ',' (by decide) (by decide) (Join ", ".toList ks) 0 0 [')'] hbal
    simp only [Nat.add_zero, Nat.zero_add] at this ⊢
    rw [this]
    rfl
  · simp [pkConstraintText]
  · have e : pkConstraintText ks
        = 'P' :: ("RIMARY KEY (".toList ++ Join ", ".toList ks ++ [')']) := by
      simp [pkConstraintText]
    rw [e]
    exact TrimSpace_self 'P' _ ')' (by decide) (by decide)

theorem defStep_pk (d : Str) (st : DefsState) (ks : List Str)
    (hks : ∀ k ∈ ks, isIdent k = true) (hne : ks ≠ []) :
    defStep d st (pkConstraintText ks)
      = { st with constraintPKs := st.constraintPKs ++ ks } := by
  have htrim := (plainDef_iff.1 (plainDef_pkConstraintText ks hks)).2.2
  have hpre : HasPrefix (ToUpper (pkConstraintText ks)) "PRIMARY KEY".toList = true := by
    have e : pkConstraintText ks
        = "PRIMARY KEY".toList ++ (" (".toList ++ Join ", ".toList ks ++ [')']) := by
      simp [pkConstraintText]
    rw [e]
    unfold HasPrefix ToUpper
    rw [List.map_append, List.isPrefixOf_iff_prefix]
    exact ⟨_, rfl⟩
  unfold defStep
  simp only [htrim, hpre, if_true, extractConstraintColumns_pk ks hks hne]

theorem markForeignKey_noKey (cols : List ColumnInfo) (a b c : Str)
    (h : ∀ col ∈ cols, col.IsPrimaryKey = false) :
    ∀ col ∈ markForeignKey cols a b c, col.IsPrimaryKey = false := by
  intro col hcol
  obtain ⟨c0, hc0, rfl⟩ := List.mem_map.1 hcol
  by_cases hf : EqualFold c0.Name a = true
  · simp [hf, h c0 hc0]
  · simp [hf, h c0 hc0]

/-! ## C2: the order of the primary-key list -/

theorem Join_ne_nil (sep : Str) (a : Str) (rest : List Str) (ha : a ≠ []) :
    Join sep (a :: rest) ≠ [] := by
  cases rest with
  | nil => simpa [Join] using ha
  | cons b r => simp [Join, ha]

/-- C2 (counterexample): for `PRIMARY KEY (b, a)` the primary-key list is `[a, b]`, the
order of the column declarations, not `[b, a]`. -/
theorem primaryKeys_in_declaration_order :
    parseCreateTable "CREATE TABLE t (a INT, b INT, PRIMARY KEY (b, a))".toList [] =
      .ok { Name := "t".toList,
            Columns := [{ Name := "a".toList, SqlType := "INT".toList, IsPrimaryKey := true },
                        { Name := "b".toList, SqlType := "INT".toList, IsPrimaryKey := true }],
            PrimaryKeys := ["a".toList, "b".toList] }
    ∧ ["a".toList, "b".toList] ≠ ["b".toList, "a".toList] := by
  decide

/-! ## The statements of a script -/

theorem splitTopGo_scan (sep : Char) (seg : Str) : ∀ (d : Int) (cur : Str) (d' : Int),
    scanDepth sep d seg = some d' →
    splitTopGo sep d cur seg = keepNonEmpty (TrimSpace (cur ++ seg)) := by
  induction seg with
  | nil => intro d cur d' _; simp [splitTopGo]
  | cons c seg ih =>
    intro d cur d' h
    rw [scanDepth] at h
    rw [splitTopGo]
    have e : cur ++ c :: seg = (cur ++ [c]) ++ seg := by simp
    by_cases h1 : c = '('
    · rw [if_pos h1] at h ⊢
      rw [e]; exact ih _ _ _ h
    · rw [if_neg h1] at h ⊢
      by_cases h2 : c = ')'
      · rw [if_pos h2] at h ⊢
        rw [e]; exact ih _ _ _ h
      · rw [if_neg h2] at h ⊢
        by_cases h3 : c = sep
        · rw [if_pos h3] at h ⊢
          by_cases h0 : d = 0
          · rw [if_pos h0] at h; exact absurd h (by simp)
          · rw [if_neg h0] at h ⊢
            rw [e]; exact ih _ _ _ h
        · rw [if_neg h3] at h ⊢
          rw [e]; exact ih _ _ _ h

theorem scanDepth_append (sep : Char) (a : Str) : ∀ (d : Int) (b : Str),
    scanDepth sep d (a ++ b) = (scanDepth sep d a).bind (fun d' => scanDepth sep d' b) := by
  induction a with
  | nil => intro d b; simp [scanDepth]
  | cons c a ih =>
    intro d b
    rw [List.cons_append, scanDepth, scanDepth]
    by_cases h1 : c = '('
    · rw [if_pos h1, if_pos h1]; exact ih _ _
    · rw [if_neg h1, if_neg h1]
      by_cases h2 : c = ')'
      · rw [if_pos h2, if_pos h2]; exact ih _ _
      · rw [if_neg h2, if_neg h2]
        by_cases h3 : c = sep
        · rw [if_pos h3, if_pos h3]
          by_cases h0 : d = 0
          · rw [if_pos h0, if_pos h0]; rfl
          · rw [if_neg h0, if_neg h0]; exact ih _ _
        · rw [if_neg h3, if_neg h3]; exact ih _ _

theorem scanDepth_prefix (sep : Char) (a b : Str) (d d' : Int)
    (h : scanDepth sep d (a ++ b) = some d') : ∃ d'', scanDepth sep d a = some d'' := by
  rw [scanDepth_append] at h
  cases ha : scanDepth sep d a with
  | none => rw [ha] at h; simp at h
  | some x => exact ⟨x, rfl⟩

theorem scanDepth_dropSpace (sep : Char) (hsep : isSpace sep = false) (s : Str) (d : Int) :
    scanDepth sep d (s.dropWhile isSpace) = scanDepth sep d s := by
  induction s with
  | nil => rfl
  | cons c s ih =>
    by_cases hc : isSpace c = true
    · rw [List.dropWhile_cons_of_pos hc, ih, scanDepth]
      have h1 : c ≠ '(' := by rintro rfl; exact absurd hc (by decide)
      have h2 : c ≠ ')' := by rintro rfl; exact absurd hc (by decide)
      have h3 : c ≠ sep := by rintro rfl; rw [hsep] at hc; exact absurd hc (by decide)
      rw [if_neg h1, if_neg h2, if_neg h3]
    · rw [List.dropWhile_cons_of_neg hc]

theorem scanDepth_TrimSpace (sep : Char) (hsep : isSpace sep = false) (s : Str) (d d' : Int)
    (h : scanDepth sep d s = some d') : ∃ d'', scanDepth sep d (TrimSpace s) = some d'' := by
  unfold TrimSpace
  obtain ⟨r, hr⟩ := List.rdropWhile_prefix isSpace (l := s.dropWhile isSpace)
  rw [← scanDepth_dropSpace sep hsep, ← hr] at h
  exact scanDepth_prefix sep _ _ _ _ h

theorem TrimSpace_idem (s : Str) : TrimSpace (TrimSpace s) = TrimSpace s := by
  unfold TrimSpace
  have h1 : (List.rdropWhile isSpace (s.dropWhile isSpace)).dropWhile isSpace
      = List.rdropWhile isSpace (s.dropWhile isSpace) := by
    cases hv : List.rdropWhile isSpace (s.dropWhile isSpace) with
    | nil => rfl
    | cons a l =>
      apply List.dropWhile_cons_of_neg
      obtain ⟨r, hr⟩ := List.rdropWhile_prefix isSpace (l := s.dropWhile isSpace)
      rw [hv] at hr
      have hh := List.head?_dropWhile_not isSpace s
      rw [← hr] at hh
      simp only [List.cons_append, List.head?_cons] at hh
      simpa using hh
  rw [h1, List.rdropWhile_idempotent]

theorem TrimSpace_part (s : Str) : TrimSpace s <:+: s := by
  unfold TrimSpace
  exact (List.rdropWhile_prefix isSpace (l := s.dropWhile isSpace)).isInfix.trans
    (List.dropWhile_suffix isSpace).isInfix

/-- Every statement returned by the splitter is the trimmed, non-empty form of a
stretch of the text that holds no separator outside parentheses. -/
theorem splitTopGo_pieces (sep : Char) (s : Str) : ∀ (depth : Int) (cur : Str),
    scanDepth sep 0 cur = some depth →
    ∀ p ∈ splitTopGo sep depth cur s, ∃ seg d', p = TrimSpace seg ∧ p ≠ []
      ∧ seg <:+: cur ++ s ∧ scanDepth sep 0 seg = some d' := by
  induction s with
  | nil =>
    intro depth cur hcur p hp
    simp only [splitTopGo, keepNonEmpty] at hp
    split at hp
    · simp at hp
    · rename_i hne
      simp only [List.mem_singleton] at hp
      subst hp
      exact ⟨cur, depth, rfl, by simpa using hne, by simp, hcur⟩
  | cons c s ih =>
    intro depth cur hcur p hp
    have e : cur ++ c :: s = (cur ++ [c]) ++ s := by simp
    have hstep : ∀ d2, scanDepth sep depth [c] = some d2 →
        scanDepth sep 0 (cur ++ [c]) = some d2 := by
      intro d2 h2
      rw [scanDepth_append, hcur]
      exact h2
    rw [splitTopGo] at hp
    by_cases h1 : c = '('
    · rw [if_pos h1] at hp
      rw [e]
      exact ih _ _ (hstep _ (by simp [scanDepth, h1])) p hp
    · rw [if_neg h1] at hp
      by_cases h2 : c = ')'
      · rw [if_pos h2] at hp
        rw [e]
        exact ih _ _ (hstep _ (by simp [scanDepth, h2])) p hp
      · rw [if_neg h2] at hp
        by_cases h3 : c = sep
        · rw [if_pos h3] at hp
          by_cases h0 : depth = 0
          · rw [if_pos h0] at hp
            rcases List.mem_append.1 hp with hp | hp
            · simp only [keepNonEmpty] at hp
              split at hp
              · simp at hp
              · rename_i hne
                simp only [List.mem_singleton] at hp
                subst hp
                exact ⟨cur, depth, rfl, by simpa using hne, ⟨[], c :: s, by simp⟩, hcur⟩
            · subst h0
              obtain ⟨seg, d', hp1, hp2, hp3, hp4⟩ := ih 0 [] (by simp [scanDepth]) p hp
              refine ⟨seg, d', hp1, hp2, ?_, hp4⟩
              rw [List.nil_append] at hp3
              exact hp3.trans ⟨cur ++ [c], [], by simp⟩
          · rw [if_neg h0] at hp
            rw [e]
            exact ih _ _ (hstep _ (by subst h3; simp [scanDepth, h1, h2, h0])) p hp
        · rw [if_neg h3] at hp
          rw [e]
          exact ih _ _ (hstep _ (by simp [scanDepth, h1, h2, h3])) p hp

theorem Index_lt (s sub : Str) (hsub : sub ≠ []) : ∀ i, Index s sub = some i → i < s.length := by
  induction s with
  | nil =>
    intro i h
    cases sub with
    | nil => exact absurd rfl hsub
    | cons a l => simp [Index] at h
  | cons c s ih =>
    intro i h
    rw [Index] at h
    by_cases hp : List.isPrefixOf sub (c :: s) = true
    · rw [if_pos hp] at h
      simp at h
      subst h
      simp
    · rw [if_neg hp] at h
      cases hi : Index s sub with
      | none => rw [hi] at h; simp at h
      | some j =>
        rw [hi] at h
        simp at h
        subst h
        have := ih j hi
        simp
        omega

/-- Before the first occurrence there is no occurrence. -/
theorem Index_take (s sub : Str) (hsub : sub ≠ []) : ∀ i, Index s sub = some i →
    Index (s.take i) sub = none := by
  induction s with
  | nil =>
    intro i _
    cases sub with
    | nil => exact absurd rfl hsub
    | cons a l => simp [Index]
  | cons c s ih =>
    intro i h
    rw [Index] at h
    by_cases hp : List.isPrefixOf sub (c :: s) = true
    · rw [if_pos hp] at h
      simp at h
      subst h
      cases sub with
      | nil => exact absurd rfl hsub
      | cons a l => simp [Index]
    · rw [if_neg hp] at h
      cases hi : Index s sub with
      | none => rw [hi] at h; simp at h
      | some j =>
        rw [hi] at h
        simp at h
        subst h
        rw [List.take_succ_cons, Index, ih j hi]
        have hp' : List.isPrefixOf sub (c :: List.take j s) = false := by
          by_contra hcon
          simp only [Bool.not_eq_false] at hcon
          have h1 := List.isPrefixOf_iff_prefix.1 hcon
          have h2 : c :: List.take j s <+: c :: s := by
            obtain ⟨r, hr⟩ := List.take_prefix j s
            exact ⟨r, by simp [hr]⟩
          exact hp (List.isPrefixOf_iff_prefix.2 (h1.trans h2))
        simp [hp']

/-- The second loop of `removeComments` leaves no `/*` behind. -/
theorem removeBlockComments_clean : ∀ (fuel : Nat) (s : Str), s.length < fuel →
    Contains (removeBlockComments fuel s) "/*".toList = false := by
  intro fuel
  induction fuel with
  | zero => intro s h; exact absurd h (by omega)
  | succ n ih =>
    intro s h
    rw [removeBlockComments]
    cases hi : Index s "/*".toList with
    | none => simp only [Contains, hi]; rfl
    | some start =>
      simp only []
      have hlt := Index_lt s _ (by decide) start hi
      cases he : Index (s.drop start) "*/".toList with
      | none =>
        simp only [Contains, Index_take s _ (by decide) start hi]
        rfl
      | some e =>
        simp only []
        apply ih
        simp only [List.length_append, List.length_take, List.length_drop]
        omega

theorem removeComments_clean (sql : Str) :
    Contains (removeComments sql) "/*".toList = false := by
  unfold removeComments
  exact removeBlockComments_clean _ _ (by omega)

/-! ## C6: best-effort parsing, statement by statement -/

/-- The dialect does not enter the result of `parseColumnDef`, nor of what calls it. -/
theorem stmtStep_dialect (d1 d2 : Str) : stmtStep d1 = stmtStep d2 := rfl

theorem stmtStep_append (d : Str) (acc : List TableInfo) (st : Str) :
    stmtStep d acc st = acc ++ stmtStep d [] st := by
  unfold stmtStep
  simp only []
  split
  · simp
  · split <;> simp

theorem foldl_stmtStep (d : Str) (stmts : List Str) : ∀ acc : List TableInfo,
    stmts.foldl (stmtStep d) acc = acc ++ stmts.flatMap (stmtStep d []) := by
  induction stmts with
  | nil => intro acc; simp
  | cons st stmts ih =>
    intro acc
    rw [List.foldl_cons, ih, stmtStep_append, List.flatMap_cons, List.append_assoc]

/-- A statement cut out of a text without comment markers, parsed on its own. -/
theorem ParseCreateStatements_piece (cleaned st d : Str) (hst : st ∈ splitStatements cleaned)
    (h1 : Contains cleaned "--".toList = false) (h2 : Contains cleaned "/*".toList = false) :
    ParseCreateStatements st d = .ok (stmtStep d [] st) ∧ TrimSpace st = st := by
  obtain ⟨seg, d', hp, hne, hinf, hscan⟩ :=
    splitTopGo_pieces ';' cleaned 0 [] (by simp [scanDepth]) st hst
  rw [List.nil_append] at hinf
  have hsub : st <:+: cleaned := by
    rw [hp]
    exact (TrimSpace_part seg).trans hinf
  have hnc : noCommentMarker st = true := by
    simp only [noCommentMarker, Bool.and_eq_true, Bool.not_eq_true']
    exact ⟨Contains_false_of_part _ _ _ hsub h1, Contains_false_of_part _ _ _ hsub h2⟩
  have htrim : TrimSpace st = st := by rw [hp, TrimSpace_idem]
  obtain ⟨d'', hscan'⟩ := scanDepth_TrimSpace ';' (by decide) seg 0 d' hscan
  rw [← hp] at hscan'
  have hsplit : splitStatements st = [st] := by
    unfold splitStatements
    rw [splitTopGo_scan ';' st 0 [] d'' hscan', List.nil_append, htrim]
    cases st with
    | nil => exact absurd rfl hne
    | cons a l => simp [keepNonEmpty]
  refine ⟨?_, htrim⟩
  unfold ParseCreateStatements
  simp only [removeComments_id st hnc, hsplit, List.foldl_cons, List.foldl_nil]
  rw [stmtStep_dialect _ d]

/-- A statement whose table name or body cannot be isolated gives no table. -/
theorem stmtStep_skipped (d st : Str)
    (h : tableNameRe.find (TrimSpace st) = none ∨ extractParenBody (TrimSpace st) = []) :
    stmtStep d [] st = [] := by
  unfold stmtStep
  simp only []
  split
  · rfl
  · unfold parseCreateTable
    rcases h with h | h
    · simp [h]
    · cases hf : tableNameRe.find (TrimSpace st) with
      | none => simp
      | some m => simp [h]

/-- C6 (as amended): `ParseCreateStatements` returns no error for any input text.  When
stripping the comments leaves no `--` behind, its result is the concatenation, over the
statements delimited by the semicolons outside parentheses, of what each statement
yields when parsed on its own; and such a statement whose table name or parenthesised
body cannot be isolated yields no table. -/
theorem statements_parsed_independently (sql d : Str) :
    (∃ tables, ParseCreateStatements sql d = .ok tables)
    ∧ (Contains (removeComments sql) "--".toList = false →
        ParseCreateStatements sql d
          = .ok ((splitStatements (removeComments sql)).flatMap
              (fun st => tablesOf (ParseCreateStatements st d)))
        ∧ ∀ st ∈ splitStatements (removeComments sql),
            (tableNameRe.find st = none ∨ extractParenBody st = []) →
            ParseCreateStatements st d = .ok []) := by
  refine ⟨⟨_, rfl⟩, fun h1 => ⟨?_, ?_⟩⟩
  · have h2 := removeComments_clean sql
    unfold ParseCreateStatements
    simp only []
    rw [foldl_stmtStep, List.nil_append, stmtStep_dialect _ d]
    congr 1
    apply List.flatMap_congr
    intro st hst
    have := (ParseCreateStatements_piece _ st d hst h1 h2).1
    unfold ParseCreateStatements at this
    simp only [] at this
    rw [this]
    rfl
  · intro st hst hfail
    obtain ⟨hp, htrim⟩ := ParseCreateStatements_piece _ st d hst h1 (removeComments_clean sql)
    rw [hp, stmtStep_skipped d st (by rw [htrim]; exact hfail)]


set_option maxRecDepth 100000 in
/-- C6 (witness): a statement without table name, followed by a good statement. -/
theorem statements_parsed_independently_witness :
    (ParseCreateStatements "CREATE TABLE (a INT); CREATE TABLE good (b INT)".toList []
        = .ok ((splitStatements
            (removeComments "CREATE TABLE (a INT); CREATE TABLE good (b INT)".toList)).flatMap
              (fun st => tablesOf (ParseCreateStatements st [])))
      ∧ ∀ st ∈ splitStatements
            (removeComments "CREATE TABLE (a INT); CREATE TABLE good (b INT)".toList),
          (tableNameRe.find st = none ∨ extractParenBody st = []) →
          ParseCreateStatements st [] = .ok [])
    ∧ ParseCreateStatements "CREATE TABLE (a INT); CREATE TABLE good (b INT)".toList []
        = .ok [{ Name := "good".toList,
                 Columns := [{ Name := "b".toList, SqlType := "INT".toList,
                               IsNullable := true }] }] :=
  ⟨(statements_parsed_independently
      "CREATE TABLE (a INT); CREATE TABLE good (b INT)".toList []).2 (by decide), by decide⟩

/-- C6 (counterexample): the body of the first statement is not closed; the second
statement, which yields the table `good` on its own, yields nothing in the script. -/
theorem unclosed_body_takes_rest :
    ParseCreateStatements "CREATE TABLE bad (a INT; CREATE TABLE good (b INT)".toList [] = .ok []
    ∧ ParseCreateStatements " CREATE TABLE good (b INT)".toList [] =
      .ok [{ Name := "good".toList,
             Columns := [{ Name := "b".toList, SqlType := "INT".toList, IsNullable := true }] }] := by
  decide

/-! ## C11: the keyword `REF:` -/

set_option maxRecDepth 100000 in
/-- C11 (failing input): the line `REF: posts.author_id > users.id` passes the test of
`parseDBML`, which lower-cases the line, but `parseDBMLRef` strips only the spellings
`Ref:` and `ref:` of the keyword; the column is marked after the line
`Ref: posts.author_id > users.id` and left as it is after the same line written with
`REF:`. -/
theorem upper_case_ref_keyword_ignored :
    parseDBML
        "Table posts \x7b\n  author_id integer\n\x7d\nRef: posts.author_id > users.id".toList =
      .ok [{ Name := "posts".toList,
             Columns := [{ Name := "author_id".toList, SqlType := "integer".toList,
                           IsNullable := true, IsForeignKey := true,
                           ForeignTable := "users".toList, ForeignKey := "id".toList }] }]
    ∧ parseDBML
        "Table posts \x7b\n  author_id integer\n\x7d\nREF: posts.author_id > users.id".toList =
      .ok [{ Name := "posts".toList,
             Columns := [{ Name := "author_id".toList, SqlType := "integer".toList,
                           IsNullable := true }] }] := by
  decide

/-! ## C12: the closed blocks of a DSL text -/

theorem markRef_names (tables : List TableInfo) (t1 c1 t2 c2 : Str) :
    (markRef tables t1 c1 t2 c2).map (fun t => t.Name) = tables.map (fun t => t.Name) := by
  unfold markRef
  rw [List.map_map]
  apply List.map_congr_left
  intro tb _
  simp only [Function.comp]
  split <;> rfl

theorem parseDBMLRef_cases (l : Str) (tables : List TableInfo) :
    parseDBMLRef l tables = tables
      ∨ ∃ t1 c1 t2 c2, parseDBMLRef l tables = markRef tables t1 c1 t2 c2 := by
  unfold parseDBMLRef
  simp only []
  split
  · exact Or.inl rfl
  · split
    · split
      · exact Or.inr ⟨_, _, _, _, rfl⟩
      · exact Or.inl rfl
    · exact Or.inl rfl

theorem parseDBMLRef_names (l : Str) (tables : List TableInfo) :
    (parseDBMLRef l tables).map (fun t => t.Name) = tables.map (fun t => t.Name) := by
  rcases parseDBMLRef_cases l tables with h | ⟨t1, c1, t2, c2, h⟩
  · rw [h]
  · rw [h, markRef_names]

theorem fieldsGo_ne_nil (cur s : Str) (h : cur ≠ [] ∨ ∃ c ∈ s, isSpace c = false) :
    fieldsGo cur s ≠ [] := by
  induction s generalizing cur with
  | nil =>
    rcases h with h | ⟨c, hc, _⟩
    · simp [fieldsGo, h]
    · simp at hc
  | cons a s ih =>
    unfold fieldsGo
    by_cases ha : isSpace a = true
    · simp only [ha, if_true]
      by_cases hcur : cur.isEmpty = true
      · simp only [hcur, if_true]
        apply ih
        rcases h with h | ⟨c, hc, hs⟩
        · simp at hcur; exact absurd hcur h
        · right
          rcases List.mem_cons.1 hc with rfl | hc
          · rw [ha] at hs; cases hs
          · exact ⟨c, hc, hs⟩
      · simp [hcur]
    · simp only [ha]
      apply ih
      left; simp

theorem toLower_letter (c : Char) (x : Char) (h : toLowerRune c = x)
    (hx : 97 ≤ x.toNat ∧ x.toNat ≤ 122) : isSpace c = false := by
  unfold toLowerRune at h
  simp only [] at h
  split at h
  · rename_i hc; unfold isSpace; simp; omega
  · split at h
    · rename_i hc; unfold isSpace; simp [hc]
    · split at h
      · rename_i hc; unfold isSpace; simp [hc]
      · subst h; unfold isSpace; simp; omega

theorem toLower_space (c : Char) (h : toLowerRune c = ' ') : c = ' ' := by
  unfold toLowerRune at h
  simp only [] at h
  split at h
  · rename_i hc
    exfalso
    revert h
    generalize c.toNat = n at hc
    obtain ⟨h1, h2⟩ := hc
    interval_cases n <;> decide
  · split at h
    · cases h
    · split at h
      · cases h
      · exact h
theorem fieldsGo_letter (cur : Str) (c : Char) (cs : Str) (h : isSpace c = false) :
    fieldsGo cur (c :: cs) = fieldsGo (cur ++ [c]) cs := by
  rw [fieldsGo]; simp [h]

theorem fieldsGo_blank (cur : Str) (c : Char) (cs : Str) (h : isSpace c = true)
    (hcur : cur ≠ []) : fieldsGo cur (c :: cs) = cur :: fieldsGo [] cs := by
  rw [fieldsGo]; simp [h, hcur]

theorem opens_shape (line : Str) (h1 : HasPrefix (ToLower line) "table ".toList = true)
    (h2 : HasSuffix line [Char.ofNat 123] = true) :
    line.isEmpty = false ∧ HasPrefix line "//".toList = false
      ∧ ∃ a b r, Fields line = a :: b :: r := by
  rcases line with _ | ⟨c1, _ | ⟨c2, _ | ⟨c3, _ | ⟨c4, _ | ⟨c5, _ | ⟨c6, tail⟩⟩⟩⟩⟩⟩ <;>
    simp [HasPrefix, ToLower, List.isPrefixOf] at h1
  obtain ⟨e1, e2, e3, e4, e5, e6⟩ := h1
  have s1 := toLower_letter c1 _ e1.symm (by decide)
  have s2 := toLower_letter c2 _ e2.symm (by decide)
  have s3 := toLower_letter c3 _ e3.symm (by decide)
  have s4 := toLower_letter c4 _ e4.symm (by decide)
  have s5 := toLower_letter c5 _ e5.symm (by decide)
  have s6 := toLower_space c6 e6.symm
  subst s6
  have hb : (Char.ofNat 123) ∈ c1 :: c2 :: c3 :: c4 :: c5 :: ' ' :: tail := by
    have := List.isSuffixOf_iff_suffix.1 h2
    obtain ⟨t, ht⟩ := this
    rw [← ht]; simp
  have hne : ∀ c x : Char, toLowerRune c = x → 97 ≤ x.toNat ∧ x.toNat ≤ 122 → Char.ofNat 123 ≠ c := by
    intro c x hx hr hc
    subst hc
    have : toLowerRune (Char.ofNat 123) = Char.ofNat 123 := by decide
    rw [this] at hx; subst hx
    revert hr; decide
  have htail : Char.ofNat 123 ∈ tail := by
    simp only [List.mem_cons] at hb
    rcases hb with h | h | h | h | h | h | h
    · exact absurd h (hne _ _ e1.symm (by decide))
    · exact absurd h (hne _ _ e2.symm (by decide))
    · exact absurd h (hne _ _ e3.symm (by decide))
    · exact absurd h (hne _ _ e4.symm (by decide))
    · exact absurd h (hne _ _ e5.symm (by decide))
    · exact absurd h (by decide)
    · exact h
  refine ⟨rfl, ?_, ?_⟩
  · simp only [HasPrefix, List.isPrefixOf]
    have : c1 ≠ '/' := by
      intro hc; subst hc; revert e1; decide
    simp [this, Ne.symm this]
  · have hf : Fields (c1 :: c2 :: c3 :: c4 :: c5 :: ' ' :: tail)
        = [c1, c2, c3, c4, c5] :: fieldsGo [] tail := by
      unfold Fields
      rw [fieldsGo_letter _ _ _ s1, fieldsGo_letter _ _ _ s2, fieldsGo_letter _ _ _ s3,
        fieldsGo_letter _ _ _ s4, fieldsGo_letter _ _ _ s5,
        fieldsGo_blank _ _ _ (by decide) (by simp)]
      rfl
    have := fieldsGo_ne_nil [] tail (Or.inr ⟨_, htail, by decide⟩)
    rw [hf]
    rcases hft : fieldsGo [] tail with _ | ⟨b, r⟩
    · exact absurd hft this
    · exact ⟨_, _, _, rfl⟩
  

theorem dbmlStep_blocks (st : DBMLState) (l : Str)
    (hinv : st.inTable = st.currentTable.isSome) :
    (dbmlStep st l).inTable = (dbmlStep st l).currentTable.isSome ∧
    ∀ rest, (dbmlStep st l).tables.map (fun t => t.Name)
        ++ closedBlocks ((dbmlStep st l).currentTable.map (fun t => t.Name)) rest
      = st.tables.map (fun t => t.Name)
        ++ closedBlocks (st.currentTable.map (fun t => t.Name)) (l :: rest) := by
  rcases st with ⟨tbls, cur, inT⟩
  simp only at hinv
  subst hinv
  by_cases hopen : opensBlock l = true
  · have hopen2 := hopen
    simp only [opensBlock, Bool.and_eq_true] at hopen2
    obtain ⟨hs1, hs2, a, b, r, hf⟩ := opens_shape _ hopen2.1 hopen2.2
    have e : dbmlStep ⟨tbls, cur, cur.isSome⟩ l
        = ⟨tbls, some { Name := blockName l }, true⟩ := by
      unfold dbmlStep dbmlOpen
      simp only [hs1, hs2, hopen2.1, hopen2.2, hf, blockName, List.getD]
      simp
    rw [e]
    refine ⟨rfl, fun rest => ?_⟩
    simp [closedBlocks, hopen]
  · simp only [Bool.not_eq_true] at hopen
    have hopen2 : (HasPrefix (ToLower (TrimSpace l)) "table ".toList
        && HasSuffix (TrimSpace l) [Char.ofNat 123]) = false := hopen
    have hdo : ∀ s : DBMLState, dbmlOpen s (TrimSpace l) = none := by
      intro s; unfold dbmlOpen; rw [hopen2]; rfl
    by_cases hclose : TrimSpace l = [Char.ofNat 125]
    · have hc : closesBlock l = true := by simp [closesBlock, hclose]
      have hdo2 : ∀ s : DBMLState, dbmlOpen s [Char.ofNat 125] = none := by
        rw [← hclose]; exact hdo
      cases cur with
      | none =>
        have e : dbmlStep ⟨tbls, none, false⟩ l = ⟨tbls, none, false⟩ := by
          unfold dbmlStep
          simp only [hclose, hdo2]
          rfl
        simp only [Option.isSome]
        rw [e]
        refine ⟨rfl, fun rest => ?_⟩
        simp [closedBlocks, hopen, hc]
      | some t =>
        have e : dbmlStep ⟨tbls, some t, true⟩ l
            = ⟨tbls ++ [{ t with PrimaryKeys := appendPrimaryKeys t.PrimaryKeys t.Columns }],
                none, false⟩ := by
          unfold dbmlStep
          simp only [hclose, hdo2]
          rfl
        simp only [Option.isSome]
        rw [e]
        refine ⟨rfl, fun rest => ?_⟩
        simp [closedBlocks, hopen, hc]
    · have hc : closesBlock l = false := by simp [closesBlock, hclose]
      have key : (dbmlStep ⟨tbls, cur, cur.isSome⟩ l).inTable
            = (dbmlStep ⟨tbls, cur, cur.isSome⟩ l).currentTable.isSome
          ∧ (dbmlStep ⟨tbls, cur, cur.isSome⟩ l).tables.map (fun t => t.Name)
            = tbls.map (fun t => t.Name)
          ∧ (dbmlStep ⟨tbls, cur, cur.isSome⟩ l).currentTable.map (fun t => t.Name)
            = cur.map (fun t => t.Name) := by
        unfold dbmlStep
        simp only [hdo, hclose, decide_False, Bool.false_and]
        generalize ((TrimSpace l).isEmpty || HasPrefix (TrimSpace l) "//".toList) = b0
        generalize HasPrefix (ToLower (TrimSpace l)) "ref:".toList = b1
        generalize parseDBMLColumn (TrimSpace l) = pc
        cases b0 <;> cases b1 <;> cases cur <;> cases pc <;>
          simp [parseDBMLRef_names]
      refine ⟨key.1, fun rest => ?_⟩
      rw [key.2.1, key.2.2]
      simp [closedBlocks, hopen, hc]
theorem dbmlRunFrom_blocks (lines : List Str) :
    ∀ st : DBMLState, st.inTable = st.currentTable.isSome →
      (dbmlRunFrom st lines).tables.map (fun t => t.Name)
        = st.tables.map (fun t => t.Name)
          ++ closedBlocks (st.currentTable.map (fun t => t.Name)) lines := by
  induction lines with
  | nil => intro st _; simp [dbmlRunFrom, closedBlocks]
  | cons l lines ih =>
    intro st hinv
    obtain ⟨h1, h2⟩ := dbmlStep_blocks st l hinv
    have := ih (dbmlStep st l) h1
    simp only [dbmlRunFrom, List.foldl_cons] at this ⊢
    rw [this, h2]

/-- C12: `parseDBML` fails with the error `no tables found in DBML` exactly when the
lines of the input close no table block, a block being opened by a line
`Table <name> \x7b` and closed by the next lone closing brace; otherwise it returns a
non-empty list with one table per closed block, named as the blocks are, in the order
in which the blocks are closed. -/
theorem parseDBML_closed_blocks (content : Str) :
    (closedBlocks none (Split '\n' content) = []
        ∧ parseDBML content = .error "no tables found in DBML")
      ∨ ∃ tables, parseDBML content = .ok tables ∧ tables ≠ []
          ∧ tables.map (fun t => t.Name) = closedBlocks none (Split '\n' content) := by
  have h := dbmlRunFrom_blocks (Split '\n' content) {} rfl
  simp only [List.map_nil, List.nil_append, Option.map_none'] at h
  have hd : parseDBML content
      = if (dbmlRunFrom {} (Split '\n' content)).tables.isEmpty then
          .error "no tables found in DBML"
        else .ok (dbmlRunFrom {} (Split '\n' content)).tables := rfl
  rcases ht : (dbmlRunFrom {} (Split '\n' content)).tables with _ | ⟨t, ts⟩
  · left
    rw [ht] at h hd
    exact ⟨h.symm, hd⟩
  · right
    rw [ht] at h hd
    exact ⟨t :: ts, hd, by simp, h⟩

/-! ## The tables of a result -/

/-- Each round of `parseDBML` leaves the state as it is, opens a table, closes the
open table, adds a column to the open table, or marks columns of the closed tables. -/
theorem dbmlStep_cases (st : DBMLState) (l : Str) :
    dbmlStep st l = st
    ∨ (∃ name, dbmlStep st l
        = { st with currentTable := some { Name := name }, inTable := true })
    ∨ (∃ t, st.currentTable = some t ∧ dbmlStep st l
        = { tables := st.tables
              ++ [{ t with PrimaryKeys := appendPrimaryKeys t.PrimaryKeys t.Columns }],
            currentTable := none, inTable := false })
    ∨ dbmlStep st l = { tables := st.tables, currentTable := none, inTable := false }
    ∨ (∃ t col, st.currentTable = some t ∧ parseDBMLColumn (TrimSpace l) = some col
        ∧ dbmlStep st l
          = { st with currentTable := some { t with Columns := t.Columns ++ [col] } })
    ∨ (∃ t1 c1 t2 c2, dbmlStep st l
        = { st with tables := markRef st.tables t1 c1 t2 c2 }) := by
  rcases st with ⟨tbls, cur, inT⟩
  have hopen : ∀ s1, dbmlOpen ⟨tbls, cur, inT⟩ (TrimSpace l) = some s1 →
      ∃ name, s1 = ⟨tbls, some { Name := name }, true⟩ := by
    intro s1 hs1
    unfold dbmlOpen at hs1
    split at hs1
    · split at hs1
      · cases hs1; exact ⟨_, rfl⟩
      · cases hs1
    · cases hs1
  have href := parseDBMLRef_cases (TrimSpace l) tbls
  unfold dbmlStep
  simp only []
  generalize dbmlOpen ⟨tbls, cur, inT⟩ (TrimSpace l) = o at hopen
  generalize ((TrimSpace l).isEmpty || HasPrefix (TrimSpace l) "//".toList) = b0
  generalize decide (TrimSpace l = [Char.ofNat 125]) = b2
  generalize HasPrefix (ToLower (TrimSpace l)) "ref:".toList = b1
  cases b0
  swap
  · exact Or.inl rfl
  cases o with
  | some s1 =>
    obtain ⟨name, rfl⟩ := hopen s1 rfl
    exact Or.inr (Or.inl ⟨name, rfl⟩)
  | none =>
    cases b1 with
    | true =>
      cases hb : (b2 && inT)
      · simp only [Bool.false_eq_true, if_false, if_true]
        cases cur <;> simp only [Bool.not_true, Bool.and_false, Bool.false_eq_true, if_false]
        all_goals
          rcases href with h | ⟨t1, c1, t2, c2, h⟩
          · left; rw [h]
          · right; right; right; right; right
            exact ⟨t1, c1, t2, c2, by rw [h]⟩
      · simp only [if_true]
        simp only [Bool.and_eq_true] at hb
        obtain ⟨_, rfl⟩ := hb
        cases cur with
        | some t => exact Or.inr (Or.inr (Or.inl ⟨t, rfl, rfl⟩))
        | none => exact Or.inr (Or.inr (Or.inr (Or.inl rfl)))
    | false =>
      simp only [Bool.false_eq_true, if_false, Bool.not_false, Bool.and_true]
      cases hb : (b2 && inT)
      · simp only [Bool.false_eq_true, if_false]
        cases cur with
        | none => exact Or.inl rfl
        | some t =>
          cases inT
          · exact Or.inl rfl
          · simp only [if_true]
            rcases hpc : parseDBMLColumn (TrimSpace l) with _ | col
            · exact Or.inl rfl
            · exact Or.inr (Or.inr (Or.inr (Or.inr (Or.inl ⟨t, col, rfl, rfl, rfl⟩))))
      · simp only [if_true]
        simp only [Bool.and_eq_true] at hb
        obtain ⟨_, rfl⟩ := hb
        cases cur with
        | some t => exact Or.inr (Or.inr (Or.inl ⟨t, rfl, rfl⟩))
        | none => exact Or.inr (Or.inr (Or.inr (Or.inl rfl)))

theorem dbmlRunFrom_invariant (I : DBMLState → Prop)
    (hstep : ∀ st l, I st → I (dbmlStep st l)) (lines : List Str) :
    ∀ st, I st → I (dbmlRunFrom st lines) := by
  induction lines with
  | nil => intro st h; exact h
  | cons l lines ih =>
    intro st h
    exact ih _ (hstep st l h)

/-- A property `P` of the closed tables and a property `Q` of the open table that the
rounds of `parseDBML` keep hold of every table of the result. -/
theorem parseDBML_invariant (P Q : TableInfo → Prop) (content : Str)
    (hopen : ∀ name, Q { Name := name })
    (hcol : ∀ t line col, Q t → parseDBMLColumn line = some col →
      Q { t with Columns := t.Columns ++ [col] })
    (hclose : ∀ t, Q t →
      P { t with PrimaryKeys := appendPrimaryKeys t.PrimaryKeys t.Columns })
    (hmark : ∀ t (c1 t2 c2 : Str), P t → P { t with Columns := t.Columns.map (fun col =>
          if col.Name = c1 then
            { col with IsForeignKey := true, ForeignTable := t2, ForeignKey := c2 }
          else col) }) :
    ∀ t ∈ tablesOf (parseDBML content), P t := by
  have key := dbmlRunFrom_invariant
    (fun st => (∀ t ∈ st.tables, P t) ∧ ∀ t, st.currentTable = some t → Q t) (by
      intro st l ⟨h1, h2⟩
      rcases dbmlStep_cases st l with h | ⟨name, h⟩ | ⟨t, ht, h⟩ | h | ⟨t, col, ht, hc, h⟩
          | ⟨t1, c1, t2, c2, h⟩ <;> rw [h]
      · exact ⟨h1, h2⟩
      · refine ⟨h1, ?_⟩
        intro t ht
        simp only [Option.some.injEq] at ht
        subst ht
        exact hopen name
      · refine ⟨?_, by simp⟩
        intro x hx
        simp only [List.mem_append, List.mem_singleton] at hx
        rcases hx with hx | rfl
        · exact h1 x hx
        · exact hclose t (h2 t ht)
      · exact ⟨h1, by simp⟩
      · refine ⟨h1, ?_⟩
        intro x hx
        simp only [Option.some.injEq] at hx
        subst hx
        exact hcol t _ col (h2 t ht) hc
      · refine ⟨?_, h2⟩
        intro x hx
        simp only [markRef, List.mem_map] at hx
        obtain ⟨y, hy, rfl⟩ := hx
        split
        · exact hmark y c1 t2 c2 (h1 y hy)
        · exact h1 y hy)
    (Split '\n' content) {} ⟨by simp, by simp⟩
  intro t ht
  have hd : parseDBML content
      = if (dbmlRunFrom {} (Split '\n' content)).tables.isEmpty then
          .error "no tables found in DBML"
        else .ok (dbmlRunFrom {} (Split '\n' content)).tables := rfl
  rw [hd] at ht
  split at ht
  · simp [tablesOf] at ht
  · exact key.1 t ht

theorem ParseCreateStatements_mem (sql dialect : Str) (t : TableInfo)
    (h : t ∈ tablesOf (ParseCreateStatements sql dialect)) :
    ∃ stmt d, parseCreateTable stmt d = .ok t := by
  simp only [ParseCreateStatements, tablesOf] at h
  rw [foldl_stmtStep] at h
  simp only [List.nil_append, List.mem_flatMap] at h
  obtain ⟨stmt, _, hs⟩ := h
  unfold stmtStep at hs
  simp only [] at hs
  split at hs
  · simp at hs
  · split at hs
    · simp at hs
    · rename_i table hp
      simp only [List.nil_append, List.mem_singleton] at hs
      subst hs
      exact ⟨_, _, hp⟩

theorem parseCreateTable_ok (stmt dialect : Str) (t : TableInfo)
    (h : parseCreateTable stmt dialect = .ok t) :
    ∃ st : DefsState, st = (splitColumnDefs (extractParenBody stmt)).foldl (defStep dialect) {}
      ∧ t.Columns = applyConstraintPKs st.Columns st.constraintPKs
      ∧ t.PrimaryKeys = buildPrimaryKeys t.Columns := by
  unfold parseCreateTable at h
  split at h
  · cases h
  · simp only [] at h
    split at h
    · cases h
    · cases h
      exact ⟨_, rfl, rfl, rfl⟩

/-! ## C13: the primary-key list -/

/-- C13: in every table returned by `ParseCreateStatements` and in every table
returned by `parseDBML`, the list `PrimaryKeys` is the list of the names of the
columns flagged `IsPrimaryKey`, in the order of the columns. -/
theorem primaryKeys_are_flagged_columns (sql dialect content : Str) :
    (∀ t ∈ tablesOf (ParseCreateStatements sql dialect),
        t.PrimaryKeys = (t.Columns.filter (fun c => c.IsPrimaryKey)).map (fun c => c.Name))
    ∧ ∀ t ∈ tablesOf (parseDBML content),
        t.PrimaryKeys = (t.Columns.filter (fun c => c.IsPrimaryKey)).map (fun c => c.Name) := by
  constructor
  · intro t ht
    obtain ⟨stmt, d, hp⟩ := ParseCreateStatements_mem sql dialect t ht
    obtain ⟨st, _, _, h⟩ := parseCreateTable_ok stmt d t hp
    rw [h, buildPrimaryKeys_eq]
  · apply parseDBML_invariant
      (fun t => t.PrimaryKeys
        = (t.Columns.filter (fun c => c.IsPrimaryKey)).map (fun c => c.Name))
      (fun t => t.PrimaryKeys = [])
    · intro name; rfl
    · intro t line col h _; exact h
    · intro t h
      simp only [] at h ⊢
      rw [appendPrimaryKeys_eq, h, List.nil_append]
    · intro t c1 t2 c2 h
      simp only [] at h ⊢
      rw [h, List.filter_map, List.map_map]
      have e1 : ((fun c : ColumnInfo => c.IsPrimaryKey) ∘ fun col : ColumnInfo =>
          if col.Name = c1 then
            { col with IsForeignKey := true, ForeignTable := t2, ForeignKey := c2 }
          else col) = fun c => c.IsPrimaryKey := by
        funext c; simp only [Function.comp]; split <;> rfl
      have e2 : ((fun c : ColumnInfo => c.Name) ∘ fun col : ColumnInfo =>
          if col.Name = c1 then
            { col with IsForeignKey := true, ForeignTable := t2, ForeignKey := c2 }
          else col) = fun c => c.Name := by
        funext c; simp only [Function.comp]; split <;> rfl
      rw [e1, e2]

set_option maxRecDepth 100000 in
theorem primaryKeys_are_flagged_columns_witness :
    (tablesOf (ParseCreateStatements
        "CREATE TABLE t (a INT, b INT PRIMARY KEY, c SERIAL)".toList [])).map
        (fun t => t.PrimaryKeys) = [["b".toList, "c".toList]]
    ∧ (tablesOf (parseDBML "Table t \x7b\n a int [pk]\n b int\n\x7d".toList)).map
        (fun t => t.PrimaryKeys) = [["a".toList]] := by
  have h := primaryKeys_are_flagged_columns
    "CREATE TABLE t (a INT, b INT PRIMARY KEY, c SERIAL)".toList []
    "Table t \x7b\n a int [pk]\n b int\n\x7d".toList
  rw [List.map_congr_left h.1, List.map_congr_left h.2]
  decide

/-! ## Capture groups -/

theorem orTry_eq_some {α : Type} (a b : Option α) (x : α) (h : orTry a b = some x) :
    a = some x ∨ b = some x := by
  cases a with
  | some r => left; simpa [orTry] using h
  | none => right; simpa [orTry] using h

theorem greedyStar_reach {α : Type} (p : Char → Bool) (s : Str) (k : Str → Option α) (x : α)
    (h : greedyStar p s k = some x) : ∃ rest, rest.length ≤ s.length ∧ k rest = some x := by
  induction s with
  | nil => exact ⟨[], le_refl _, by simpa [greedyStar] using h⟩
  | cons c cs ih =>
    rw [greedyStar] at h
    split at h
    · rcases orTry_eq_some _ _ _ h with h1 | h1
      · obtain ⟨rest, hl, hr⟩ := ih h1
        exact ⟨rest, by simp only [List.length_cons]; omega, hr⟩
      · exact ⟨_, le_refl _, h1⟩
    · exact ⟨_, le_refl _, h⟩

theorem lazyStar_reach {α : Type} (p : Char → Bool) (s : Str) (k : Str → Option α) (x : α)
    (h : lazyStar p s k = some x) : ∃ rest, rest.length ≤ s.length ∧ k rest = some x := by
  induction s with
  | nil => exact ⟨[], le_refl _, by simpa [lazyStar] using h⟩
  | cons c cs ih =>
    rw [lazyStar] at h
    rcases orTry_eq_some _ _ _ h with h1 | h1
    · exact ⟨_, le_refl _, h1⟩
    · split at h1
      · obtain ⟨rest, hl, hr⟩ := ih h1
        exact ⟨rest, by simp only [List.length_cons]; omega, hr⟩
      · cases h1

/-- A successful run of a pattern reaches its continuation, on a rest that is not
longer than the input and with the captures of the other groups unchanged. -/
theorem run_reach {α : Type} (r : Rx) : ∀ (inp : Str) (caps : Caps)
    (k : Str → Caps → Option α) (x : α), r.run inp caps k = some x →
    ∃ rest caps1, k rest caps1 = some x ∧ rest.length ≤ inp.length
      ∧ ∀ i, i ∉ r.groups → caps1.lookup i = caps.lookup i := by
  induction r with
  | cls p =>
    intro inp caps k x h
    cases inp with
    | nil => simp [Rx.run] at h
    | cons c cs =>
      simp only [Rx.run] at h
      split at h
      · exact ⟨cs, caps, h, by simp, fun _ _ => rfl⟩
      · cases h
  | seq a b iha ihb =>
    intro inp caps k x h
    simp only [Rx.run] at h
    obtain ⟨r1, c1, h1, l1, f1⟩ := iha _ _ _ _ h
    obtain ⟨r2, c2, h2, l2, f2⟩ := ihb _ _ _ _ h1
    refine ⟨r2, c2, h2, le_trans l2 l1, fun i hi => ?_⟩
    simp only [Rx.groups, List.mem_append, not_or] at hi
    rw [f2 i hi.2, f1 i hi.1]
  | alt a b iha ihb =>
    intro inp caps k x h
    simp only [Rx.run] at h
    rcases orTry_eq_some _ _ _ h with h1 | h1
    · obtain ⟨r1, c1, h1, l1, f1⟩ := iha _ _ _ _ h1
      refine ⟨r1, c1, h1, l1, fun i hi => ?_⟩
      simp only [Rx.groups, List.mem_append, not_or] at hi
      exact f1 i hi.1
    · obtain ⟨r1, c1, h1, l1, f1⟩ := ihb _ _ _ _ h1
      refine ⟨r1, c1, h1, l1, fun i hi => ?_⟩
      simp only [Rx.groups, List.mem_append, not_or] at hi
      exact f1 i hi.2
  | opt a iha =>
    intro inp caps k x h
    simp only [Rx.run] at h
    rcases orTry_eq_some _ _ _ h with h1 | h1
    · obtain ⟨r1, c1, h1, l1, f1⟩ := iha _ _ _ _ h1
      exact ⟨r1, c1, h1, l1, fun i hi => f1 i (by simpa [Rx.groups] using hi)⟩
    · exact ⟨inp, caps, h1, le_refl _, fun _ _ => rfl⟩
  | star p =>
    intro inp caps k x h
    simp only [Rx.run] at h
    obtain ⟨rest, hl, hr⟩ := greedyStar_reach _ _ _ _ h
    exact ⟨rest, caps, hr, hl, fun _ _ => rfl⟩
  | plus p =>
    intro inp caps k x h
    cases inp with
    | nil => simp [Rx.run] at h
    | cons c cs =>
      simp only [Rx.run] at h
      split at h
      · obtain ⟨rest, hl, hr⟩ := greedyStar_reach _ _ _ _ h
        exact ⟨rest, caps, hr, by simp only [List.length_cons]; omega, fun _ _ => rfl⟩
      · cases h
  | lazyPlus p =>
    intro inp caps k x h
    cases inp with
    | nil => simp [Rx.run] at h
    | cons c cs =>
      simp only [Rx.run] at h
      split at h
      · obtain ⟨rest, hl, hr⟩ := lazyStar_reach _ _ _ _ h
        exact ⟨rest, caps, hr, by simp only [List.length_cons]; omega, fun _ _ => rfl⟩
      · cases h
  | group j a iha =>
    intro inp caps k x h
    simp only [Rx.run] at h
    obtain ⟨r1, c1, h1, l1, f1⟩ := iha _ _ _ _ h
    refine ⟨r1, _, h1, l1, fun i hi => ?_⟩
    simp only [Rx.groups, List.mem_cons, not_or] at hi
    rw [List.lookup_cons]
    have : (i == j) = false := by simpa using hi.1
    rw [this]
    exact f1 i hi.2
  | eot =>
    intro inp caps k x h
    simp only [Rx.run] at h
    split at h
    · exact ⟨[], caps, h, by simp, fun _ _ => rfl⟩
    · cases h
  | nil =>
    intro inp caps k x h
    exact ⟨inp, caps, h, le_refl _, fun _ _ => rfl⟩

/-- A group `(p+)` that took part in a match captured a non-empty text. -/
theorem run_group_plus {α : Type} (i : Nat) (p : Char → Bool) (inp : Str) (caps : Caps)
    (k : Str → Caps → Option α) (x : α) (h : (Rx.group i (.plus p)).run inp caps k = some x) :
    ∃ rest s, s ≠ [] ∧ k rest ((i, s) :: caps) = some x := by
  simp only [Rx.run] at h
  cases inp with
  | nil => simp at h
  | cons c cs =>
    simp only [] at h
    split at h
    · obtain ⟨rest, hl, hr⟩ := greedyStar_reach _ _ _ _ h
      refine ⟨rest, _, ?_, hr⟩
      have : 0 < (c :: cs).length - rest.length := by simp only [List.length_cons]; omega
      intro he
      have := congrArg List.length he
      simp only [List.length_take, List.length_nil, List.length_cons] at this
      simp only [List.length_cons] at *
      omega
    · cases h

/-- In a match of a pattern `pre (p+) post` whose part `post` has no group `i`, group
`i` captured a non-empty text. -/
theorem run_cat_group {α : Type} (i : Nat) (p : Char → Bool) (post : List Rx)
    (hpost : i ∉ (Rx.cat post).groups) (pre : List Rx) : ∀ (inp : Str) (caps : Caps)
    (k : Str → Caps → Option α) (x : α),
    (Rx.cat (pre ++ Rx.group i (.plus p) :: post)).run inp caps k = some x →
    ∃ rest caps1, k rest caps1 = some x ∧ capture caps1 i ≠ [] := by
  induction pre with
  | nil =>
    intro inp caps k x h
    simp only [List.nil_append, Rx.cat] at h
    rw [Rx.run] at h
    obtain ⟨rest, s, hs, h1⟩ := run_group_plus i p inp caps _ x h
    obtain ⟨r2, c2, h2, _, f2⟩ := run_reach _ _ _ _ _ h1
    refine ⟨r2, c2, h2, ?_⟩
    unfold capture
    rw [f2 i hpost]
    simpa using hs
  | cons a pre ih =>
    intro inp caps k x h
    simp only [List.cons_append, Rx.cat] at h
    rw [Rx.run] at h
    obtain ⟨r1, c1, h1, _, _⟩ := run_reach _ _ _ _ _ h
    exact ih _ _ _ _ h1

theorem find_run (r : Rx) (s : Str) (m : Caps) (h : r.find s = some m) :
    ∃ inp, r.run inp [] (fun _ c => some c) = some m := by
  induction s with
  | nil => exact ⟨[], h⟩
  | cons c cs ih =>
    rw [Rx.find] at h
    rcases orTry_eq_some _ _ _ h with h1 | h1
    · exact ⟨_, h1⟩
    · exact ih h1

theorem find_cat_group (i : Nat) (p : Char → Bool) (pre post : List Rx)
    (hpost : i ∉ (Rx.cat post).groups) (s : Str) (m : Caps)
    (h : (Rx.cat (pre ++ Rx.group i (.plus p) :: post)).find s = some m) :
    capture m i ≠ [] := by
  obtain ⟨inp, h1⟩ := find_run _ _ _ h
  obtain ⟨_, c1, h2, h3⟩ := run_cat_group i p post hpost pre _ _ _ _ h1
  cases h2
  exact h3

theorem referencesRe_table (s : Str) (m : Caps) (h : referencesRe.find s = some m) :
    capture m 1 ≠ [] := by
  have e : referencesRe = Rx.cat (([Rx.lit "REFERENCES".toList, .plus rxSpace] ++ rxOpenQuote)
      ++ Rx.group 1 (.plus rxWordFold) :: (rxCloseQuote
        ++ [.star rxSpace, Rx.chr '(', .star rxSpace]
        ++ rxOpenQuote ++ [.group 2 (.plus rxWordFold)] ++ rxCloseQuote
        ++ [.star rxSpace, Rx.chr ')'])) := rfl
  rw [e] at h
  exact find_cat_group 1 _ _ _ (by decide) s m h

theorem foreignKeyRe_table (s : Str) (m : Caps) (h : foreignKeyRe.find s = some m) :
    capture m 2 ≠ [] := by
  have e : foreignKeyRe = Rx.cat (([Rx.lit "FOREIGN".toList, .plus rxSpace, Rx.lit "KEY".toList,
        .star rxSpace, Rx.chr '(', .star rxSpace]
      ++ rxOpenQuote ++ [.group 1 (.plus rxWordFold)] ++ rxCloseQuote
      ++ [.star rxSpace, Rx.chr ')', .star rxSpace, Rx.lit "REFERENCES".toList, .plus rxSpace]
      ++ rxOpenQuote)
      ++ Rx.group 2 (.plus rxWordFold) :: (rxCloseQuote
        ++ [.star rxSpace, Rx.chr '(', .star rxSpace]
        ++ rxOpenQuote ++ [.group 3 (.plus rxWordFold)] ++ rxCloseQuote
        ++ [.star rxSpace, Rx.chr ')'])) := rfl
  rw [e] at h
  exact find_cat_group 2 _ _ _ (by decide) s m h

/-! ## C14: the foreign-key flag and the foreign table -/

theorem withModifiers_foreign (df colType : Str) (col : ColumnInfo) :
    (withModifiers df colType col).IsForeignKey = col.IsForeignKey
      ∧ (withModifiers df colType col).ForeignTable = col.ForeignTable := by
  unfold withModifiers
  simp only []
  split <;> split <;> split <;> exact ⟨rfl, rfl⟩

theorem withDefault_foreign (df : Str) (col : ColumnInfo) :
    (withDefault df col).IsForeignKey = col.IsForeignKey
      ∧ (withDefault df col).ForeignTable = col.ForeignTable := by
  unfold withDefault
  split <;> exact ⟨rfl, rfl⟩

theorem withReferences_foreign (df : Str) (col : ColumnInfo)
    (h : col.IsForeignKey = false ∧ col.ForeignTable = []) :
    ((withReferences df col).IsForeignKey = true ↔ (withReferences df col).ForeignTable ≠ []) := by
  unfold withReferences
  split
  · rename_i rm hrm
    simp only [true_iff]
    exact referencesRe_table df rm hrm
  · simp [h.1, h.2]

theorem parseColumnDef_foreign (df dialect : Str) (col : ColumnInfo)
    (h : parseColumnDef df dialect = .ok col) :
    (col.IsForeignKey = true ↔ col.ForeignTable ≠ []) := by
  unfold parseColumnDef at h
  simp only [] at h
  split at h
  · cases h
    apply withReferences_foreign
    rw [(withDefault_foreign _ _).1, (withDefault_foreign _ _).2,
      (withModifiers_foreign _ _ _).1, (withModifiers_foreign _ _ _).2]
    exact ⟨rfl, rfl⟩
  · cases h

theorem parseForeignKeyConstraint_table (df : Str) :
    (parseForeignKeyConstraint df).1 ≠ [] → (parseForeignKeyConstraint df).2.1 ≠ [] := by
  unfold parseForeignKeyConstraint
  split
  · simp
  · rename_i m hm
    intro _
    exact foreignKeyRe_table df m hm

theorem defStep_foreign (dialect : Str) (st : DefsState) (df : Str)
    (h : ∀ c ∈ st.Columns, (c.IsForeignKey = true ↔ c.ForeignTable ≠ [])) :
    ∀ c ∈ (defStep dialect st df).Columns, (c.IsForeignKey = true ↔ c.ForeignTable ≠ []) := by
  unfold defStep
  simp only []
  split
  · exact h
  · split
    · have hk := parseForeignKeyConstraint_table (TrimSpace df)
      rcases hp : parseForeignKeyConstraint (TrimSpace df) with ⟨lc, ft, fc⟩
      rw [hp] at hk
      simp only [] at hk ⊢
      split
      · rename_i hlc
        intro c hc
        simp only [markForeignKey, List.mem_map] at hc
        obtain ⟨y, hy, rfl⟩ := hc
        split
        · simp only [true_iff]; exact hk hlc
        · exact h y hy
      · exact h
    · split
      · exact h
      · split
        · rename_i col hcol
          intro c hc
          simp only [List.mem_append, List.mem_singleton] at hc
          rcases hc with hc | rfl
          · exact h c hc
          · exact parseColumnDef_foreign _ _ _ hcol
        · exact h

theorem foldl_defStep_foreign (dialect : Str) (defs : List Str) : ∀ st : DefsState,
    (∀ c ∈ st.Columns, (c.IsForeignKey = true ↔ c.ForeignTable ≠ [])) →
    ∀ c ∈ (defs.foldl (defStep dialect) st).Columns,
      (c.IsForeignKey = true ↔ c.ForeignTable ≠ []) := by
  induction defs with
  | nil => intro st h; exact h
  | cons d defs ih =>
    intro st h
    exact ih _ (defStep_foreign dialect st d h)

theorem parseDBMLColumn_foreign (line : Str) (col : ColumnInfo)
    (h : parseDBMLColumn line = some col) :
    col.ForeignTable ≠ [] → col.IsForeignKey = true := by
  revert h
  unfold parseDBMLColumn
  intro h
  lift_lets at h
  extract_lets l1 attrs l2 at h
  split at h
  · cases h
  · split at h
    · lift_lets at h
      extract_lets c0 c1 c2 c3 c4 at h
      have h0 : c4 = col := Option.some.inj h
      rw [← h0]
      have h1 : c1.IsForeignKey = false ∧ c1.ForeignTable = [] := by
        simp only [c1]; split <;> exact ⟨rfl, rfl⟩
      have h2 : c2.IsForeignKey = false ∧ c2.ForeignTable = [] := by
        simp only [c2]; split <;> exact h1
      have h3 : c3.IsForeignKey = false ∧ c3.ForeignTable = [] := by
        simp only [c3]; split <;> exact h2
      simp only [c4]
      split
      · split
        · intro _; rfl
        · intro hne; exact absurd h3.2 hne
      · intro hne; exact absurd h3.2 hne
    · cases h

set_option maxRecDepth 100000 in
/-- C14 (counterexample): a column reference without a table part, `[ref: > .id]`, is
flagged foreign key with an empty foreign table. -/
theorem dbml_foreign_key_without_table :
    parseDBML "Table posts \x7b\n  author_id integer [ref: > .id]\n\x7d".toList =
      .ok [{ Name := "posts".toList,
             Columns := [{ Name := "author_id".toList, SqlType := "integer".toList,
                           IsNullable := true, IsForeignKey := true,
                           ForeignTable := [], ForeignKey := "id".toList }] }] := by
  decide

/-- C14 (amended): in every table returned by `ParseCreateStatements` a column is
flagged `IsForeignKey` if and only if its `ForeignTable` is not empty; in every table
returned by `parseDBML` a column whose `ForeignTable` is not empty is flagged
`IsForeignKey`. -/
theorem foreignTable_implies_foreignKey (sql dialect content : Str) :
    (∀ t ∈ tablesOf (ParseCreateStatements sql dialect), ∀ c ∈ t.Columns,
        (c.IsForeignKey = true ↔ c.ForeignTable ≠ []))
    ∧ ∀ t ∈ tablesOf (parseDBML content), ∀ c ∈ t.Columns,
        c.ForeignTable ≠ [] → c.IsForeignKey = true := by
  constructor
  · intro t ht c hc
    obtain ⟨stmt, d, hp⟩ := ParseCreateStatements_mem sql dialect t ht
    obtain ⟨st, hst, hcols, _⟩ := parseCreateTable_ok stmt d t hp
    rw [hcols, applyConstraintPKs_eq] at hc
    simp only [List.mem_map] at hc
    obtain ⟨y, hy, rfl⟩ := hc
    have hy2 : (y.IsForeignKey = true ↔ y.ForeignTable ≠ []) := by
      rw [hst] at hy
      exact foldl_defStep_foreign d _ {} (by simp [DefsState.Columns]) y hy
    split
    · exact hy2
    · exact hy2
  · apply parseDBML_invariant
      (fun t => ∀ c ∈ t.Columns, c.ForeignTable ≠ [] → c.IsForeignKey = true)
      (fun t => ∀ c ∈ t.Columns, c.ForeignTable ≠ [] → c.IsForeignKey = true)
    · intro name c hc
      simp at hc
    · intro t line col h hcol c hc
      simp only [List.mem_append, List.mem_singleton] at hc
      rcases hc with hc | rfl
      · exact h c hc
      · exact parseDBMLColumn_foreign line c hcol
    · intro t h
      exact h
    · intro t c1 t2 c2 h c hc
      simp only [List.mem_map] at hc
      obtain ⟨y, hy, rfl⟩ := hc
      split
      · intro _; rfl
      · exact h y hy

set_option maxRecDepth 100000 in
theorem foreignTable_implies_foreignKey_witness :
    ((∀ t ∈ tablesOf (ParseCreateStatements
          "CREATE TABLE p (a INT REFERENCES u(id), b INT)".toList []), ∀ c ∈ t.Columns,
        (c.IsForeignKey = true ↔ c.ForeignTable ≠ []))
      ∧ ∀ t ∈ tablesOf (parseDBML "Table p \x7b\n a int [ref: > u.id]\n b int\n\x7d".toList),
        ∀ c ∈ t.Columns, c.ForeignTable ≠ [] → c.IsForeignKey = true)
    ∧ (tablesOf (ParseCreateStatements
          "CREATE TABLE p (a INT REFERENCES u(id), b INT)".toList [])).map
        (fun t => t.Columns.map (fun c => (c.IsForeignKey, c.ForeignTable)))
        = [[(true, "u".toList), (false, [])]]
    ∧ (tablesOf (parseDBML "Table p \x7b\n a int [ref: > u.id]\n b int\n\x7d".toList)).map
        (fun t => t.Columns.map (fun c => (c.IsForeignKey, c.ForeignTable)))
        = [[(true, "u".toList), (false, [])]] :=
  ⟨foreignTable_implies_foreignKey
      "CREATE TABLE p (a INT REFERENCES u(id), b INT)".toList []
      "Table p \x7b\n a int [ref: > u.id]\n b int\n\x7d".toList,
    by decide, by decide⟩

/-! ## C15: relation fields -/

theorem mem_fieldStep (fields : List ParsedField) (line : Str) (f : ParsedField)
    (h : f ∈ fieldStep fields line) : f ∈ fields ∨ isRelationField f = false := by
  unfold fieldStep at h
  split at h
  · split at h
    · exact Or.inl h
    · rename_i hr
      simp only [List.mem_append, List.mem_singleton] at h
      rcases h with h | rfl
      · exact Or.inl h
      · right; simpa using hr
  · exact Or.inl h

theorem mem_foldl_fieldStep (lines : List Str) : ∀ (fields : List ParsedField)
    (f : ParsedField), f ∈ lines.foldl fieldStep fields →
    f ∈ fields ∨ isRelationField f = false := by
  induction lines with
  | nil => intro fields f h; exact Or.inl h
  | cons l lines ih =>
    intro fields f h
    rcases ih _ f h with h1 | h1
    · exact mem_fieldStep fields l f h1
    · exact Or.inr h1

set_option maxRecDepth 100000 in
/-- C15: `isRelationField` holds exactly for a type `[]T` with `T` not a recognized
scalar, a type `*T` with `T` neither a recognized scalar nor dot-qualified, and a type
without the prefixes `*` and `[]` and without a dot that is not a recognized scalar; a
recognized scalar is a type that `isBasicGoType` accepts (a key of its table, also
after one leading `*`).  No field returned by `parseStructFields` is a relation
field; of the fields `Posts []Post`, `Name *string` and `At time.Time` it returns the
last two. -/
theorem isRelationField_iff (f : ParsedField) :
    (isRelationField f = true ↔
      (∃ T, f.GoType = "[]".toList ++ T ∧ isBasicGoType T = false)
      ∨ (∃ T, f.GoType = "*".toList ++ T ∧ isBasicGoType T = false
          ∧ Contains T ".".toList = false)
      ∨ (HasPrefix f.GoType "*".toList = false ∧ HasPrefix f.GoType "[]".toList = false
          ∧ Contains f.GoType ".".toList = false ∧ isBasicGoType f.GoType = false))
    ∧ (∀ body, ∀ g ∈ parseStructFields body, isRelationField g = false)
    ∧ parseStructFields
        ("\tPosts []Post \x60gorm:\"foreignKey:AuthorID\"\x60\n\tName *string\n"
          ++ "\tAt time.Time \x60json:\"at\"\x60").toList
      = [{ Name := "Name".toList, GoType := "*string".toList },
         { Name := "At".toList, GoType := "time.Time".toList, JSONTag := "at".toList }] := by
  refine ⟨?_, ?_, by decide⟩
  · rcases f with ⟨name, t, gt, jt⟩
    unfold isRelationField
    simp only []
    have hp2 : HasPrefix t "[]".toList = true ↔ ∃ T, t = "[]".toList ++ T := by
      unfold HasPrefix
      rw [List.isPrefixOf_iff_prefix]
      exact ⟨fun ⟨T, h⟩ => ⟨T, h.symm⟩, fun ⟨T, h⟩ => ⟨T, h.symm⟩⟩
    have hp1 : HasPrefix t "*".toList = true ↔ ∃ T, t = "*".toList ++ T := by
      unfold HasPrefix
      rw [List.isPrefixOf_iff_prefix]
      exact ⟨fun ⟨T, h⟩ => ⟨T, h.symm⟩, fun ⟨T, h⟩ => ⟨T, h.symm⟩⟩
    have hx : ∀ T : Str, HasPrefix ("[]".toList ++ T) "*".toList = false := by
      intro T; rfl
    have hy : ∀ T : Str, HasPrefix ("*".toList ++ T) "[]".toList = false := by
      intro T; rfl
    constructor
    · intro h
      by_cases h2 : HasPrefix t "[]".toList = true
      · obtain ⟨T, rfl⟩ := hp2.1 h2
        by_cases hb : isBasicGoType T = true
        · exfalso
          have hd : ("[]".toList ++ T).drop 2 = T := rfl
          simp only [h2, hd, hb, hx, Bool.not_true, Bool.and_false, Bool.false_eq_true,
            if_false, Bool.false_and, Bool.not_false, Bool.and_true] at h
        · exact Or.inl ⟨T, rfl, by simpa using hb⟩
      · by_cases h1 : HasPrefix t "*".toList = true
        · obtain ⟨T, rfl⟩ := hp1.1 h1
          have hd : ("*".toList ++ T).drop 1 = T := rfl
          simp only [h1, hd, hy, Bool.false_and, Bool.false_eq_true, if_false, Bool.true_and,
            Bool.not_true, Bool.and_false, ite_eq_left_iff, Bool.not_eq_true,
            Bool.and_eq_true, Bool.not_eq_true', not_and, Bool.if_false_right, Bool.and_true,
            Bool.not_false] at h
          right; left
          exact ⟨T, rfl, by simpa using h⟩
        · simp only [Bool.not_eq_true] at h1 h2
          simp only [h1, h2, Bool.false_and, Bool.false_eq_true, if_false, Bool.not_false,
            Bool.and_true, Bool.true_and] at h
          right; right
          refine ⟨h1, h2, ?_⟩
          revert h
          cases Contains t ".".toList <;> cases isBasicGoType t <;> simp
    · rintro (⟨T, rfl, hb⟩ | ⟨T, rfl, hb, hc⟩ | ⟨h1, h2, hc, hb⟩)
      · have hd : ("[]".toList ++ T).drop 2 = T := rfl
        have h2 : HasPrefix ("[]".toList ++ T) "[]".toList = true := hp2.2 ⟨T, rfl⟩
        simp only [h2, hd, hb]
        rfl
      · have hd : ("*".toList ++ T).drop 1 = T := rfl
        have h1 : HasPrefix ("*".toList ++ T) "*".toList = true := hp1.2 ⟨T, rfl⟩
        simp only [hy, h1, hd, hb, hc]
        rfl
      · simp only [h1, h2, hb, hc]
        rfl
  · intro body g hg
    rcases mem_foldl_fieldStep _ _ g hg with h | h
    · simp at h
    · exact h

/-! ## The matches of `FindAllStringSubmatchIndex` -/

theorem findAllGo_ends (r : Rx)
    (hr : ∀ (inp : Str) (m : Caps) (n : Nat),
      r.run inp [] (fun rest m => some (m, inp.length - rest.length)) = some (m, n) → 1 ≤ n)
    (s : Str) : ∀ skip pos : Nat,
    (∀ e ∈ (findAllGo r skip pos s).map (fun m => m.2), pos + skip < e)
      ∧ ((findAllGo r skip pos s).map (fun m => m.2)).Pairwise (fun a b => a < b) := by
  induction s with
  | nil => intro skip pos; simp [findAllGo]
  | cons c cs ih =>
    intro skip pos
    cases skip with
    | succ k =>
      rw [findAllGo]
      obtain ⟨h1, h2⟩ := ih k (pos + 1)
      exact ⟨fun e he => by have := h1 e he; omega, h2⟩
    | zero =>
      rw [findAllGo]
      split
      · rename_i m n hrun
        have hn := hr _ _ _ hrun
        obtain ⟨h1, h2⟩ := ih (n - 1) (pos + 1)
        simp only [List.map_cons, List.mem_cons, List.pairwise_cons]
        refine ⟨?_, ?_, h2⟩
        · rintro e (rfl | he)
          · omega
          · have := h1 e he; omega
        · intro e he
          have := h1 e he; omega
      · obtain ⟨h1, h2⟩ := ih 0 (pos + 1)
        exact ⟨fun e he => by have := h1 e he; omega, h2⟩

theorem run_cls_lt {α : Type} (p : Char → Bool) (inp : Str) (caps : Caps)
    (k : Str → Caps → Option α) (x : α) (h : (Rx.cls p).run inp caps k = some x) :
    ∃ rest, rest.length < inp.length ∧ k rest caps = some x := by
  cases inp with
  | nil => simp [Rx.run] at h
  | cons c cs =>
    rw [Rx.run] at h
    split at h
    · exact ⟨cs, by simp, h⟩
    · cases h

theorem structRe_nonempty (inp : Str) (m : Caps) (n : Nat)
    (h : structRe.run inp [] (fun rest m => some (m, inp.length - rest.length)) = some (m, n)) :
    1 ≤ n := by
  have e : structRe = .seq (.seq (.cls (fun x => x == 't')) (Rx.str "ype".toList))
      (Rx.cat [.plus rxSpace, .group 1 (.plus rxWord), .plus rxSpace,
        Rx.str "struct".toList, .star rxSpace, Rx.chr (Char.ofNat 123)]) := rfl
  rw [e, Rx.run, Rx.run] at h
  obtain ⟨r0, l0, h0⟩ := run_cls_lt _ _ _ _ _ h
  obtain ⟨r1, c1, h1, l1, _⟩ := run_reach _ _ _ _ _ h0
  obtain ⟨r2, c2, h2, l2, _⟩ := run_reach _ _ _ _ _ h1
  simp only [Option.some.injEq, Prod.mk.injEq] at h2
  obtain ⟨_, rfl⟩ := h2
  omega

/-! ## C16: the structs of a Go source -/

theorem structStep_eq (source : Str) (structs : List ParsedStruct) (m : Caps × Nat) :
    structStep source structs m
      = structs ++ [structAt source m].filter (fun s => !s.Fields.isEmpty) := by
  unfold structStep structAt
  simp only []
  by_cases hb : (extractBraceBody (source.drop (m.2 - 1))).isEmpty = true
  · have : extractBraceBody (source.drop (m.2 - 1)) = [] := by simpa using hb
    rw [this]
    simp [parseStructFields, Split, fieldStep, parseFieldLine, TrimSpace]
  · simp only [hb, Bool.false_eq_true, if_false]
    rcases hf : parseStructFields (extractBraceBody (source.drop (m.2 - 1))) with _ | ⟨f, fs⟩
    · simp
    · simp

theorem foldl_structStep (source : Str) (ms : List (Caps × Nat)) :
    ∀ structs : List ParsedStruct, ms.foldl (structStep source) structs
      = structs ++ (ms.map (structAt source)).filter (fun s => !s.Fields.isEmpty) := by
  induction ms with
  | nil => intro structs; simp
  | cons m ms ih =>
    intro structs
    rw [List.foldl_cons, ih, structStep_eq, List.map_cons, List.append_assoc]
    congr 1
    simp only [List.filter_cons]
    split <;> simp

set_option maxRecDepth 100000 in
/-- C16: `parseGoStructs` returns no error; its result holds, in the order of the
source, the definitions `type Name struct \x7b ... \x7d` (the matches of the header
pattern, which follow one another from left to right, each with the fields parsed
from its brace body) that have at least one column field, so that no returned struct
has an empty field list; a definition with an empty body or with relation fields only
is left out. -/
theorem parseGoStructs_keeps_structs_with_columns (source : Str) :
    (∃ structs, parseGoStructs source = .ok structs
      ∧ structs = ((structRe.findAll source).map (structAt source)).filter
          (fun s => !s.Fields.isEmpty)
      ∧ ∀ s ∈ structs, s.Fields ≠ [])
    ∧ ((structRe.findAll source).map (fun m => m.2)).Pairwise (fun a b => a < b)
    ∧ parseGoStructs ("type A struct \x7b\x7d\ntype B struct \x7b\n\tPosts []Post\n\x7d\n"
          ++ "type C struct \x7b\n\tID uint\n\x7d\n").toList
        = .ok [{ Name := "C".toList,
                 Fields := [{ Name := "ID".toList, GoType := "uint".toList }] }] := by
  refine ⟨⟨_, rfl, ?_, ?_⟩, (findAllGo_ends structRe structRe_nonempty source 0 0).2,
    by decide⟩
  · rw [foldl_structStep, List.nil_append]
  · intro s hs
    rw [foldl_structStep, List.nil_append, List.mem_filter] at hs
    intro he
    rw [he] at hs
    simp at hs

/-! ## C17: the SQL type of a Go type -/

/-- C17: for every dialect `d`, `goTypeToSQLType` maps `int64` to `BIGINT` when `d` is
`postgres` and to `INTEGER` otherwise, `float64` to `DOUBLE PRECISION` or `REAL`,
`bool` to `BOOLEAN`, `string` to `TEXT`, `[]byte` to `BYTEA` or `BLOB`, `time.Time` to
`TIMESTAMP` or `DATETIME`; and a type `*T` with a single leading `*` maps as `T`. -/
theorem goTypeToSQLType_table (d : Str) :
    goTypeToSQLType "int64".toList d
        = (if d = "postgres".toList then "BIGINT".toList else "INTEGER".toList)
    ∧ goTypeToSQLType "float64".toList d
        = (if d = "postgres".toList then "DOUBLE PRECISION".toList else "REAL".toList)
    ∧ goTypeToSQLType "bool".toList d = "BOOLEAN".toList
    ∧ goTypeToSQLType "string".toList d = "TEXT".toList
    ∧ goTypeToSQLType "[]byte".toList d
        = (if d = "postgres".toList then "BYTEA".toList else "BLOB".toList)
    ∧ goTypeToSQLType "time.Time".toList d
        = (if d = "postgres".toList then "TIMESTAMP".toList else "DATETIME".toList)
    ∧ ∀ T : Str, HasPrefix T "*".toList = false →
        goTypeToSQLType ("*".toList ++ T) d = goTypeToSQLType T d := by
  refine ⟨rfl, rfl, rfl, rfl, rfl, rfl, ?_⟩
  intro T hT
  have e1 : TrimPrefix ("*".toList ++ T) "*".toList = T := by
    show TrimPrefix ('*' :: T) ['*'] = T
    simp [TrimPrefix, List.isPrefixOf]
  have e2 : TrimPrefix T "*".toList = T := by
    unfold TrimPrefix
    unfold HasPrefix at hT
    rw [hT]
    rfl
  unfold goTypeToSQLType
  rw [e1, e2]

/-! ## C18, C19: the merge of model and catalog -/

theorem foldl_mergeColumn (m : List (Str × ColumnInfo)) (cols : List ColumnInfo) :
    ∀ acc : List ColumnInfo,
    cols.foldl (fun cs modelCol => cs ++ [mergeColumn m modelCol]) acc
      = acc ++ cols.map (mergeColumn m) := by
  induction cols with
  | nil => intro acc; simp
  | cons c cols ih => intro acc; simp [ih]

theorem mergeTableInfo_columns (modelTable dbTable : TableInfo) :
    (mergeTableInfo modelTable dbTable).Columns
      = modelTable.Columns.map (mergeColumn (dbColMap dbTable.Columns)) := by
  simp [mergeTableInfo, foldl_mergeColumn]

theorem mergeColumn_name (m : List (Str × ColumnInfo)) (c : ColumnInfo) :
    (mergeColumn m c).Name = c.Name := by
  unfold mergeColumn
  simp only []
  split
  · split <;> split <;> rfl
  · rfl

/-- C18: the table returned by `mergeTableInfo` has the name, the relations and the
primary-key list of the model; its columns have the names of the model's columns, in
the model's order, so it has as many columns as the model and no column with a name
that only the catalog has; a catalog column `legacy_col` does not appear. -/
theorem mergeTableInfo_model_columns (modelTable dbTable : TableInfo) :
    (mergeTableInfo modelTable dbTable).Name = modelTable.Name
    ∧ (mergeTableInfo modelTable dbTable).Relations = modelTable.Relations
    ∧ (mergeTableInfo modelTable dbTable).PrimaryKeys = modelTable.PrimaryKeys
    ∧ (mergeTableInfo modelTable dbTable).Columns.map (fun c => c.Name)
        = modelTable.Columns.map (fun c => c.Name)
    ∧ (mergeTableInfo modelTable dbTable).Columns.length = modelTable.Columns.length
    ∧ (∀ name, name ∉ modelTable.Columns.map (fun c => c.Name) →
        name ∉ (mergeTableInfo modelTable dbTable).Columns.map (fun c => c.Name))
    ∧ mergeTableInfo
        { Name := "users".toList, Columns := [{ Name := "email".toList }] }
        { Name := "users".toList,
          Columns := [{ Name := "email".toList, SqlType := "TEXT".toList },
                      { Name := "legacy_col".toList, SqlType := "TEXT".toList }] }
      = { Name := "users".toList,
          Columns := [{ Name := "email".toList, SqlType := "TEXT".toList }] } := by
  have hn : (mergeTableInfo modelTable dbTable).Columns.map (fun c => c.Name)
      = modelTable.Columns.map (fun c => c.Name) := by
    rw [mergeTableInfo_columns, List.map_map]
    apply List.map_congr_left
    intro c _
    exact mergeColumn_name _ c
  refine ⟨rfl, rfl, rfl, hn, ?_, ?_, by decide⟩
  · rw [mergeTableInfo_columns, List.length_map]
  · intro name h
    rw [hn]
    exact h

theorem foldl_colMap_lookup (name : Str) (cols : List ColumnInfo) :
    ∀ acc : List (Str × ColumnInfo), (cols.map (fun c => c.Name)).Nodup →
    (cols.foldl (fun m col => (col.Name, col) :: m) acc).lookup name
      = match cols.find? (fun c => c.Name = name) with
        | some c => some c
        | none => acc.lookup name := by
  induction cols with
  | nil => intro acc _; rfl
  | cons c cols ih =>
    intro acc hd
    simp only [List.map_cons, List.nodup_cons] at hd
    rw [List.foldl_cons, ih _ hd.2]
    by_cases hc : c.Name = name
    · have hnone : cols.find? (fun c => c.Name = name) = none := by
        rw [List.find?_eq_none]
        intro x hx hxn
        apply hd.1
        simp only [decide_eq_true_eq] at hxn
        rw [hc, ← hxn]
        exact List.mem_map_of_mem _ hx
      rw [hnone]
      simp [List.find?_cons, hc, List.lookup_cons]
    · have : (name == c.Name) = false := by
        simpa using fun h => hc h.symm
      simp [List.find?_cons, hc, List.lookup_cons, this]

theorem mergeColumn_eq_spec (catalog : List ColumnInfo) (mc : ColumnInfo)
    (hd : (catalog.map (fun c => c.Name)).Nodup) :
    mergeColumn (dbColMap catalog) mc = mergedColumnSpec mc catalog := by
  have hl := foldl_colMap_lookup mc.Name catalog [] hd
  unfold mergeColumn mergedColumnSpec dbColMap
  simp only []
  rw [hl]
  generalize List.find? _ catalog = o
  rcases o with _ | dc
  · rfl
  · rcases mc with ⟨n, ty, gt, pk, nl, fk, ft, fkk, df⟩
    simp only []
    by_cases hty : ty = [] <;> cases fk <;> cases hdf : dc.IsForeignKey <;> simp [hty, hdf]

/-- C19: when the names of the catalog columns are distinct, each column returned by
`mergeTableInfo` is the model column of that position, except that an empty model type
is filled with the type of the catalog column of the same name, and that a model
column that is not foreign takes the foreign table and the foreign key of the catalog
column of the same name when that one is foreign; a non-empty model type and the
foreign key of a foreign model column are kept. -/
theorem mergeTableInfo_frame (modelTable dbTable : TableInfo)
    (hd : (dbTable.Columns.map (fun c => c.Name)).Nodup) :
    (mergeTableInfo modelTable dbTable).Columns
        = modelTable.Columns.map (fun mc => mergedColumnSpec mc dbTable.Columns)
    ∧ ∀ mc : ColumnInfo,
        (mc.SqlType ≠ [] → (mergedColumnSpec mc dbTable.Columns).SqlType = mc.SqlType)
        ∧ (mc.IsForeignKey = true →
            (mergedColumnSpec mc dbTable.Columns).IsForeignKey = true
            ∧ (mergedColumnSpec mc dbTable.Columns).ForeignTable = mc.ForeignTable
            ∧ (mergedColumnSpec mc dbTable.Columns).ForeignKey = mc.ForeignKey) := by
  constructor
  · rw [mergeTableInfo_columns]
    apply List.map_congr_left
    intro mc _
    exact mergeColumn_eq_spec _ mc hd
  · intro mc
    unfold mergedColumnSpec
    constructor
    · intro h
      split
      · rfl
      · simp [h]
    · intro h
      split
      · exact ⟨h, rfl, rfl⟩
      · simp [h]

theorem mergeTableInfo_frame_witness :
    (([{ Name := "id".toList, SqlType := "INTEGER".toList },
       { Name := "author_id".toList, SqlType := "INTEGER".toList, IsForeignKey := true,
         ForeignTable := "users".toList, ForeignKey := "id".toList }] : List ColumnInfo).map
        (fun c => c.Name)).Nodup
    ∧ (mergeTableInfo
        { Name := "posts".toList,
          Columns := [{ Name := "id".toList, SqlType := "uint".toList },
                      { Name := "author_id".toList }] }
        { Name := "posts".toList,
          Columns := [{ Name := "id".toList, SqlType := "INTEGER".toList },
                      { Name := "author_id".toList, SqlType := "INTEGER".toList,
                        IsForeignKey := true, ForeignTable := "users".toList,
                        ForeignKey := "id".toList }] }).Columns
      = [{ Name := "id".toList, SqlType := "uint".toList },
         { Name := "author_id".toList, SqlType := "INTEGER".toList, IsForeignKey := true,
           ForeignTable := "users".toList, ForeignKey := "id".toList }] :=
  ⟨by decide,
   ((mergeTableInfo_frame
      { Name := "posts".toList,
        Columns := [{ Name := "id".toList, SqlType := "uint".toList },
                    { Name := "author_id".toList }] }
      { Name := "posts".toList,
        Columns := [{ Name := "id".toList, SqlType := "INTEGER".toList },
                    { Name := "author_id".toList, SqlType := "INTEGER".toList,
                      IsForeignKey := true, ForeignTable := "users".toList,
                      ForeignKey := "id".toList }] }
      (by decide)).1).trans (by decide)⟩

/-! ## C20: quoting of identifiers -/

theorem ReplaceAll_doubled (q : Char) (s : Str) : ReplaceAll s q [q, q] = doubled q s := by
  induction s with
  | nil => rfl
  | cons c cs ih =>
    rw [ReplaceAll, ih]
    simp [doubled, List.flatMap_cons]

theorem undoubled_doubled (q : Char) (s : Str) : undoubled q (doubled q s) = s := by
  unfold undoubled
  induction s with
  | nil => rfl
  | cons c cs ih =>
    by_cases hc : c = q
    · subst hc
      have : doubled c (c :: cs) = c :: c :: doubled c cs := by
        simp [doubled, List.flatMap_cons]
      rw [this, undoubledGo]
      simp only [decide_True]
      rw [undoubledGo]
      simp [ih]
    · have e : doubled q (c :: cs) = c :: doubled q cs := by
        simp [doubled, List.flatMap_cons, hc]
      rw [e, undoubledGo]
      simp [hc, ih]

theorem quoteIdent_eq (dialect name : Str) :
    quoteIdent dialect name
      = quoteCharOf dialect :: (doubled (quoteCharOf dialect) name ++ [quoteCharOf dialect]) := by
  unfold quoteIdent quoteCharOf
  split <;> simp [ReplaceAll_doubled]

/-- C20: `quoteIdent dialect name` is `name` with every quote character doubled,
between two quote characters, the quote character being the back quote when the
dialect is `mysql` and the double quote for every other dialect; removing the two
outer quotes and undoubling the inner ones gives back `name`, and two different names
are never quoted to the same text. -/
theorem quoteIdent_unquoted (dialect name : Str) :
    (dialect = "mysql".toList → quoteCharOf dialect = Char.ofNat 96)
    ∧ (dialect ≠ "mysql".toList → quoteCharOf dialect = Char.ofNat 34)
    ∧ quoteIdent dialect name
      = [quoteCharOf dialect] ++ doubled (quoteCharOf dialect) name ++ [quoteCharOf dialect]
    ∧ unquoted (quoteCharOf dialect) (quoteIdent dialect name) = name
    ∧ (∀ other : Str, quoteIdent dialect other = quoteIdent dialect name → other = name)
    ∧ quoteIdent "sqlite".toList "col\"name".toList = "\"col\"\"name\"".toList
    ∧ quoteIdent "mysql".toList "col\x60name".toList = "\x60col\x60\x60name\x60".toList := by
  have hu : ∀ n : Str, unquoted (quoteCharOf dialect) (quoteIdent dialect n) = n := by
    intro n
    rw [quoteIdent_eq]
    unfold unquoted
    simp [undoubled_doubled]
  refine ⟨?_, ?_, ?_, hu name, ?_, by decide, by decide⟩
  · intro h; unfold quoteCharOf; rw [if_pos h]
  · intro h; unfold quoteCharOf; rw [if_neg h]
  · rw [quoteIdent_eq]; simp
  · intro other h
    rw [← hu other, h, hu name]

/-! ## C21, C22: the generated Go source -/

theorem foldl_append_lines {α : Type} (f : α → Str) (xs : List α) : ∀ sb : Str,
    xs.foldl (fun sb x => sb ++ f x) sb = sb ++ xs.flatMap f := by
  induction xs with
  | nil => intro sb; simp
  | cons x xs ih => intro sb; simp [ih]

theorem relationFieldLine_unknown (table : TableInfo) (rel : RelationInfo)
    (h : knownKind rel = false) : relationFieldLine table rel = [] := by
  simp only [knownKind, Bool.or_eq_false_iff, decide_eq_false_iff_not] at h
  unfold relationFieldLine relationTypeAndTag
  simp only [h.1.1.1, h.1.1.2, h.1.2, h.2, decide_False, Bool.or_self, Bool.false_eq_true,
    if_false]

theorem flatMap_known (table : TableInfo) (rels : List RelationInfo) :
    rels.flatMap (relationFieldLine table)
      = (rels.filter knownKind).flatMap (relationFieldLine table) := by
  induction rels with
  | nil => rfl
  | cons r rels ih =>
    rw [List.flatMap_cons, ih, List.filter_cons]
    cases hk : knownKind r
    · simp [relationFieldLine_unknown table r hk]
    · simp

theorem generateStructForTable_eq (table : TableInfo) (schema : SchemaInfo) :
    generateStructForTable table schema = structBlock table := by
  unfold generateStructForTable structBlock
  simp only [foldl_append_lines]
  rw [flatMap_known]

theorem writeStructs_eq (schema : SchemaInfo) (tables : List TableInfo) :
    ∀ (i : Nat) (sb : Str),
    writeStructs schema (i + tables.length) i tables sb
      = sb ++ Join "\n".toList (tables.map structBlock) := by
  induction tables with
  | nil => intro i sb; simp [writeStructs, Join]
  | cons t rest ih =>
    intro i sb
    rw [writeStructs]
    have hn : i + (t :: rest).length = (i + 1) + rest.length := by
      simp only [List.length_cons]; omega
    rw [hn, ih, generateStructForTable_eq]
    cases rest with
    | nil => simp [Join]
    | cons u rest =>
      have h1 : i < i + 1 + (u :: rest).length - 1 := by
        simp only [List.length_cons]; omega
      rw [if_pos h1]
      simp [Join]

theorem Contains_of_part (s sub : Str) (h : sub <:+: s) : Contains s sub = true := by
  unfold Contains
  cases hi : Index s sub with
  | none => exact absurd h ((Index_eq_none_iff s sub).1 hi)
  | some i => rfl

theorem part_Join (sep p : Str) (parts : List Str) (h : p ∈ parts) :
    p <:+: Join sep parts := by
  induction parts with
  | nil => simp at h
  | cons a rest ih =>
    cases rest with
    | nil =>
      simp only [List.mem_singleton] at h
      subst h
      exact List.infix_refl _
    | cons b rest =>
      rw [Join]
      rcases List.mem_cons.1 h with rfl | h
      · exact ⟨[], sep ++ Join sep (b :: rest), by simp⟩
      · obtain ⟨u, v, huv⟩ := ih h
        exact ⟨a ++ sep ++ u, v, by rw [← huv]; simp⟩

theorem buildGORMTag_column (col : ColumnInfo) :
    Contains (buildGORMTag col) ("column:".toList ++ col.Name) = true := by
  apply Contains_of_part
  unfold buildGORMTag
  lift_lets
  extract_lets p0 p1 size p2 p3 p4
  have h1 : "column:".toList ++ col.Name ∈ p1 := by simp [p1]
  have h2 : "column:".toList ++ col.Name ∈ p2 := by
    simp only [p2]; split
    · exact List.mem_append_left _ h1
    · exact h1
  have h3 : "column:".toList ++ col.Name ∈ p3 := by
    simp only [p3]; split
    · exact List.mem_append_left _ h2
    · exact h2
  have h4 : "column:".toList ++ col.Name ∈ p4 := by
    simp only [p4]; split
    · exact List.mem_append_left _ h3
    · exact h3
  obtain ⟨u, v, huv⟩ := part_Join ";".toList _ p4 h4
  exact ⟨"gorm:\"".toList ++ u, v ++ "\"".toList, by rw [← huv]; simp⟩

set_option maxRecDepth 100000 in
/-- The line written for a relation of one of the four kinds. -/
theorem relationFieldLine_known (table : TableInfo) (rel : RelationInfo)
    (h : knownKind rel = true) :
    ∃ fieldType tag,
      (fieldType = toGoName (singularize rel.Table)
        ∨ fieldType = "[]".toList ++ toGoName (singularize rel.Table))
      ∧ relationFieldLine table rel
        = "\t".toList ++ toGoName rel.Name ++ " ".toList ++ fieldType ++ " \x60".toList
          ++ tag ++ " json:\"".toList ++ toSnakeCase rel.Name
          ++ ",omitempty\"\x60\n".toList := by
  have hline : ∀ fieldType tag, relationTypeAndTag table rel = some (fieldType, tag) →
      relationFieldLine table rel
        = "\t".toList ++ toGoName rel.Name ++ " ".toList ++ fieldType ++ " \x60".toList
          ++ tag ++ " json:\"".toList ++ toSnakeCase rel.Name
          ++ ",omitempty\"\x60\n".toList := by
    intro fieldType tag ht
    unfold relationFieldLine
    rw [ht]
    simp
  have hsome : ∃ fieldType tag, relationTypeAndTag table rel = some (fieldType, tag)
      ∧ (fieldType = toGoName (singularize rel.Table)
        ∨ fieldType = "[]".toList ++ toGoName (singularize rel.Table)) := by
    simp only [knownKind, Bool.or_eq_true, decide_eq_true_eq] at h
    unfold relationTypeAndTag
    rcases h with ((h | h) | h) | h <;> rw [h]
    · exact ⟨_, _, rfl, Or.inl rfl⟩
    · exact ⟨_, _, rfl, Or.inl rfl⟩
    · exact ⟨_, _, rfl, Or.inr rfl⟩
    · exact ⟨_, _, rfl, Or.inr rfl⟩
  obtain ⟨fieldType, tag, ht, hf⟩ := hsome
  exact ⟨fieldType, tag, hf, hline fieldType tag ht⟩

set_option maxRecDepth 100000 in
/-- C21: the text of `GenerateGoModels` is `package models`, an empty line, the import
block, and one struct block per table, in table order, with an empty line between two
blocks; the block of a table is the line `type Name struct \x7b` with
`Name = toGoName (singularize table.Name)`, one field line per column in column order,
one field line per relation of kind `has_one`, `belongs_to`, `has_many` or
`many_to_many`, and the closing brace; the field line of a column starts with
`toGoName col.Name` and its gorm tag holds `column:` followed by the column name; the
field line of a relation of one of the four kinds is one line that starts with
`toGoName rel.Name` and the type `Target` or `[]Target`, where
`Target = toGoName (singularize rel.Table)`, and a relation of another kind gets no
line. -/
theorem GenerateGoModels_blocks (schema : SchemaInfo) :
    GenerateGoModels schema
      = "package models\n\n".toList ++ importBlock (neededImports schema)
        ++ Join "\n".toList (schema.Tables.map structBlock)
    ∧ (∀ col : ColumnInfo,
        columnFieldLine col
          = "\t".toList ++ toGoName col.Name ++ " ".toList ++ columnGoType col
            ++ " \x60".toList ++ buildGORMTag col ++ " json:\"".toList ++ col.Name
            ++ "\"\x60\n".toList
        ∧ Contains (buildGORMTag col) ("column:".toList ++ col.Name) = true)
    ∧ (∀ (table : TableInfo) (rel : RelationInfo), knownKind rel = true →
        ∃ fieldType tag,
          (fieldType = toGoName (singularize rel.Table)
            ∨ fieldType = "[]".toList ++ toGoName (singularize rel.Table))
          ∧ relationFieldLine table rel
            = "\t".toList ++ toGoName rel.Name ++ " ".toList ++ fieldType ++ " \x60".toList
              ++ tag ++ " json:\"".toList ++ toSnakeCase rel.Name
              ++ ",omitempty\"\x60\n".toList)
    ∧ (∀ (table : TableInfo) (rel : RelationInfo), knownKind rel = false →
        relationFieldLine table rel = [])
    ∧ GenerateGoModels
        { Tables := [{ Name := "users".toList,
                       Columns := [{ Name := "id".toList, SqlType := "INTEGER".toList,
                                     IsPrimaryKey := true },
                                   { Name := "name".toList, SqlType := "VARCHAR(100)".toList },
                                   { Name := "email".toList, SqlType := "TEXT".toList,
                                     IsNullable := true }] }] }
      = ("package models\n\ntype User struct \x7b\n"
          ++ "\tID int64 \x60gorm:\"primaryKey;column:id\" json:\"id\"\x60\n"
          ++ "\tName string \x60gorm:\"column:name;size:100;not null\" json:\"name\"\x60\n"
          ++ "\tEmail *string \x60gorm:\"column:email\" json:\"email\"\x60\n\x7d\n").toList
    ∧ GenerateGoModels
        { Tables := [{ Name := "users".toList,
                       Columns := [{ Name := "id".toList, SqlType := "INTEGER".toList,
                                     IsPrimaryKey := true }],
                       Relations := [{ Name := "Posts".toList, Kind := "has_many".toList,
                                       Table := "posts".toList,
                                       ForeignKey := "user_id".toList, ReferenceKey := [],
                                       JoinTable := [] },
                                     { Name := "Audit".toList, Kind := "polymorphic".toList,
                                       Table := "audits".toList,
                                       ForeignKey := "owner_id".toList, ReferenceKey := [],
                                       JoinTable := [] },
                                     { Name := "Roles".toList, Kind := "many_to_many".toList,
                                       Table := "roles".toList, ForeignKey := [],
                                       ReferenceKey := [],
                                       JoinTable := "user_roles".toList }] },
                     { Name := "posts".toList,
                       Columns := [{ Name := "user_id".toList, SqlType := "INTEGER".toList }],
                       Relations := [{ Name := "User".toList, Kind := "belongs_to".toList,
                                       Table := "users".toList,
                                       ForeignKey := "user_id".toList, ReferenceKey := [],
                                       JoinTable := [] }] }] }
      = ("package models\n\ntype User struct \x7b\n"
          ++ "\tID int64 \x60gorm:\"primaryKey;column:id\" json:\"id\"\x60\n"
          ++ "\tPosts []Post \x60gorm:\"foreignKey:UserID\" json:\"posts,omitempty\"\x60\n"
          ++ "\tRoles []Role \x60gorm:\"many2many:user_roles\" json:\"roles,omitempty\"\x60\n"
          ++ "\x7d\n\ntype Post struct \x7b\n"
          ++ "\tUserID int64 \x60gorm:\"column:user_id;not null\" json:\"user_id\"\x60\n"
          ++ "\tUser User \x60gorm:\"foreignKey:UserID\" json:\"user,omitempty\"\x60\n"
          ++ "\x7d\n").toList := by
  refine ⟨?_, ?_, relationFieldLine_known, relationFieldLine_unknown, by decide, by decide⟩
  · unfold GenerateGoModels
    have := writeStructs_eq schema schema.Tables 0
    simp only [Nat.zero_add] at this
    simp only [this]
  · intro col
    refine ⟨?_, buildGORMTag_column col⟩
    unfold columnFieldLine
    simp

/-- C22 (counterexample): the field written for a `has_one` relation to the table
`profiles` has the type `Profile`, without `*`. -/
theorem has_one_field_is_not_a_pointer :
    generateStructForTable
        { Name := "users".toList,
          Relations := [{ Name := "Profile".toList, Kind := "has_one".toList,
                          Table := "profiles".toList, ForeignKey := "user_id".toList,
                          ReferenceKey := [], JoinTable := [] }] } {}
      = ("type User struct \x7b\n"
          ++ "\tProfile Profile \x60gorm:\"foreignKey:UserID\" json:\"profile,omitempty\"\x60\n"
          ++ "\x7d\n").toList := by
  decide

/-- C22 (amended): in the text generated for a table, the field of a relation is
`toGoName rel.Name`, its type, and its tag; with `Target = toGoName (singularize
rel.Table)` the type is `Target` itself (no `*`) for `has_one` and `belongs_to` and
`[]Target` for `has_many` and `many_to_many`; the tag names the foreign key for the
first three kinds, and for `many_to_many` the join table of the relation, or
`table_target` made of the two table names when the relation has no join table. -/
theorem relation_field_types (table : TableInfo) (rel : RelationInfo) :
    generateStructForTable table {}
      = "type ".toList ++ toGoName (singularize table.Name) ++ " struct \x7b\n".toList
        ++ table.Columns.flatMap columnFieldLine
        ++ (table.Relations.filter knownKind).flatMap (relationFieldLine table)
        ++ "\x7d\n".toList
    ∧ (∀ fieldType tag, relationTypeAndTag table rel = some (fieldType, tag) →
        relationFieldLine table rel
          = "\t".toList ++ toGoName rel.Name ++ " ".toList ++ fieldType ++ " \x60".toList
            ++ tag ++ " json:\"".toList ++ toSnakeCase rel.Name
            ++ ",omitempty\"\x60\n".toList)
    ∧ (rel.Kind = "has_one".toList ∨ rel.Kind = "belongs_to".toList →
        relationTypeAndTag table rel
          = some (toGoName (singularize rel.Table),
              "gorm:\"foreignKey:".toList ++ toGoName rel.ForeignKey ++ "\"".toList))
    ∧ (rel.Kind = "has_many".toList →
        relationTypeAndTag table rel
          = some ("[]".toList ++ toGoName (singularize rel.Table),
              "gorm:\"foreignKey:".toList ++ toGoName rel.ForeignKey ++ "\"".toList))
    ∧ (rel.Kind = "many_to_many".toList → rel.JoinTable ≠ [] →
        relationTypeAndTag table rel
          = some ("[]".toList ++ toGoName (singularize rel.Table),
              "gorm:\"many2many:".toList ++ rel.JoinTable ++ "\"".toList))
    ∧ (rel.Kind = "many_to_many".toList → rel.JoinTable = [] →
        relationTypeAndTag table rel
          = some ("[]".toList ++ toGoName (singularize rel.Table),
              "gorm:\"many2many:".toList ++ table.Name ++ "_".toList ++ rel.Table
                ++ "\"".toList)) := by
  refine ⟨generateStructForTable_eq table {}, ?_, ?_, ?_, ?_, ?_⟩
  · intro fieldType tag h
    unfold relationFieldLine
    rw [h]
    simp
  · intro h
    unfold relationTypeAndTag
    rcases h with h | h <;> rw [h] <;> rfl
  · intro h
    unfold relationTypeAndTag
    rw [h]; rfl
  · intro h hj
    unfold relationTypeAndTag
    rw [h]
    simp only [hj, ne_eq, not_false_eq_true, if_true]
    rfl
  · intro h hj
    unfold relationTypeAndTag
    rw [h, hj]
    rfl

/-! ## C26: the Go type of an SQL type -/

theorem ite_mem_list {α : Type} (c : Prop) [Decidable c] (a b : α) (l : List α)
    (ha : a ∈ l) (hb : b ∈ l) : (if c then a else b) ∈ l := by
  split <;> assumption

theorem baseGoType_mem (base : Str) :
    baseGoType base ∈ [("int64".toList, false), ("int32".toList, false),
      ("float64".toList, false), ("bool".toList, false), ("string".toList, false),
      ("[]byte".toList, true), ("time.Time".toList, false),
      ("json.RawMessage".toList, true)] := by
  unfold baseGoType
  refine ite_mem_list _ _ _ _ (by decide) ?_
  refine ite_mem_list _ _ _ _ (by decide) ?_
  refine ite_mem_list _ _ _ _ (by decide) ?_
  refine ite_mem_list _ _ _ _ (by decide) ?_
  refine ite_mem_list _ _ _ _ (by decide) ?_
  refine ite_mem_list _ _ _ _ (by decide) ?_
  refine ite_mem_list _ _ _ _ (by decide) ?_
  refine ite_mem_list _ _ _ _ (by decide) ?_
  refine ite_mem_list _ _ _ _ (by decide) ?_
  refine ite_mem_list _ _ _ _ (by decide) ?_
  exact ite_mem_list _ _ _ _ (by decide) (by decide)

theorem toUpperRune_idem (c : Char) : toUpperRune (toUpperRune c) = toUpperRune c := by
  by_cases h1 : 97 ≤ c.toNat ∧ c.toNat ≤ 122
  · have e : toUpperRune c = Char.ofNat (c.toNat - 32) := by simp [toUpperRune, h1]
    rw [e]
    revert h1
    generalize c.toNat = n
    intro h1
    obtain ⟨a, b⟩ := h1
    interval_cases n <;> decide
  · by_cases h2 : c.toNat = 0x131
    · have e : toUpperRune c = 'I' := by simp [toUpperRune, h2]
      rw [e]; decide
    · by_cases h3 : c.toNat = 0x17F
      · have e : toUpperRune c = 'S' := by simp [toUpperRune, h3]
        rw [e]; decide
      · have e : toUpperRune c = c := by
          unfold toUpperRune
          simp only [h1, h2, h3, if_false]
        rw [e, e]

theorem ToUpper_idem (s : Str) : ToUpper (ToUpper s) = ToUpper s := by
  unfold ToUpper
  rw [List.map_map]
  apply List.map_congr_left
  intro c _
  exact toUpperRune_idem c

theorem toUpper_toLower_ascii (c : Char) (h : c.toNat < 128) :
    toUpperRune (toLowerRune c) = toUpperRune c := by
  have hc : c = Char.ofNat c.toNat := by simp
  revert hc
  generalize c.toNat = n at h
  intro hc
  subst hc
  interval_cases n <;> decide

theorem ToUpper_ToLower_ascii (s : Str) (h : isASCII s = true) :
    ToUpper (ToLower s) = ToUpper s := by
  unfold ToUpper ToLower
  rw [List.map_map]
  apply List.map_congr_left
  intro c hc
  simp only [isASCII, List.all_eq_true, decide_eq_true_eq] at h
  exact toUpper_toLower_ascii c (h c hc)

theorem stripSize_cons (a : Char) (x : Str) (h : a ≠ '(') :
    stripSize (a :: x) = a :: stripSize x := by
  unfold stripSize
  have e : Index (a :: x) "(".toList = (Index x "(".toList).map Nat.succ := by
    show Index (a :: x) ['('] = _
    rw [Index]
    have h' : ¬ ('(' = a) := fun e => h e.symm
    simp [List.isPrefixOf, h']
  rw [e]
  cases Index x "(".toList <;> rfl

theorem stripSize_append (u v : Str) : stripSize (u ++ '(' :: v) = stripSize u := by
  induction u with
  | nil => simp [stripSize, Index, List.isPrefixOf]
  | cons a u ih =>
    by_cases h : a = '('
    · subst h; simp [stripSize, Index, List.isPrefixOf]
    · rw [List.cons_append, stripSize_cons _ _ h, stripSize_cons _ _ h, ih]

/-- C26: for every SQL type `s`, `sqlTypeToGoType s false` does not start with `*`,
and `sqlTypeToGoType s true` is `*` followed by it, unless it is `[]byte` or
`json.RawMessage`, which nullable columns keep as they are; the result is the same for
the upper-case form of `s`, for every text with the same upper-case form, for the
lower-case form of an ASCII `s`, and with a suffix that opens a parenthesis added:
`VARCHAR(255)` maps like `VARCHAR`, to `string`. -/
theorem sqlTypeToGoType_pointer_and_case (s : Str) :
    HasPrefix (sqlTypeToGoType s false) "*".toList = false
    ∧ (sqlTypeToGoType s false = "[]byte".toList
        ∨ sqlTypeToGoType s false = "json.RawMessage".toList →
        sqlTypeToGoType s true = sqlTypeToGoType s false)
    ∧ (sqlTypeToGoType s false ≠ "[]byte".toList →
        sqlTypeToGoType s false ≠ "json.RawMessage".toList →
        sqlTypeToGoType s true = "*".toList ++ sqlTypeToGoType s false)
    ∧ (∀ n, sqlTypeToGoType (ToUpper s) n = sqlTypeToGoType s n)
    ∧ (∀ n t, ToUpper t = ToUpper s → sqlTypeToGoType t n = sqlTypeToGoType s n)
    ∧ (∀ n, isASCII s = true → sqlTypeToGoType (ToLower s) n = sqlTypeToGoType s n)
    ∧ (∀ n size, sqlTypeToGoType (s ++ '(' :: size) n = sqlTypeToGoType s n)
    ∧ sqlTypeToGoType "VARCHAR(255)".toList false = "string".toList
    ∧ sqlTypeToGoType "varchar".toList false = "string".toList := by
  have hf : ∀ n, sqlTypeToGoType s n
      = afterSwitch n (baseGoType (TrimSpace (stripSize (ToUpper s)))) := fun _ => rfl
  have hsame : ∀ n t, ToUpper t = ToUpper s → sqlTypeToGoType t n = sqlTypeToGoType s n := by
    intro n t ht
    unfold sqlTypeToGoType
    simp only [ht]
  have hall : ∀ r ∈ [("int64".toList, false), ("int32".toList, false),
      ("float64".toList, false), ("bool".toList, false), ("string".toList, false),
      ("[]byte".toList, true), ("time.Time".toList, false),
      ("json.RawMessage".toList, true)],
      HasPrefix (afterSwitch false r) "*".toList = false
      ∧ (afterSwitch false r = "[]byte".toList
          ∨ afterSwitch false r = "json.RawMessage".toList →
          afterSwitch true r = afterSwitch false r)
      ∧ (afterSwitch false r ≠ "[]byte".toList →
          afterSwitch false r ≠ "json.RawMessage".toList →
          afterSwitch true r = "*".toList ++ afterSwitch false r) := by
    decide
  have hr := hall _ (baseGoType_mem (TrimSpace (stripSize (ToUpper s))))
  rw [← hf, ← hf] at hr
  refine ⟨hr.1, hr.2.1, hr.2.2, ?_, hsame, ?_, ?_, by decide, by decide⟩
  · intro n
    exact hsame n _ (ToUpper_idem s)
  · intro n ha
    exact hsame n _ (ToUpper_ToLower_ascii s ha)
  · intro n size
    unfold sqlTypeToGoType
    simp only []
    have : ToUpper (s ++ '(' :: size) = ToUpper s ++ '(' :: ToUpper size := by
      simp [ToUpper]
      rfl
    rw [this, stripSize_append]

/-! ## C27: Go names -/

theorem Split_not_mem (sep : Char) (s : Str) : ∀ p ∈ Split sep s, sep ∉ p := by
  induction s with
  | nil => intro p hp; simp [Split] at hp; subst hp; simp
  | cons c s ih =>
    intro p hp
    unfold Split at hp
    split at hp
    · rcases List.mem_cons.1 hp with rfl | hp
      · simp
      · exact ih p hp
    · rename_i hc
      split at hp
      · simp only [List.mem_singleton] at hp
        subst hp
        simpa using fun h => hc h.symm
      · rename_i l ls hl
        rcases List.mem_cons.1 hp with rfl | hp
        · have := ih l (by rw [hl]; exact List.mem_cons_self _ _)
          intro hmem
          rcases List.mem_cons.1 hmem with h | h
          · exact hc h.symm
          · exact this h
        · exact ih p (by rw [hl]; exact List.mem_cons_of_mem _ hp)

theorem goNameStep_eq (u : CaseTables) (result part : Str) :
    u.goNameStep result part
      = result ++ (if part.isEmpty then [] else u.goNamePart part) := by
  cases part with
  | nil => simp [CaseTables.goNameStep]
  | cons r0 runes =>
    unfold CaseTables.goNameStep CaseTables.goNamePart
    simp only [List.isEmpty_cons, Bool.false_eq_true, if_false]
    split <;> rfl

theorem foldl_goNameStep (u : CaseTables) (parts : List Str) : ∀ result : Str,
    parts.foldl u.goNameStep result
      = result ++ (parts.filter (fun p => !p.isEmpty)).flatMap u.goNamePart := by
  induction parts with
  | nil => intro result; simp
  | cons p parts ih =>
    intro result
    rw [List.foldl_cons, ih, goNameStep_eq]
    cases p with
    | nil => simp
    | cons a l => simp [List.filter_cons, List.flatMap_cons]

theorem toUpperRune_ne_underscore (c : Char) (h : c ≠ '_') : toUpperRune c ≠ '_' := by
  unfold toUpperRune
  simp only []
  split
  · rename_i hc
    intro he
    have : (Char.ofNat (c.toNat - 32)).toNat = 95 := by rw [he]; rfl
    revert this
    generalize c.toNat = n at hc
    obtain ⟨h1, h2⟩ := hc
    interval_cases n <;> decide
  · split
    · decide
    · split
      · decide
      · exact h

/-- The rows `asciiCase` have no rune other than the underscore with the underscore as
upper case. -/
theorem asciiCase_keepsUnderscore : asciiCase.keepsUnderscore := by
  intro c hc
  by_contra hne
  exact toUpperRune_ne_underscore c hne hc

theorem asciiCase_onASCII : asciiCase.onASCII := fun _ _ => ⟨rfl, rfl, rfl⟩

theorem goNamePart_no_underscore (u : CaseTables) (hu : u.keepsUnderscore) (part : Str)
    (h : '_' ∉ part) : '_' ∉ u.goNamePart part := by
  unfold CaseTables.goNamePart
  split
  · rename_i acronym ha
    have hall : ∀ kv ∈ acronyms, '_' ∉ kv.2 := by decide
    have hmem : (part.map u.ToLower, acronym) ∈ acronyms := by
      have := List.lookup_eq_some_iff.1 ha
      obtain ⟨l1, l2, hl, _⟩ := this
      rw [hl]; simp
    exact hall _ hmem
  · cases part with
    | nil => simp
    | cons r0 runes =>
      simp only [List.mem_cons, not_or] at h ⊢
      exact ⟨fun e => h.1 (hu r0 e.symm).symm, h.2⟩

theorem map_ToLower_ascii (u : CaseTables) (ha : u.onASCII) (s : Str)
    (h : isASCII s = true) : s.map u.ToLower = s.map toLowerRune := by
  apply List.map_congr_left
  intro c hc
  simp only [isASCII, List.all_eq_true, decide_eq_true_eq] at h
  exact (ha c (h c hc)).2.2

/-- On an ASCII part a round of `toGoName` is the round with the rows `asciiCase`. -/
theorem goNameStep_ascii (u : CaseTables) (ha : u.onASCII) (result part : Str)
    (h : isASCII part = true) : u.goNameStep result part = asciiCase.goNameStep result part := by
  cases part with
  | nil => rfl
  | cons r0 runes =>
    have h0 : u.ToUpper r0 = toUpperRune r0 := by
      simp only [isASCII, List.all_cons, Bool.and_eq_true, decide_eq_true_eq] at h
      exact (ha r0 h.1).2.1
    unfold CaseTables.goNameStep
    simp only [map_ToLower_ascii u ha _ h, h0]
    rfl

/-- C27: for every name, and for tables `u` of package `unicode` that have the ASCII
rows and no rune other than `_` with `_` as upper case (as Go's tables have),
`toGoName name` is the concatenation, over the non-empty parts of `name` between
underscores and in their order, of the acronym of the part when its lower-case form is
a listed acronym and else of the part with its first character in upper case; it
holds no underscore; `user_id` gives `UserID`, `http_url` gives `HTTPURL` and the
empty name gives the empty text. -/
theorem toGoName_parts (u : CaseTables) (name : Str) (hu : u.keepsUnderscore)
    (ha : u.onASCII) :
    u.toGoName name = ((Split '_' name).filter (fun p => !p.isEmpty)).flatMap u.goNamePart
    ∧ '_' ∉ u.toGoName name
    ∧ u.toGoName "user_id".toList = "UserID".toList
    ∧ u.toGoName "http_url".toList = "HTTPURL".toList
    ∧ u.toGoName [] = [] := by
  have h1 : u.toGoName name
      = ((Split '_' name).filter (fun p => !p.isEmpty)).flatMap u.goNamePart := by
    unfold CaseTables.toGoName
    split
    · rename_i he
      have : name = [] := by simpa using he
      subst this
      rfl
    · rw [foldl_goNameStep, List.nil_append]
  have e1 : Split '_' "user_id".toList = ["user".toList, "id".toList] := by decide
  have e2 : Split '_' "http_url".toList = ["http".toList, "url".toList] := by decide
  refine ⟨h1, ?_, ?_, ?_, rfl⟩
  · rw [h1]
    intro hmem
    simp only [List.mem_flatMap, List.mem_filter] at hmem
    obtain ⟨p, ⟨hp, _⟩, hup⟩ := hmem
    exact goNamePart_no_underscore u hu p (Split_not_mem '_' name p hp) hup
  · unfold CaseTables.toGoName
    rw [if_neg (by decide), e1]
    simp only [List.foldl_cons, List.foldl_nil]
    rw [goNameStep_ascii u ha _ _ (by decide), goNameStep_ascii u ha _ _ (by decide)]
    decide
  · unfold CaseTables.toGoName
    rw [if_neg (by decide), e2]
    simp only [List.foldl_cons, List.foldl_nil]
    rw [goNameStep_ascii u ha _ _ (by decide), goNameStep_ascii u ha _ _ (by decide)]
    decide

/-- C27 (witness): the name `api_key` with the rows `asciiCase`. -/
theorem toGoName_parts_witness :
    asciiCase.toGoName "api_key".toList = "APIKey".toList
    ∧ '_' ∉ asciiCase.toGoName "api_key".toList :=
  ⟨by decide,
   (toGoName_parts asciiCase "api_key".toList asciiCase_keepsUnderscore
      asciiCase_onASCII).2.1⟩

/-! ## C28: snake case -/

theorem toSnakeCaseGo_enum (u : CaseTables) (s : Str) : ∀ n : Nat,
    u.toSnakeCaseGo (decide (n = 0)) s
      = (s.enumFrom n).flatMap (fun ic =>
          if u.IsUpper ic.2 then (if ic.1 = 0 then [] else ['_']) ++ [u.ToLower ic.2]
          else [ic.2]) := by
  induction s with
  | nil => intro n; rfl
  | cons c s ih =>
    intro n
    have := ih (n + 1)
    simp only [Nat.add_one_ne_zero, decide_False] at this
    rw [CaseTables.toSnakeCaseGo, this, List.enumFrom_cons, List.flatMap_cons]
    by_cases hc : u.IsUpper c = true
    · by_cases hn : n = 0 <;> simp [hc, hn]
    · simp [hc]

theorem toLowerRune_not_upper (c : Char) (h : isUpperRune c = true) :
    isUpperRune (toLowerRune c) = false ∧ (toLowerRune c).toNat < 128 := by
  simp only [isUpperRune, Bool.and_eq_true, decide_eq_true_eq] at h
  unfold toLowerRune
  simp only [h, and_self, if_true]
  revert h
  generalize c.toNat = n
  intro h
  obtain ⟨h1, h2⟩ := h
  interval_cases n <;> decide

/-- In an ASCII name the lower-case form of an upper-case letter is no upper-case
letter. -/
theorem lower_not_upper_ascii (u : CaseTables) (ha : u.onASCII) (name : Str)
    (h : isASCII name = true) :
    ∀ c ∈ name, u.IsUpper c = true → u.IsUpper (u.ToLower c) = false := by
  intro c hc hup
  simp only [isASCII, List.all_eq_true, decide_eq_true_eq] at h
  obtain ⟨h1, _, h3⟩ := ha c (h c hc)
  rw [h1] at hup
  obtain ⟨h4, h5⟩ := toLowerRune_not_upper c hup
  rw [h3, (ha _ h5).1]
  exact h4

theorem toSnakeCaseGo_no_upper (u : CaseTables) (hus : u.IsUpper '_' = false) (s : Str)
    (h : ∀ c ∈ s, u.IsUpper c = true → u.IsUpper (u.ToLower c) = false) :
    ∀ first : Bool, ∀ c ∈ u.toSnakeCaseGo first s, u.IsUpper c = false := by
  induction s with
  | nil => intro first c hc; simp [CaseTables.toSnakeCaseGo] at hc
  | cons a s ih =>
    intro first c hc
    have ih' := ih (fun x hx => h x (List.mem_cons_of_mem _ hx))
    rw [CaseTables.toSnakeCaseGo] at hc
    split at hc
    · rename_i hup
      simp only [List.mem_append, List.mem_cons] at hc
      rcases hc with hc | rfl | hc
      · cases first
        · simp only [Bool.false_eq_true, if_false, List.mem_singleton] at hc
          subst hc
          exact hus
        · simp at hc
      · exact h a (List.mem_cons_self _ _) hup
      · exact ih' false c hc
    · rename_i hup
      rcases List.mem_cons.1 hc with rfl | hc
      · simpa using hup
      · exact ih' false c hc

theorem toSnakeCaseGo_fixed (u : CaseTables) (s : Str) (h : ∀ c ∈ s, u.IsUpper c = false) :
    ∀ first : Bool, u.toSnakeCaseGo first s = s := by
  induction s with
  | nil => intro first; rfl
  | cons a s ih =>
    intro first
    rw [CaseTables.toSnakeCaseGo, h a (List.mem_cons_self _ _)]
    simp [ih (fun c hc => h c (List.mem_cons_of_mem _ hc))]

/-- On an ASCII name the loop of `toSnakeCase` is the loop with the rows `asciiCase`. -/
theorem toSnakeCaseGo_ascii (u : CaseTables) (ha : u.onASCII) (s : Str)
    (h : isASCII s = true) :
    ∀ first : Bool, u.toSnakeCaseGo first s = asciiCase.toSnakeCaseGo first s := by
  induction s with
  | nil => intro first; rfl
  | cons a s ih =>
    intro first
    simp only [isASCII, List.all_cons, Bool.and_eq_true, decide_eq_true_eq] at h
    obtain ⟨h1, _, h3⟩ := ha a h.1
    have ih' := ih (by simpa [isASCII] using h.2)
    rw [CaseTables.toSnakeCaseGo, CaseTables.toSnakeCaseGo, h1, h3, ih' false]
    rfl

/-- C28 (counterexample): U+03D2 is an upper-case letter without a lower-case form; in
the name made of `a` and that letter, `toSnakeCase` puts an underscore before the
letter and keeps it, so the result holds an upper-case letter, and a second
application puts one more underscore before it. -/
theorem snake_case_keeps_letter_without_lower_form :
    hookCase.IsUpper (Char.ofNat 0x3D2) = true
    ∧ hookCase.ToLower (Char.ofNat 0x3D2) = Char.ofNat 0x3D2
    ∧ hookCase.toSnakeCase ['a', Char.ofNat 0x3D2] = ['a', '_', Char.ofNat 0x3D2]
    ∧ hookCase.toSnakeCase ['a', '_', Char.ofNat 0x3D2]
        = ['a', '_', '_', Char.ofNat 0x3D2] := by
  decide

/-- C28 (amended): for every name, and for tables `u` of package `unicode` that have
the ASCII rows (as Go's tables have), `toSnakeCase` replaces each upper-case letter by
its lower-case form, with an underscore before it unless it is the first character,
and keeps every other character; when the lower-case form of every upper-case letter
of the name is no upper-case letter, the result holds no upper-case letter and
`toSnakeCase` maps it to itself; every ASCII name is such a name; `CreatedAt` gives
`created_at` and `UserID` gives `user_i_d`. -/
theorem toSnakeCase_lower_underscore (u : CaseTables) (name : Str) (ha : u.onASCII) :
    u.toSnakeCase name = u.snakeCaseSpec name
    ∧ ((∀ c ∈ name, u.IsUpper c = true → u.IsUpper (u.ToLower c) = false) →
        (∀ c ∈ u.toSnakeCase name, u.IsUpper c = false)
        ∧ u.toSnakeCase (u.toSnakeCase name) = u.toSnakeCase name)
    ∧ (isASCII name = true →
        ∀ c ∈ name, u.IsUpper c = true → u.IsUpper (u.ToLower c) = false)
    ∧ u.toSnakeCase "CreatedAt".toList = "created_at".toList
    ∧ u.toSnakeCase "UserID".toList = "user_i_d".toList := by
  have hus : u.IsUpper '_' = false := (ha '_' (by decide)).1
  refine ⟨toSnakeCaseGo_enum u name 0, ?_, lower_not_upper_ascii u ha name, ?_, ?_⟩
  · intro h
    have hno := toSnakeCaseGo_no_upper u hus name h true
    exact ⟨hno, toSnakeCaseGo_fixed u _ hno true⟩
  · unfold CaseTables.toSnakeCase
    rw [toSnakeCaseGo_ascii u ha _ (by decide)]
    decide
  · unfold CaseTables.toSnakeCase
    rw [toSnakeCaseGo_ascii u ha _ (by decide)]
    decide

/-- C28 (witness): the ASCII name `AuthorID` with the rows `asciiCase`. -/
theorem toSnakeCase_lower_underscore_witness :
    asciiCase.toSnakeCase "AuthorID".toList = "author_i_d".toList
    ∧ (∀ c ∈ asciiCase.toSnakeCase "AuthorID".toList, asciiCase.IsUpper c = false)
    ∧ asciiCase.toSnakeCase (asciiCase.toSnakeCase "AuthorID".toList)
        = asciiCase.toSnakeCase "AuthorID".toList :=
  ⟨(toSnakeCase_lower_underscore asciiCase "AuthorID".toList asciiCase_onASCII).1.trans
      (by decide),
   ((toSnakeCase_lower_underscore asciiCase "AuthorID".toList asciiCase_onASCII).2.1
      (lower_not_upper_ascii asciiCase asciiCase_onASCII _ (by decide))).1,
   ((toSnakeCase_lower_underscore asciiCase "AuthorID".toList asciiCase_onASCII).2.1
      (lower_not_upper_ascii asciiCase asciiCase_onASCII _ (by decide))).2⟩

/-! ## C29: the dialect argument -/

/-- C29: the result of `ParseCreateStatements` does not depend on the dialect
argument: for every script and any two dialect values, the empty one that asks for
detection included, the two results are equal. -/
theorem ParseCreateStatements_dialect_independent (sql d1 d2 : Str) :
    ParseCreateStatements sql d1 = ParseCreateStatements sql d2 := by
  unfold ParseCreateStatements
  simp only []
  rw [stmtStep_dialect (if d1.isEmpty then detectDialect sql else d1)
    (if d2.isEmpty then detectDialect sql else d2)]

/-! ## C30: an attribute followed by another one -/

/-- C30 (failing input): on the lines `author_id integer [ref: > users.id, not null]`
and `status text [default: active, not null]` the text of the attribute that follows
is taken into the foreign key and into the default value. -/
theorem dbml_attribute_takes_following_text :
    parseDBMLColumn "author_id integer [ref: > users.id, not null]".toList =
      some { Name := "author_id".toList, SqlType := "integer".toList, IsNullable := false,
             IsForeignKey := true, ForeignTable := "users".toList,
             ForeignKey := "id, not null".toList }
    ∧ parseDBMLColumn "status text [default: active, not null]".toList =
      some { Name := "status".toList, SqlType := "text".toList, IsNullable := false,
             Default := "active, not null".toList } := by
  decide

/-! ## C23: an unsupported dialect -/

/-- C23 (counterexample): for the dialect `oracle`, `IntrospectSchema` returns no
error but a schema that holds the table of the model. -/
theorem unsupported_dialect_returns_schema :
    IntrospectSchema { dialect := "oracle".toList, catalog := [], rowCount := fun _ => 0 }
        [some { Name := "users".toList }]
      = .ok { Tables := [{ Name := "users".toList }], Driver := "oracle".toList } := by
  decide

/-- C23 (amended): for a dialect other than `sqlite`, `postgres` and `mysql`,
`introspectDatabase` fails with the error `unsupported dialect`, and `IntrospectSchema`
falls back to the models: it returns no error but a schema with the dialect as driver
whose tables are the tables of the models that could be parsed (one per table name),
whatever the catalog holds. -/
theorem unsupported_dialect_falls_back (db : Connection) (models : List (Option TableInfo))
    (h1 : db.dialect ≠ "sqlite".toList) (h2 : db.dialect ≠ "postgres".toList)
    (h3 : db.dialect ≠ "mysql".toList) :
    introspectDatabase db = .error ("unsupported dialect: " ++ String.mk db.dialect)
    ∧ ∃ schema, IntrospectSchema db models = .ok schema
        ∧ schema.Driver = db.dialect
        ∧ schema.Tables.Perm ((modelTables models).map (fun kv => kv.2)) := by
  have he : introspectDatabase db
      = .error ("unsupported dialect: " ++ String.mk db.dialect) := by
    unfold introspectDatabase
    rw [if_neg h1, if_neg h2, if_neg h3]
  refine ⟨he, ?_⟩
  unfold IntrospectSchema
  simp only [he, List.nil_append]
  exact ⟨_, rfl, rfl, List.Perm.refl _⟩

/-- C23 (witness): the dialect `mssql` with one model that can be parsed and one that
cannot. -/
theorem unsupported_dialect_falls_back_witness :
    introspectDatabase ⟨"mssql".toList, [{ Name := "t".toList }], fun _ => 7⟩
      = .error "unsupported dialect: mssql"
    ∧ ∃ schema,
        IntrospectSchema ⟨"mssql".toList, [{ Name := "t".toList }], fun _ => 7⟩
          [some { Name := "users".toList }, none] = .ok schema
        ∧ schema.Driver = "mssql".toList
        ∧ schema.Tables.Perm [{ Name := "users".toList }] :=
  unsupported_dialect_falls_back ⟨"mssql".toList, [{ Name := "t".toList }], fun _ => 7⟩
    [some { Name := "users".toList }, none] (by decide) (by decide) (by decide)

/-! ## C24: the semicolons at which a script is cut -/

theorem Join_cons_head (sep : Str) (c : Char) (a : Str) (rest : List Str) :
    Join sep ((c :: a) :: rest) = c :: Join sep (a :: rest) := by
  cases rest with
  | nil => rfl
  | cons b rest => simp [Join]

theorem cutAtDepthZero_congr (d d' : Int) (p p' : Str) (ps : List Str)
    (h : scanDepth ';' d p = scanDepth ';' d' p') :
    cutAtDepthZero d (p :: ps) = cutAtDepthZero d' (p' :: ps) := by
  cases ps with
  | nil => simp [cutAtDepthZero, h]
  | cons q rest => simp [cutAtDepthZero, h]

theorem splitTopGo_cut (s : Str) : ∀ (depth : Int) (cur : Str),
    ∃ p0 ps, Join [';'] (p0 :: ps) = s ∧ cutAtDepthZero depth (p0 :: ps) = true
      ∧ splitTopGo ';' depth cur s
        = keepNonEmpty (TrimSpace (cur ++ p0))
          ++ ps.flatMap (fun p => keepNonEmpty (TrimSpace p)) := by
  induction s with
  | nil =>
    intro depth cur
    exact ⟨[], [], rfl, by simp [cutAtDepthZero, scanDepth], by simp [splitTopGo]⟩
  | cons c s ih =>
    intro depth cur
    have step : ∀ d' : Int, scanDepth ';' depth [c] = some d' →
        splitTopGo ';' depth cur (c :: s) = splitTopGo ';' d' (cur ++ [c]) s →
        ∃ p0 ps, Join [';'] (p0 :: ps) = c :: s ∧ cutAtDepthZero depth (p0 :: ps) = true
          ∧ splitTopGo ';' depth cur (c :: s)
            = keepNonEmpty (TrimSpace (cur ++ p0))
              ++ ps.flatMap (fun p => keepNonEmpty (TrimSpace p)) := by
      intro d' hd hs
      obtain ⟨p0, ps, hj, hc, hsp⟩ := ih d' (cur ++ [c])
      refine ⟨c :: p0, ps, ?_, ?_, ?_⟩
      · rw [Join_cons_head, hj]
      · rw [← hc]
        apply cutAtDepthZero_congr
        have := scanDepth_append ';' [c] depth p0
        simp only [List.singleton_append] at this
        rw [this, hd]
        rfl
      · rw [hs, hsp]
        simp
    by_cases h1 : c = '('
    · subst h1
      exact step (depth + 1) (by simp [scanDepth]) (by simp [splitTopGo])
    by_cases h2 : c = ')'
    · subst h2
      exact step (depth - 1) (by simp [scanDepth]) (by simp [splitTopGo])
    by_cases h3 : c = ';'
    · subst h3
      by_cases hd : depth = 0
      · subst hd
        obtain ⟨q0, qs, hj, hc, hsp⟩ := ih 0 []
        refine ⟨[], q0 :: qs, ?_, ?_, ?_⟩
        · rw [Join, hj]; rfl
        · simp [cutAtDepthZero, scanDepth, hc]
        · rw [splitTopGo]
          simp [hsp]
      · exact step depth (by simp [scanDepth, hd]) (by simp [splitTopGo, hd])
    · exact step depth (by simp [scanDepth, h1, h2, h3]) (by simp [splitTopGo, h1, h2, h3])

/-- C24 (counterexample): a semicolon inside a quoted literal that stands outside
parentheses cuts the statement. -/
theorem semicolon_in_literal_cuts :
    splitStatements "SELECT \x27a;b\x27".toList = ["SELECT \x27a".toList, "b\x27".toList] := by
  decide

/-- C24 (amended): `splitStatements` cuts the script at the semicolons that stand at
parenthesis depth 0 and at no other place, the depth being counted over all
parentheses before the semicolon, inside quoted literals too: the script is the pieces
joined by `;`, no piece holds a `;` at depth 0, every piece but the last ends at depth
0, and the statements returned are the pieces trimmed, the empty ones left out.  A
semicolon inside a quoted literal is kept exactly when it stands at a depth other than
0. -/
theorem splitStatements_cuts_at_depth_zero (sql : Str) :
    ∃ pieces, Join [';'] pieces = sql ∧ cutAtDepthZero 0 pieces = true
      ∧ splitStatements sql = pieces.flatMap (fun p => keepNonEmpty (TrimSpace p))
      ∧ ∀ stmt ∈ splitStatements sql, stmt ≠ [] ∧ TrimSpace stmt = stmt := by
  obtain ⟨p0, ps, hj, hc, hsp⟩ := splitTopGo_cut sql 0 []
  have hs : splitStatements sql
      = (p0 :: ps).flatMap (fun p => keepNonEmpty (TrimSpace p)) := by
    unfold splitStatements
    rw [hsp]
    simp
  refine ⟨p0 :: ps, hj, hc, hs, ?_⟩
  intro stmt hstmt
  rw [hs] at hstmt
  simp only [List.mem_flatMap] at hstmt
  obtain ⟨p, _, hp⟩ := hstmt
  unfold keepNonEmpty at hp
  split at hp
  · simp at hp
  · rename_i hne
    simp only [List.mem_singleton] at hp
    subst hp
    exact ⟨by simpa using hne, TrimSpace_idem p⟩

/-! ## Where a successful match stands -/

theorem run_lit_some {α : Type} (s : Str) : ∀ (inp : Str) (caps : Caps)
    (k : Str → Caps → Option α) (x : α), (Rx.lit s).run inp caps k = some x →
    ∃ pre rest, inp = pre ++ rest ∧ pre.map foldRune = s.map foldRune
      ∧ k rest caps = some x := by
  induction s with
  | nil =>
    intro inp caps k x h
    exact ⟨[], inp, rfl, rfl, by simpa [Rx.lit, Rx.run] using h⟩
  | cons c s ih =>
    intro inp caps k x h
    rw [Rx.lit, Rx.run] at h
    cases inp with
    | nil => simp [Rx.run] at h
    | cons a inp =>
      rw [Rx.run] at h
      split at h
      · rename_i ha
        obtain ⟨pre, rest, hi, hp, hk⟩ := ih _ _ _ _ h
        refine ⟨a :: pre, rest, by rw [hi]; rfl, ?_, hk⟩
        simp only [List.map_cons, hp]
        congr 1
        simpa using ha
      · cases h

theorem greedyStar_some {α : Type} (p : Char → Bool) (s : Str) (k : Str → Option α) (x : α)
    (h : greedyStar p s k = some x) :
    ∃ ws rest, s = ws ++ rest ∧ (∀ c ∈ ws, p c = true) ∧ k rest = some x := by
  induction s with
  | nil => exact ⟨[], [], rfl, by simp, by simpa [greedyStar] using h⟩
  | cons c cs ih =>
    rw [greedyStar] at h
    split at h
    · rename_i hc
      rcases orTry_eq_some _ _ _ h with h1 | h1
      · obtain ⟨ws, rest, hs, hw, hk⟩ := ih h1
        refine ⟨c :: ws, rest, by rw [hs]; rfl, ?_, hk⟩
        intro a ha
        rcases List.mem_cons.1 ha with rfl | ha
        · exact hc
        · exact hw a ha
      · exact ⟨[], c :: cs, rfl, by simp, h1⟩
    · exact ⟨[], c :: cs, rfl, by simp, h⟩

theorem run_plus_some {α : Type} (p : Char → Bool) (inp : Str) (caps : Caps)
    (k : Str → Caps → Option α) (x : α) (h : (Rx.plus p).run inp caps k = some x) :
    ∃ ws rest, inp = ws ++ rest ∧ ws ≠ [] ∧ (∀ c ∈ ws, p c = true)
      ∧ k rest caps = some x := by
  cases inp with
  | nil => simp [Rx.run] at h
  | cons c cs =>
    rw [Rx.run] at h
    split at h
    · rename_i hc
      obtain ⟨ws, rest, hs, hw, hk⟩ := greedyStar_some _ _ _ _ h
      refine ⟨c :: ws, rest, by rw [hs]; rfl, by simp, ?_, hk⟩
      intro a ha
      rcases List.mem_cons.1 ha with rfl | ha
      · exact hc
      · exact hw a ha
    · cases h

/-- A part read from the front of `sfx ++ tail` that does not hold the last character
of `sfx` ends before that character. -/
theorem split_before_last (q : Char) (u : Str) : ∀ (sfx tail rest : Str),
    sfx ++ tail = u ++ rest → sfx.getLast? = some q → (∀ c ∈ u, c ≠ q) →
    ∃ sfx', sfx = u ++ sfx' ∧ sfx'.getLast? = some q ∧ rest = sfx' ++ tail := by
  induction u with
  | nil =>
    intro sfx tail rest h hq _
    exact ⟨sfx, rfl, hq, h.symm⟩
  | cons a u ih =>
    intro sfx tail rest h hq hu
    cases sfx with
    | nil => simp at hq
    | cons b sfx0 =>
      simp only [List.cons_append, List.cons.injEq] at h
      obtain ⟨hb, h⟩ := h
      subst hb
      cases sfx0 with
      | nil =>
        simp only [List.getLast?_singleton, Option.some.injEq] at hq
        exact absurd hq (hu b (List.mem_cons_self _ _))
      | cons c sfx1 =>
        have hq' : (c :: sfx1).getLast? = some q := by
          rw [List.getLast?_cons_cons] at hq; exact hq
        obtain ⟨sfx', h1, h2, h3⟩ :=
          ih (c :: sfx1) tail rest h hq' (fun x hx => hu x (List.mem_cons_of_mem _ hx))
        exact ⟨sfx', by rw [h1]; rfl, h2, h3⟩

theorem lit_step {α : Type} (kw : Str) (q : Char) (sfx tail : Str) (caps : Caps)
    (k : Str → Caps → Option α) (x : α)
    (h : (Rx.lit kw).run (sfx ++ tail) caps k = some x) (hq : sfx.getLast? = some q)
    (hkw : ∀ c ∈ kw, foldRune c ≠ foldRune q) :
    ∃ pre sfx', sfx = pre ++ sfx' ∧ sfx'.getLast? = some q
      ∧ pre.map foldRune = kw.map foldRune ∧ k (sfx' ++ tail) caps = some x := by
  obtain ⟨pre, rest, hi, hp, hk⟩ := run_lit_some kw _ _ _ _ h
  have hne : ∀ c ∈ pre, c ≠ q := by
    intro c hc hcq
    have : foldRune c ∈ pre.map foldRune := List.mem_map_of_mem _ hc
    rw [hp] at this
    obtain ⟨y, hy, hfy⟩ := List.mem_map.1 this
    exact hkw y hy (by rw [hfy, hcq])
  obtain ⟨sfx', h1, h2, h3⟩ := split_before_last q pre sfx tail rest hi hq hne
  exact ⟨pre, sfx', h1, h2, hp, by rw [← h3]; exact hk⟩

theorem plus_step {α : Type} (p : Char → Bool) (q : Char) (sfx tail : Str) (caps : Caps)
    (k : Str → Caps → Option α) (x : α)
    (h : (Rx.plus p).run (sfx ++ tail) caps k = some x) (hq : sfx.getLast? = some q)
    (hp : p q = false) :
    ∃ ws sfx', sfx = ws ++ sfx' ∧ ws ≠ [] ∧ (∀ c ∈ ws, p c = true)
      ∧ sfx'.getLast? = some q ∧ k (sfx' ++ tail) caps = some x := by
  obtain ⟨ws, rest, hi, hne, hw, hk⟩ := run_plus_some p _ _ _ _ h
  have hnq : ∀ c ∈ ws, c ≠ q := by
    intro c hc hcq
    rw [hcq] at hc
    have := hw q hc
    rw [hp] at this
    cases this
  obtain ⟨sfx', h1, h2, h3⟩ := split_before_last q ws sfx tail rest hi hq hnq
  exact ⟨ws, sfx', h1, hne, hw, h2, by rw [← h3]; exact hk⟩

theorem find_skip_all (r : Rx) (pre rest : Str)
    (h : ∀ sfx, sfx ≠ [] → sfx <:+ pre →
      r.run (sfx ++ rest) [] (fun _ m => some m) = none) :
    r.find (pre ++ rest) = r.find rest := by
  induction pre with
  | nil => rfl
  | cons a pre ih =>
    rw [List.cons_append, Rx.find]
    have h1 := h (a :: pre) (by simp) (List.suffix_refl _)
    rw [List.cons_append] at h1
    rw [h1, orTry_none]
    exact ih (fun sfx hs hsuf => h sfx hs (hsuf.trans (List.suffix_cons _ _)))

/-! ## C25: the DEFAULT value -/

theorem defaultRe_eq : defaultRe = Rx.cat [Rx.lit "DEFAULT".toList, .plus rxSpace,
    .group 1 (.lazyPlus rxDot), defaultTail] := rfl

theorem suffix_concat_cases (sfx l : Str) (a : Char) (hne : sfx ≠ [])
    (h : sfx <:+ l ++ [a]) : ∃ t, sfx = t ++ [a] ∧ t <:+ l := by
  obtain ⟨u, hu⟩ := h
  have hl := List.dropLast_append_getLast hne
  rw [← hl, ← List.append_assoc] at hu
  have h2 := List.append_inj' hu rfl
  refine ⟨sfx.dropLast, ?_, ⟨u, h2.1⟩⟩
  rw [← h2.2]
  exact hl.symm

theorem rxSpace_isSpace {c : Char} (h : rxSpace c = true) : isSpace c = true := by
  simp only [rxSpace, Bool.or_eq_true, decide_eq_true_eq] at h
  simp only [isSpace, Bool.or_eq_true, Bool.and_eq_true, decide_eq_true_eq]
  omega

/-- The pattern `defaultRe` does not match at a position inside a word that does not
end in the letters `default`, nor at the blank after it. -/
theorem default_not_in_word (word Y : Str) (hw : word.all identChar = true)
    (hd : endsInDefault word = false) (sfx : Str) (hne : sfx ≠ [])
    (hs : sfx <:+ word ++ [' ']) :
    defaultRe.run (sfx ++ Y) [] (fun _ m => some m) = none := by
  obtain ⟨s, rfl, hsw⟩ := suffix_concat_cases sfx word ' ' hne hs
  by_contra hcon
  obtain ⟨x, hx⟩ := Option.ne_none_iff_exists'.1 hcon
  rw [defaultRe_eq, run_cat_cons] at hx
  obtain ⟨pre, sfx', h1, h2, h3, h4⟩ :=
    lit_step _ ' ' (s ++ [' ']) Y [] _ x hx (by simp) (by decide)
  rw [run_cat_cons] at h4
  have hne' : sfx' ≠ [] := by
    intro e
    rw [e] at h2
    simp at h2
  obtain ⟨t2, e2, ht2⟩ := suffix_concat_cases sfx' s ' ' hne' ⟨pre, h1.symm⟩
  cases t2 with
  | nil =>
    rw [e2] at h1
    have hsp : s = pre := (List.append_inj' h1 rfl).1
    obtain ⟨u, hu⟩ := hsw
    have : endsInDefault word = true := by
      unfold endsInDefault HasSuffix
      rw [← hu, List.map_append, hsp, h3]
      have e : List.map foldRune "DEFAULT".toList = "default".toList := by decide
      rw [e]
      simp
    rw [hd] at this
    cases this
  | cons a t =>
    have ha : identChar a = true := by
      have hm : a ∈ word := hsw.subset (ht2.subset (List.mem_cons_self _ _))
      exact List.all_eq_true.1 hw a hm
    rw [e2, List.cons_append, List.cons_append, Rx.run, if_neg (by
      rw [identChar_not_rxSpace ha]; simp)] at h4
    cases h4

theorem defaultTail_ok (tail : Str)
    (h : tail = [] ∨ ∃ kw ∈ modifierStarts, ∃ more, tail = ' ' :: (kw ++ more)) (caps : Caps) :
    defaultTail.run tail caps (fun r c => (Rx.cat []).run r c (fun _ m => some m))
      = some caps := by
  rcases h with rfl | ⟨kw, hkw, more, rfl⟩
  · rfl
  · simp only [modifierStarts, modifierWords, List.mem_cons, List.mem_singleton,
      List.not_mem_nil, or_false] at hkw
    rcases hkw with rfl | rfl | rfl | rfl | rfl | rfl | rfl <;> rfl

theorem defaultTail_stop {α : Type} (a : Char) (rest : Str) (ha : rxSpace a = false)
    (caps : Caps) (k : Str → Caps → Option α) : defaultTail.run (a :: rest) caps k = none := by
  rw [defaultTail, Rx.run, run_cat_cons, run_plus_fail _ _ _ _ (stopsAt_cons _ _ _ ha),
    orTry_none, Rx.run]
  rfl

theorem part_before_last (w : Str) (q : Char) (sfx pre sfx' : Str) (hs : sfx <:+ w ++ [q])
    (h1 : sfx = pre ++ sfx') (h2 : sfx'.getLast? = some q) :
    pre <:+: w ∧ sfx' <:+ w ++ [q] := by
  have hne : sfx' ≠ [] := by
    intro e
    rw [e] at h2
    simp at h2
  have hs' : sfx' <:+ w ++ [q] := by
    rw [h1] at hs
    exact (List.suffix_append _ _).trans hs
  obtain ⟨d, e, hd⟩ := suffix_concat_cases sfx' w q hne hs'
  obtain ⟨u, hu⟩ := hs
  rw [h1, e, ← List.append_assoc, ← List.append_assoc] at hu
  have := (List.append_inj' hu rfl).1
  exact ⟨⟨u, d, this⟩, hs'⟩

theorem no_keyword_part (w pre kw : Str) (hw : noModifierWord w = true)
    (hkw : kw ∈ modifierWords) (hp : pre <:+: w)
    (hf : pre.map foldRune = kw.map foldRune) : False := by
  have h1 := List.all_eq_true.1 hw kw hkw
  have hc : Contains (w.map foldRune) (kw.map foldRune) = true :=
    Contains_of_part _ _ (by rw [← hf]; exact hp.map _)
  rw [hc] at h1
  cases h1

theorem quote_fold (q : Char) (hq : q ∈ quoteChars) :
    rxSpace q = false ∧ ∀ kw ∈ "NOT".toList :: modifierWords, ∀ c ∈ kw,
      foldRune c ≠ foldRune q := by
  simp only [quoteChars, List.mem_cons, List.mem_singleton, List.not_mem_nil, or_false] at hq
  rcases hq with rfl | rfl <;> decide

/-- No modifier keyword is read inside a quoted literal whose content holds none. -/
theorem modifierAlt_fails {α : Type} (w : Str) (q : Char) (hq : q ∈ quoteChars)
    (hw : noModifierWord w = true) (sfx tail : Str) (hs : sfx <:+ w ++ [q])
    (hl : sfx.getLast? = some q) (caps : Caps) (k : Str → Caps → Option α) :
    modifierAlt.run (sfx ++ tail) caps k = none := by
  by_contra hcon
  obtain ⟨x, hx⟩ := Option.ne_none_iff_exists'.1 hcon
  obtain ⟨hsp, hfold⟩ := quote_fold q hq
  have one : ∀ kw ∈ modifierWords, ∀ s, s <:+ w ++ [q] → s.getLast? = some q →
      ∀ (k' : Str → Caps → Option α), (Rx.lit kw).run (s ++ tail) caps k' = some x →
      False := by
    intro kw hkw s hs hl k' h
    obtain ⟨pre, sfx', h1, h2, h3, _⟩ :=
      lit_step kw q s tail caps k' x h hl (hfold kw (List.mem_cons_of_mem _ hkw))
    exact no_keyword_part w pre kw hw hkw (part_before_last w q s pre sfx' hs h1 h2).1 h3
  unfold modifierAlt at hx
  rw [Rx.run] at hx
  rcases orTry_eq_some _ _ _ hx with h | h
  · rw [run_cat_cons] at h
    obtain ⟨pre, s1, e1, l1, _, h⟩ :=
      lit_step "NOT".toList q sfx tail caps _ x h hl (hfold _ (List.mem_cons_self _ _))
    rw [run_cat_cons] at h
    obtain ⟨ws, s2, e2, _, _, l2, h⟩ := plus_step rxSpace q s1 tail caps _ x h l1 hsp
    rw [run_cat_cons] at h
    have hs1 := (part_before_last w q sfx pre s1 hs e1 l1).2
    have hs2 : s2 <:+ w ++ [q] := by
      rw [e2] at hs1
      exact (List.suffix_append _ _).trans hs1
    exact one "NULL".toList (by decide) s2 hs2 l2 _ h
  · rw [Rx.run] at h
    rcases orTry_eq_some _ _ _ h with h | h
    · exact one "NULL".toList (by decide) sfx hs hl _ h
    rw [Rx.run] at h
    rcases orTry_eq_some _ _ _ h with h | h
    · exact one "PRIMARY".toList (by decide) sfx hs hl _ h
    rw [Rx.run] at h
    rcases orTry_eq_some _ _ _ h with h | h
    · exact one "UNIQUE".toList (by decide) sfx hs hl _ h
    rw [Rx.run] at h
    rcases orTry_eq_some _ _ _ h with h | h
    · exact one "CHECK".toList (by decide) sfx hs hl _ h
    rw [Rx.run] at h
    rcases orTry_eq_some _ _ _ h with h | h
    · exact one "REFERENCES".toList (by decide) sfx hs hl _ h
    · exact one "CONSTRAINT".toList (by decide) sfx hs hl _ h

theorem defaultTail_fails_literal {α : Type} (w : Str) (q : Char) (hq : q ∈ quoteChars)
    (hw : noModifierWord w = true) (sfx tail : Str) (hne : sfx ≠ [])
    (hs : sfx <:+ w ++ [q]) (caps : Caps) (k : Str → Caps → Option α) :
    defaultTail.run (sfx ++ tail) caps k = none := by
  obtain ⟨t, e, _⟩ := suffix_concat_cases sfx w q hne hs
  have hl : sfx.getLast? = some q := by rw [e]; simp
  have h1 : (Rx.cat [.plus rxSpace, modifierAlt]).run (sfx ++ tail) caps k = none := by
    by_contra hcon
    obtain ⟨x, hx⟩ := Option.ne_none_iff_exists'.1 hcon
    rw [run_cat_cons] at hx
    obtain ⟨ws, s2, e2, _, _, l2, h⟩ :=
      plus_step rxSpace q sfx tail caps _ x hx hl (quote_fold q hq).1
    rw [run_cat_cons] at h
    have hs2 : s2 <:+ w ++ [q] := by
      rw [e2] at hs
      exact (List.suffix_append _ _).trans hs
    rw [modifierAlt_fails w q hq hw s2 tail hs2 l2] at h
    cases h
  rw [defaultTail, Rx.run, h1, orTry_none, Rx.run]
  cases sfx with
  | nil => exact absurd rfl hne
  | cons a l => rfl

/-- At the keyword `DEFAULT` followed by one blank the pattern captures the text up to
the first place where its end matches. -/
theorem defaultRe_at_keyword (x : Char) (xs tail : Str) (hx : rxSpace x = false)
    (hdot : ∀ c ∈ x :: xs, rxDot c = true)
    (hrest : ∀ caps, defaultTail.run tail caps
      (fun r c => (Rx.cat []).run r c (fun _ m => some m)) = some caps)
    (hk : ∀ sfx, sfx ≠ [] → sfx <:+ xs → ∀ caps, defaultTail.run (sfx ++ tail) caps
      (fun r c => (Rx.cat []).run r c (fun _ m => some m)) = none) :
    defaultRe.run ("DEFAULT".toList ++ ' ' :: (x :: xs ++ tail)) [] (fun _ m => some m)
      = some [(1, x :: xs)] := by
  rw [defaultRe_eq, run_cat_cons, run_lit _ _ _ _ _ rfl]
  rw [List.cons_append, run_cat_cons,
    run_plus_one rxSpace ' ' _ _ _ (by decide) (stopsAt_cons _ _ _ hx)]
  rw [run_cat_cons, Rx.run, Rx.run,
    if_pos (hdot x (List.mem_cons_self _ _))]
  have hlen : ∀ r : Str, r = tail →
      (x :: (xs ++ tail)).take ((x :: (xs ++ tail)).length - r.length) = x :: xs := by
    intro r hr
    subst hr
    have : (x :: (xs ++ r)).length - r.length = (x :: xs).length := by
      simp only [List.length_cons, List.length_append]
      omega
    rw [this, ← List.cons_append]
    exact List.take_left' rfl
  rw [lazyStar_until rxDot tail _ ?_ xs (fun c hc => hdot c (List.mem_cons_of_mem _ hc)) ?_]
  · rw [run_cat_cons, hrest, hlen tail rfl]
  · beta_reduce
    rw [run_cat_cons, hrest]
    rfl
  · intro sfx hne hs
    beta_reduce
    rw [run_cat_cons, hk sfx hne hs]

theorem defaultRe_find (c T : Str) (x : Char) (xs tail : Str)
    (hc : c.all identChar = true) (hT : T.all identChar = true)
    (hcd : endsInDefault c = false) (hTd : endsInDefault T = false)
    (hx : rxSpace x = false) (hdot : ∀ a ∈ x :: xs, rxDot a = true)
    (hrest : ∀ caps, defaultTail.run tail caps
      (fun r c => (Rx.cat []).run r c (fun _ m => some m)) = some caps)
    (hk : ∀ sfx, sfx ≠ [] → sfx <:+ xs → ∀ caps, defaultTail.run (sfx ++ tail) caps
      (fun r c => (Rx.cat []).run r c (fun _ m => some m)) = none) :
    defaultRe.find (defaultDefText c T (x :: xs) tail) = some [(1, x :: xs)] := by
  have e : ∀ (a R : Str), a ++ ' ' :: R = (a ++ [' ']) ++ R := by
    intro a R
    simp
  unfold defaultDefText
  rw [e c, find_skip_all defaultRe (c ++ [' ']) _ (default_not_in_word c _ hc hcd),
    e T, find_skip_all defaultRe (T ++ [' ']) _ (default_not_in_word T _ hT hTd)]
  exact find_of_run _ _ _ (defaultRe_at_keyword x xs tail hx hdot hrest hk)

theorem TrimSpace_of_ends (s : Str) (h1 : ∀ a, s.head? = some a → isSpace a = false)
    (h2 : endsClean s = true) : TrimSpace s = s := by
  unfold TrimSpace
  have e1 : s.dropWhile isSpace = s := by
    cases s with
    | nil => rfl
    | cons a l => rw [List.dropWhile_cons_of_neg (by simp [h1 a rfl])]
  rw [e1, List.rdropWhile_eq_self_iff]
  intro hl
  unfold endsClean at h2
  rw [List.getLast?_eq_getLast _ hl] at h2
  simpa using h2

theorem TrimRight_keep (s cut : Str) (h : lastIn s cut = false) : TrimRight s cut = s := by
  unfold TrimRight
  rw [List.rdropWhile_eq_self_iff]
  intro hl
  unfold lastIn at h
  rw [List.getLast?_eq_getLast _ hl] at h
  simpa using h

theorem TrimLeft_keep (s cut : Str) (h : firstIn s cut = false) : TrimLeft s cut = s := by
  unfold TrimLeft
  cases s with
  | nil => rfl
  | cons a l =>
    have ha : cut.contains a = false := h
    rw [List.dropWhile_cons_of_neg (by simpa using ha)]

theorem lastIn_append (s a b : Str) :
    lastIn s (a ++ b) = (lastIn s a || lastIn s b) := by
  unfold lastIn
  cases s.getLast? with
  | none => rfl
  | some x => simp [List.contains, List.elem_eq_mem]

theorem endsClean_append_right (X Y : Str) (h : Y ≠ []) :
    endsClean (X ++ Y) = endsClean Y := by
  unfold endsClean
  rw [List.getLast?_append_of_ne_nil _ h]

/-- The cleaning of a bare value leaves it as it is. -/
theorem clean_bare (w : Str) (h : bareDefault w = true) :
    Trim (TrimRight (TrimSpace w) ",)".toList) quoteChars = w := by
  simp only [bareDefault, Bool.and_eq_true, Bool.not_eq_true_eq_eq_false, Bool.not_eq_true',
    lastIn_append, Bool.or_eq_false_iff] at h
  obtain ⟨⟨⟨hne, hall⟩, hfirst⟩, hl1, hl2⟩ := h
  have hsp : ∀ a ∈ w, isSpace a = false := by
    intro a ha
    simpa using List.all_eq_true.1 hall a ha
  have e1 : TrimSpace w = w := by
    apply TrimSpace_of_ends
    · intro a ha
      exact hsp a (List.mem_of_mem_head? ha)
    · unfold endsClean
      cases hw : w.getLast? with
      | none => rfl
      | some b => simp [hsp b (List.mem_of_mem_getLast? hw)]
  rw [e1, TrimRight_keep w _ hl1, Trim, TrimLeft_keep w _ hfirst, TrimRight_keep w _ hl2]

/-- The cleaning of a quoted literal leaves its content. -/
theorem clean_literal (w : Str) (q : Char) (hq : q ∈ quoteChars)
    (h1 : firstIn w quoteChars = false) (h2 : lastIn w quoteChars = false) :
    Trim (TrimRight (TrimSpace (q :: (w ++ [q]))) ",)".toList) quoteChars = w := by
  have hq1 : isSpace q = false ∧ ",)".toList.contains q = false
      ∧ quoteChars.contains q = true := by
    simp only [quoteChars, List.mem_cons, List.mem_singleton, List.not_mem_nil,
      or_false] at hq
    rcases hq with rfl | rfl <;> decide
  rw [TrimSpace_self q w q hq1.1 hq1.1, TrimRight_keep _ _ (by
    unfold lastIn
    rw [← List.cons_append, List.getLast?_append_of_ne_nil _ (by simp)]
    exact hq1.2.1)]
  unfold Trim TrimLeft
  rw [List.dropWhile_cons_of_pos (by simp [hq])]
  cases w with
  | nil =>
    rw [List.nil_append, List.dropWhile_cons_of_pos (by simp [hq])]
    rfl
  | cons a l =>
    have ha : quoteChars.contains a = false := h1
    rw [List.cons_append, List.dropWhile_cons_of_neg (by simpa using ha), ← List.cons_append]
    unfold TrimRight
    rw [List.rdropWhile_concat_pos _ _ _ (by simp [hq])]
    exact TrimRight_keep _ _ h2

theorem parseColumnDef_default (df d name base : Str) (after : List Str) (m : Caps)
    (h : tokenizeSQL (TrimSpace df) = name :: base :: after)
    (hm : defaultRe.find (TrimSpace df) = some m) :
    ∃ col, parseColumnDef df d = .ok col ∧ col.Name = unquoteIdent name
      ∧ col.Default = Trim (TrimRight (TrimSpace (capture m 1)) ",)".toList) quoteChars := by
  unfold parseColumnDef
  simp only [h]
  refine ⟨_, rfl, ?_, ?_⟩
  · unfold withReferences withDefault withModifiers
    simp only [hm]
    split <;> split <;> split <;> split <;> rfl
  · unfold withReferences withDefault withModifiers
    simp only [hm]
    split <;> split <;> split <;> split <;> rfl

theorem tokenizeSQL_two_words (c T R : Str) (hc : isIdent c = true) (hT : isIdent T = true) :
    tokenizeSQL (c ++ ' ' :: (T ++ ' ' :: R))
      = c :: T :: tokenizeGo [] false (Char.ofNat 0) R := by
  obtain ⟨hcne, hc⟩ := isIdent_iff.1 hc
  obtain ⟨hTne, hT⟩ := isIdent_iff.1 hT
  unfold tokenizeSQL
  rw [tokenizeGo_ident c hc, tokenizeGo_blank _ _ _ _ (by decide), List.nil_append,
    tokenizeGo_ident T hT, tokenizeGo_blank _ _ _ _ (by decide), List.nil_append]
  cases c with
  | nil => exact absurd rfl hcne
  | cons a l =>
    cases T with
    | nil => exact absurd rfl hTne
    | cons b l2 => rfl

/-- The value captured after `c T DEFAULT `, cleaned as `parseColumnDef` does: `v` is
the text up to the first place where the end of the pattern matches. -/
theorem default_capture (c T tail d : Str) (x : Char) (xs : Str)
    (hc : isIdent c = true) (hT : isIdent T = true)
    (hcd : endsInDefault c = false) (hTd : endsInDefault T = false)
    (hx : isSpace x = false) (hdot : ∀ a ∈ x :: xs, rxDot a = true)
    (hk : ∀ sfx, sfx ≠ [] → sfx <:+ xs → ∀ caps, defaultTail.run (sfx ++ tail) caps
      (fun r c => (Rx.cat []).run r c (fun _ m => some m)) = none)
    (htail : tail = [] ∨ ∃ kw ∈ modifierStarts, ∃ more, tail = ' ' :: (kw ++ more))
    (hend : endsClean (x :: xs ++ tail) = true) :
    ∃ col, parseColumnDef (defaultDefText c T (x :: xs) tail) d = .ok col ∧ col.Name = c
      ∧ col.Default = Trim (TrimRight (TrimSpace (x :: xs)) ",)".toList) quoteChars := by
  have hc' := (isIdent_iff.1 hc).2
  have hT' := (isIdent_iff.1 hT).2
  have hxr : rxSpace x = false := by
    cases h : rxSpace x with
    | false => rfl
    | true => rw [rxSpace_isSpace h] at hx; cases hx
  have htrim : TrimSpace (defaultDefText c T (x :: xs) tail) = defaultDefText c T (x :: xs) tail := by
    apply TrimSpace_of_ends
    · intro a ha
      obtain ⟨a0, l, rfl⟩ := List.exists_cons_of_ne_nil (isIdent_iff.1 hc).1
      simp only [defaultDefText, List.cons_append, List.head?_cons, Option.some.injEq] at ha
      subst ha
      exact identChar_not_space (by simp at hc'; exact hc'.1)
    · have e : defaultDefText c T (x :: xs) tail
          = (c ++ ' ' :: (T ++ ' ' :: ("DEFAULT".toList ++ [' ']))) ++ (x :: xs ++ tail) := by
        simp [defaultDefText]
      rw [e, endsClean_append_right _ _ (by simp)]
      exact hend
  have hfind := defaultRe_find c T x xs tail hc' hT' hcd hTd hxr hdot
    (defaultTail_ok tail htail) hk
  have htok := tokenizeSQL_two_words c T ("DEFAULT".toList ++ ' ' :: (x :: xs ++ tail)) hc hT
  obtain ⟨col, h1, h2, h3⟩ := parseColumnDef_default (defaultDefText c T (x :: xs) tail) d
    c T _ [(1, x :: xs)] (by rw [htrim]; exact htok) (by rw [htrim]; exact hfind)
  refine ⟨col, h1, ?_, ?_⟩
  · rw [h2, unquoteIdent_ident c hc']
  · rw [h3]
    rfl

theorem endsClean_tail (v tail : Str) (hv : endsClean v = true)
    (htail : tail = [] ∨ ∃ kw ∈ modifierStarts, ∃ more,
      tail = ' ' :: (kw ++ more) ∧ endsClean more = true) :
    endsClean (v ++ tail) = true := by
  rcases htail with rfl | ⟨kw, hkw, more, rfl, hm⟩
  · rw [List.append_nil]
    exact hv
  · rw [endsClean_append_right _ _ (by simp)]
    have e : ' ' :: (kw ++ more) = (' ' :: kw) ++ more := rfl
    cases more with
    | nil =>
      rw [List.append_nil]
      simp only [modifierStarts, modifierWords, List.mem_cons, List.mem_singleton,
        List.not_mem_nil, or_false] at hkw
      rcases hkw with rfl | rfl | rfl | rfl | rfl | rfl | rfl <;> decide
    | cons b l =>
      rw [e, endsClean_append_right _ _ (by simp)]
      exact hm

/-- C25 (counterexample): the bare value `now()` is stored as `now(`, and of the
literal that holds a double-quoted `a` between single quotes the default keeps `a`
without its double quotes. -/
theorem default_value_trimmed_further :
    parseColumnDef "x TEXT DEFAULT now()".toList [] =
        .ok { Name := "x".toList, SqlType := "TEXT".toList, IsNullable := true,
              Default := "now(".toList }
      ∧ parseColumnDef ("x TEXT DEFAULT ".toList ++
          [Char.ofNat 39, Char.ofNat 34, 'a', Char.ofNat 34, Char.ofNat 39]) [] =
        .ok { Name := "x".toList, SqlType := "TEXT".toList, IsNullable := true,
              Default := "a".toList }
      ∧ "now(".toList ≠ "now()".toList
      ∧ "a".toList ≠ [Char.ofNat 34, 'a', Char.ofNat 34] := by
  decide

/-- The default stored for `c T DEFAULT v`, alone or followed by a modifier, when the
text does not end in white space. -/
theorem default_value_clean (c T v w tail d : Str)
    (hc : isIdent c = true) (hT : isIdent T = true)
    (hcd : endsInDefault c = false) (hTd : endsInDefault T = false)
    (hv : (v = w ∧ bareDefault w = true)
      ∨ (∃ q ∈ quoteChars, v = q :: (w ++ [q]) ∧ literalContent w = true))
    (htail : tail = [] ∨ ∃ kw ∈ modifierStarts, ∃ more,
      tail = ' ' :: (kw ++ more) ∧ endsClean more = true) :
    ∃ col, parseColumnDef (defaultDefText c T v tail) d = .ok col ∧ col.Name = c
      ∧ col.Default = w := by
  have htail' : tail = [] ∨ ∃ kw ∈ modifierStarts, ∃ more, tail = ' ' :: (kw ++ more) := by
    rcases htail with h | ⟨kw, hkw, more, h, _⟩
    · exact Or.inl h
    · exact Or.inr ⟨kw, hkw, more, h⟩
  rcases hv with ⟨rfl, hb⟩ | ⟨q, hq, rfl, hl⟩
  · have hclean := clean_bare v hb
    simp only [bareDefault, Bool.and_eq_true, Bool.not_eq_true_eq_eq_false,
      Bool.not_eq_true'] at hb
    obtain ⟨⟨⟨hne, hall⟩, _⟩, _⟩ := hb
    have hsp : ∀ a ∈ v, isSpace a = false := by
      intro a ha
      simpa using List.all_eq_true.1 hall a ha
    cases v with
    | nil => simp at hne
    | cons x xs =>
      have hdot : ∀ a ∈ x :: xs, rxDot a = true := by
        intro a ha
        have h1 := hsp a ha
        simp only [rxDot, bne_iff_ne, ne_eq]
        intro e
        rw [e] at h1
        revert h1
        decide
      have hk : ∀ sfx, sfx ≠ [] → sfx <:+ xs → ∀ caps, defaultTail.run (sfx ++ tail) caps
          (fun r c => (Rx.cat []).run r c (fun _ m => some m)) = none := by
        intro sfx hne hs caps
        cases sfx with
        | nil => exact absurd rfl hne
        | cons a l =>
          have ha : isSpace a = false :=
            hsp a (List.mem_cons_of_mem _ (hs.subset (List.mem_cons_self _ _)))
          have har : rxSpace a = false := by
            cases h : rxSpace a with
            | false => rfl
            | true => rw [rxSpace_isSpace h] at ha; cases ha
          exact defaultTail_stop a _ har caps _
      have hend : endsClean (x :: xs ++ tail) = true := by
        apply endsClean_tail _ _ _ htail
        unfold endsClean
        cases hw : (x :: xs).getLast? with
        | none => rfl
        | some b => simp [hsp b (List.mem_of_mem_getLast? hw)]
      obtain ⟨col, h1, h2, h3⟩ := default_capture c T tail d x xs hc hT hcd hTd
        (hsp x (List.mem_cons_self _ _)) hdot hk htail' hend
      exact ⟨col, h1, h2, by rw [h3, hclean]⟩
  · simp only [literalContent, Bool.and_eq_true, Bool.not_eq_true_eq_eq_false,
      Bool.not_eq_true'] at hl
    obtain ⟨⟨⟨hall, hf⟩, hla⟩, hno⟩ := hl
    have hq1 : isSpace q = false ∧ rxDot q = true := by
      simp only [quoteChars, List.mem_cons, List.mem_singleton, List.not_mem_nil,
        or_false] at hq
      rcases hq with rfl | rfl <;> decide
    have hdot : ∀ a ∈ q :: (w ++ [q]), rxDot a = true := by
      intro a ha
      simp only [List.mem_cons, List.mem_append, List.mem_singleton, List.not_mem_nil,
        or_false] at ha
      rcases ha with rfl | ha | rfl
      · exact hq1.2
      · exact List.all_eq_true.1 hall a ha
      · exact hq1.2
    have hk : ∀ sfx, sfx ≠ [] → sfx <:+ w ++ [q] → ∀ caps,
        defaultTail.run (sfx ++ tail) caps
          (fun r c => (Rx.cat []).run r c (fun _ m => some m)) = none :=
      fun sfx hne hs caps => defaultTail_fails_literal w q hq hno sfx tail hne hs caps _
    have hend : endsClean (q :: (w ++ [q]) ++ tail) = true := by
      apply endsClean_tail _ _ _ htail
      unfold endsClean
      rw [← List.cons_append, List.getLast?_append_of_ne_nil _ (by simp)]
      simp [hq1.1]
    obtain ⟨col, h1, h2, h3⟩ := default_capture c T tail d q (w ++ [q]) hc hT hcd hTd
      hq1.1 hdot hk htail' hend
    exact ⟨col, h1, h2, by rw [h3, clean_literal w q hq hf hla]⟩

theorem parseColumnDef_TrimSpace (df d : Str) :
    parseColumnDef (TrimSpace df) d = parseColumnDef df d := by
  unfold parseColumnDef
  simp only [TrimSpace_idem]

theorem endsClean_rdropWhile (s : Str) : endsClean (s.rdropWhile isSpace) = true := by
  unfold endsClean
  cases h : (s.rdropWhile isSpace).getLast? with
  | none => rfl
  | some b =>
    have hne : s.rdropWhile isSpace ≠ [] := by
      intro e
      rw [e] at h
      simp at h
    have hl := List.rdropWhile_last_not isSpace s hne
    rw [List.getLast?_eq_getLast _ hne, Option.some.injEq] at h
    rw [h] at hl
    simpa using hl

theorem modifierStarts_last (kw : Str) (hkw : kw ∈ modifierStarts) :
    ∃ init b, kw = init ++ [b] ∧ isSpace b = false := by
  simp only [modifierStarts, modifierWords, List.mem_cons, List.mem_singleton,
    List.not_mem_nil, or_false] at hkw
  rcases hkw with rfl | rfl | rfl | rfl | rfl | rfl | rfl
  · exact ⟨"NOT NUL".toList, 'L', rfl, by decide⟩
  · exact ⟨"NUL".toList, 'L', rfl, by decide⟩
  · exact ⟨"PRIMAR".toList, 'Y', rfl, by decide⟩
  · exact ⟨"UNIQU".toList, 'E', rfl, by decide⟩
  · exact ⟨"CHEC".toList, 'K', rfl, by decide⟩
  · exact ⟨"REFERENCE".toList, 'S', rfl, by decide⟩
  · exact ⟨"CONSTRAIN".toList, 'T', rfl, by decide⟩

/-- The white space that `parseColumnDef` trims off a definition that ends with a
modifier and more text. -/
theorem TrimSpace_defaultDefText (c T v kw more : Str) (hc : isIdent c = true)
    (hkw : kw ∈ modifierStarts) :
    TrimSpace (defaultDefText c T v (' ' :: (kw ++ more)))
      = defaultDefText c T v (' ' :: (kw ++ more.rdropWhile isSpace)) := by
  obtain ⟨hcne, hc'⟩ := isIdent_iff.1 hc
  obtain ⟨a, l, rfl⟩ := List.exists_cons_of_ne_nil hcne
  have ha : isSpace a = false := identChar_not_space (by simp at hc'; exact hc'.1)
  obtain ⟨init, b, rfl, hb⟩ := modifierStarts_last kw hkw
  have := TrimSpace_keep a
    (l ++ ' ' :: (T ++ ' ' :: ("DEFAULT".toList ++ ' ' :: (v ++ ' ' :: init)))) b more ha hb
  simpa [defaultDefText] using this

/-- C25 (amended): for a definition `c T DEFAULT v`, alone or followed by a blank, a
modifier that starts with NOT NULL, NULL, PRIMARY, UNIQUE, CHECK, REFERENCES or
CONSTRAINT, and any further text, where `c` and `T` are plain identifiers that do not
end in the letters `default` (in any letter case), and `v` is either a bare value `w`
(not empty, no white space, no quote character at either end, no `,` or `)` at the
end) or a literal `q w q` between two equal quote characters whose content `w` has no
line feed, no quote character at either end and none of the keywords NULL, PRIMARY,
UNIQUE, CHECK, REFERENCES, CONSTRAINT in any letter case, `parseColumnDef` returns a
column named `c` whose default is exactly `w`. -/
theorem default_value_stored (c T v w tail d : Str)
    (hc : isIdent c = true) (hT : isIdent T = true)
    (hcd : endsInDefault c = false) (hTd : endsInDefault T = false)
    (hv : (v = w ∧ bareDefault w = true)
      ∨ (∃ q ∈ quoteChars, v = q :: (w ++ [q]) ∧ literalContent w = true))
    (htail : tail = [] ∨ ∃ kw ∈ modifierStarts, ∃ more, tail = ' ' :: (kw ++ more)) :
    ∃ col, parseColumnDef (defaultDefText c T v tail) d = .ok col ∧ col.Name = c
      ∧ col.Default = w := by
  rcases htail with rfl | ⟨kw, hkw, more, rfl⟩
  · exact default_value_clean c T v w [] d hc hT hcd hTd hv (Or.inl rfl)
  · rw [← parseColumnDef_TrimSpace, TrimSpace_defaultDefText c T v kw more hc hkw]
    exact default_value_clean c T v w _ d hc hT hcd hTd hv
      (Or.inr ⟨kw, hkw, _, rfl, endsClean_rdropWhile more⟩)

/-- C25 (witness): `status TEXT DEFAULT 'hello world' NOT NULL`, with a blank at the
end. -/
theorem default_value_stored_witness :
    ∃ col, parseColumnDef (defaultDefText "status".toList "TEXT".toList
        (Char.ofNat 39 :: ("hello world".toList ++ [Char.ofNat 39])) " NOT NULL ".toList) []
          = .ok col
      ∧ col.Name = "status".toList ∧ col.Default = "hello world".toList :=
  default_value_stored "status".toList "TEXT".toList _ "hello world".toList
    " NOT NULL ".toList [] (by decide) (by decide) (by decide) (by decide)
    (Or.inr ⟨Char.ofNat 39, by decide, rfl, by decide⟩)
    (Or.inr ⟨"NOT NULL".toList, by decide, " ".toList, rfl⟩)

/-! ## One round of the loop over the definitions -/

theorem markForeignKey_names (cols : List ColumnInfo) (a b c : Str) :
    (markForeignKey cols a b c).map (·.Name) = cols.map (·.Name) := by
  unfold markForeignKey
  rw [List.map_map]
  apply List.map_congr_left
  intro col _
  simp only [Function.comp]
  split <;> rfl

theorem markForeignKey_keeps (cols : List ColumnInfo) (a b c n ty : Str)
    (h : ∃ col ∈ cols, col.Name = n ∧ col.SqlType = ty) :
    ∃ col ∈ markForeignKey cols a b c, col.Name = n ∧ col.SqlType = ty := by
  obtain ⟨col, hcol, h1, h2⟩ := h
  unfold markForeignKey
  refine ⟨_, List.mem_map_of_mem _ hcol, ?_⟩
  split
  · exact ⟨h1, h2⟩
  · exact ⟨h1, h2⟩

/-- A table constraint other than PRIMARY KEY leaves the names and the key flags of
the columns, and the keys read so far. -/
theorem defStep_constraint (d : Str) (st : DefsState) (df : Str) (htrim : TrimSpace df = df)
    (hc : constraintStart df = true)
    (hnpk : HasPrefix (ToUpper df) "PRIMARY KEY".toList = false) :
    (defStep d st df).constraintPKs = st.constraintPKs
    ∧ (defStep d st df).Columns.map (·.Name) = st.Columns.map (·.Name)
    ∧ ((∀ col ∈ st.Columns, col.IsPrimaryKey = false) →
        ∀ col ∈ (defStep d st df).Columns, col.IsPrimaryKey = false) := by
  unfold constraintStart at hc
  simp only [hnpk, Bool.false_or] at hc
  unfold defStep
  simp only [htrim, hnpk]
  split
  · exact absurd ‹false = true› (by decide)
  · split
    · split
      · exact ⟨rfl, markForeignKey_names _ _ _ _, fun h => markForeignKey_noKey _ _ _ _ h⟩
      · exact ⟨rfl, rfl, fun h => h⟩
    · rename_i hfk
      split
      · exact ⟨rfl, rfl, fun h => h⟩
      · rename_i hrest
        simp only [Bool.not_eq_true] at hfk
        rw [hfk, Bool.false_or] at hc
        simp only [Bool.or_assoc] at hc hrest
        exact absurd hc hrest

/-- A definition that does not start with a constraint keyword and is read as a column
appends that column. -/
theorem defStep_column (d : Str) (st : DefsState) (df : Str) (col : ColumnInfo)
    (htrim : TrimSpace df = df) (hc : constraintStart df = false)
    (hcol : parseColumnDef df d = .ok col) :
    defStep d st df = { st with Columns := st.Columns ++ [col] } := by
  simp only [constraintStart, Bool.or_eq_false_iff] at hc
  obtain ⟨⟨⟨⟨⟨⟨h1, h2⟩, h3⟩, h4⟩, h5⟩, h6⟩, h7⟩ := hc
  unfold defStep
  simp only [htrim, h1, h2, h3, h4, h5, h6, h7, hcol, Bool.or_self, Bool.false_eq_true,
    if_false]

/-- Whatever the definition, a round of the loop keeps a column with its name and its
type. -/
theorem defStep_keeps (d : Str) (st : DefsState) (df n ty : Str)
    (h : ∃ col ∈ st.Columns, col.Name = n ∧ col.SqlType = ty) :
    ∃ col ∈ (defStep d st df).Columns, col.Name = n ∧ col.SqlType = ty := by
  unfold defStep
  simp only []
  split
  · exact h
  · split
    · split
      · exact markForeignKey_keeps _ _ _ _ _ _ h
      · exact h
    · split
      · exact h
      · split
        · obtain ⟨col, hcol, hp⟩ := h
          exact ⟨col, List.mem_append_left _ hcol, hp⟩
        · exact h

/-! ## A column declaration -/

/-- The first two tokens of a declaration `name T rest`. -/
theorem tokenizeSQL_decl (name typ rest : Str) (hn : isIdent name = true)
    (ht : isIdent typ = true)
    (hr : (rest.isEmpty || rest.head? = some ' ' || rest.head? = some '(') = true) :
    ∃ after, tokenizeSQL (name ++ ' ' :: (typ ++ rest)) = name :: typ :: after := by
  obtain ⟨hnne, hn⟩ := isIdent_iff.1 hn
  obtain ⟨htne, ht⟩ := isIdent_iff.1 ht
  have hfn : flushToken name = [name] := by
    cases name with
    | nil => exact absurd rfl hnne
    | cons a l => rfl
  have hft : flushToken typ = [typ] := by
    cases typ with
    | nil => exact absurd rfl htne
    | cons a l => rfl
  unfold tokenizeSQL
  rw [tokenizeGo_ident name hn, tokenizeGo_blank _ _ _ _ (by decide), List.nil_append, hfn]
  cases rest with
  | nil =>
    have := tokenizeGo_ident typ ht [] (Char.ofNat 0) []
    rw [List.append_nil] at this ⊢
    rw [this, List.nil_append]
    exact ⟨[], by simp [tokenizeGo, hft]⟩
  | cons c r =>
    rw [tokenizeGo_ident typ ht, List.nil_append]
    simp only [List.isEmpty_cons, List.head?_cons, Option.some.injEq, Bool.false_or,
      Bool.or_eq_true, decide_eq_true_eq] at hr
    rcases hr with rfl | rfl
    · rw [tokenizeGo_blank _ _ _ _ (by decide), hft]
      exact ⟨_, rfl⟩
    · rw [tokenizeGo_paren _ _ _ _ (Or.inl rfl), hft]
      exact ⟨_, rfl⟩

theorem EqualFold_false_of_mem (s kw : Str) (c : Char) (hc : c ∈ s)
    (h : foldRune c ∉ kw.map foldRune) : EqualFold s kw = false := by
  unfold EqualFold
  rw [beq_eq_false_iff_ne]
  intro he
  apply h
  rw [← he]
  exact List.mem_map_of_mem _ hc

theorem serialType_buildColType (typ : Str) (after : List Str)
    (h : serialType typ = false) : serialType (buildColType typ after) = false := by
  unfold buildColType
  split
  · split
    · have hm : '(' ∈ typ ++ "(".toList ++ typeParams 1 ‹List Str› := by simp
      unfold serialType
      rw [EqualFold_false_of_mem _ _ '(' hm (by decide),
        EqualFold_false_of_mem _ _ '(' hm (by decide),
        EqualFold_false_of_mem _ _ '(' hm (by decide)]
      rfl
    · exact h
  · exact h

/-- The column read from a definition with at least two tokens that gives no
column-level key. -/
theorem parseColumnDef_noKey (df d name base : Str) (after : List Str)
    (h : tokenizeSQL (TrimSpace df) = name :: base :: after)
    (hpk : Contains (ToUpper (TrimSpace df)) "PRIMARY KEY".toList = false)
    (hser : serialType (buildColType base after) = false) :
    ∃ col, parseColumnDef df d = .ok col ∧ col.Name = unquoteIdent name
      ∧ col.IsPrimaryKey = false := by
  unfold parseColumnDef
  simp only [h]
  refine ⟨_, rfl, ?_, ?_⟩
  · unfold withReferences withDefault withModifiers
    simp only []
    split <;> split <;> split <;> split <;> split <;> rfl
  · unfold serialType at hser
    unfold withReferences withDefault withModifiers
    simp only [hpk, hser, Bool.false_eq_true, if_false]
    split <;> split <;> split <;> rfl

/-- A well-formed column declaration is read as a column of that name without key. -/
theorem parseColumnDef_decl (name typ rest d : Str)
    (h : (BodyItem.column name typ rest).wellFormed = true) :
    TrimSpace (name ++ ' ' :: (typ ++ rest)) = name ++ ' ' :: (typ ++ rest)
    ∧ constraintStart (name ++ ' ' :: (typ ++ rest)) = false
    ∧ ∃ col, parseColumnDef (name ++ ' ' :: (typ ++ rest)) d = .ok col ∧ col.Name = name
        ∧ col.IsPrimaryKey = false := by
  simp only [BodyItem.wellFormed, Bool.and_eq_true, Bool.not_eq_true'] at h
  obtain ⟨⟨⟨⟨⟨⟨hn, ht⟩, hr⟩, hplain⟩, hcs⟩, hpk⟩, hser⟩ := h
  have htrim := (plainDef_iff.1 hplain).2.2
  obtain ⟨after, htok⟩ := tokenizeSQL_decl name typ rest hn ht hr
  obtain ⟨col, h1, h2, h3⟩ := parseColumnDef_noKey (name ++ ' ' :: (typ ++ rest)) d name typ
    after (by rw [htrim]; exact htok) (by rw [htrim]; exact hpk)
    (serialType_buildColType typ after hser)
  exact ⟨htrim, hcs, col, h1, by rw [h2, unquoteIdent_ident name (isIdent_iff.1 hn).2], h3⟩

/-! ## C2: the table-level PRIMARY KEY constraint and the declared columns -/

theorem plainDef_item (x : BodyItem) (h : x.wellFormed = true) : plainDef x.text = true := by
  cases x with
  | column name typ rest =>
    simp only [BodyItem.wellFormed, Bool.and_eq_true] at h
    exact h.1.1.1.2
  | constraint text =>
    simp only [BodyItem.wellFormed, Bool.and_eq_true] at h
    exact h.1.1

/-- One round of the loop on a well-formed definition: a column declaration appends
the column of that name, without key; a table constraint leaves the names and the key
flags. -/
theorem defStep_item (d : Str) (st : DefsState) (x : BodyItem) (h : x.wellFormed = true) :
    (defStep d st x.text).constraintPKs = st.constraintPKs
    ∧ (defStep d st x.text).Columns.map (·.Name) = st.Columns.map (·.Name) ++ x.names
    ∧ ((∀ col ∈ st.Columns, col.IsPrimaryKey = false) →
        ∀ col ∈ (defStep d st x.text).Columns, col.IsPrimaryKey = false) := by
  cases x with
  | column name typ rest =>
    obtain ⟨htrim, hcs, col, hcol, hname, hkey⟩ := parseColumnDef_decl name typ rest d h
    simp only [BodyItem.text, BodyItem.names]
    rw [defStep_column d st _ col htrim hcs hcol]
    refine ⟨rfl, by simp [hname], fun hc x hx => ?_⟩
    simp only [List.mem_append, List.mem_singleton] at hx
    rcases hx with hx | rfl
    · exact hc x hx
    · exact hkey
  | constraint text =>
    simp only [BodyItem.wellFormed, Bool.and_eq_true, Bool.not_eq_true'] at h
    obtain ⟨⟨hplain, hcs⟩, hnpk⟩ := h
    simpa [BodyItem.text, BodyItem.names] using
      defStep_constraint d st text (plainDef_iff.1 hplain).2.2 hcs hnpk

theorem foldl_defStep_items (d : Str) (items : List BodyItem)
    (h : ∀ x ∈ items, x.wellFormed = true) : ∀ st : DefsState,
    ((items.map BodyItem.text).foldl (defStep d) st).constraintPKs = st.constraintPKs
    ∧ ((items.map BodyItem.text).foldl (defStep d) st).Columns.map (·.Name)
        = st.Columns.map (·.Name) ++ declaredNames items
    ∧ ((∀ col ∈ st.Columns, col.IsPrimaryKey = false) →
        ∀ col ∈ ((items.map BodyItem.text).foldl (defStep d) st).Columns,
          col.IsPrimaryKey = false) := by
  induction items with
  | nil => intro st; exact ⟨rfl, by simp [declaredNames], fun hc => hc⟩
  | cons x items ih =>
    intro st
    obtain ⟨h1, h2, h3⟩ := defStep_item d st x (h x (List.mem_cons_self _ _))
    obtain ⟨i1, i2, i3⟩ := ih (fun y hy => h y (List.mem_cons_of_mem _ hy)) (defStep d st x.text)
    simp only [List.map_cons, List.foldl_cons]
    refine ⟨i1.trans h1, ?_, fun hc => i3 (h3 hc)⟩
    rw [i2, h2]
    simp [declaredNames]

theorem applyConstraintPKs_names (cols : List ColumnInfo) (ks : List Str) :
    (applyConstraintPKs cols ks).map (·.Name) = cols.map (·.Name) := by
  rw [applyConstraintPKs_eq, List.map_map]
  apply List.map_congr_left
  intro col _
  simp only [Function.comp]
  split <;> rfl

/-- C2 (as amended): in a statement `CREATE TABLE t (d1, ..., PRIMARY KEY (k1, ..., km),
..., dn)` whose other definitions are column declarations `name T rest` without a
column-level key and table constraints other than PRIMARY KEY, the parsed table has
exactly the declared columns, in the order of the declarations; its primary-key list
is the list of the declared names that the constraint names (compared without regard
to letter case), in the order and the spelling of the declarations, each declaration
once; each of those columns is flagged primary key and not nullable.  A definition
counts as a declaration only if it does not start with a constraint keyword. -/
theorem primaryKey_constraint (t d : Str) (pre post : List BodyItem) (ks : List Str)
    (ht : isIdent t = true) (hks : ∀ k ∈ ks, isIdent k = true) (hne : ks ≠ [])
    (hdefs : ∀ x ∈ pre ++ post, x.wellFormed = true) :
    ∃ tbl, parseCreateTable
        (createTableText t (Join ", ".toList
          (pre.map BodyItem.text ++ pkConstraintText ks :: post.map BodyItem.text))) d = .ok tbl
      ∧ tbl.Name = t
      ∧ tbl.Columns.map (·.Name) = declaredNames (pre ++ post)
      ∧ tbl.PrimaryKeys
          = (declaredNames (pre ++ post)).filter (fun n => ks.any (fun k => EqualFold n k))
      ∧ ∀ c ∈ tbl.Columns, namedBy ks c = true →
          c.IsPrimaryKey = true ∧ c.IsNullable = false := by
  have hpre : ∀ x ∈ pre, x.wellFormed = true := fun x hx => hdefs x (List.mem_append_left _ hx)
  have hpost : ∀ x ∈ post, x.wellFormed = true :=
    fun x hx => hdefs x (List.mem_append_right _ hx)
  have hplain : ∀ df ∈ pre.map BodyItem.text ++ pkConstraintText ks :: post.map BodyItem.text,
      plainDef df = true := by
    intro df hdf
    simp only [List.mem_append, List.mem_cons, List.mem_map] at hdf
    rcases hdf with ⟨x, hx, rfl⟩ | rfl | ⟨x, hx, rfl⟩
    · exact plainDef_item x (hpre x hx)
    · exact plainDef_pkConstraintText ks hks
    · exact plainDef_item x (hpost x hx)
  have hbody : Join ", ".toList
      (pre.map BodyItem.text ++ pkConstraintText ks :: post.map BodyItem.text) ≠ [] := by
    cases pre with
    | nil => exact Join_ne_nil _ _ _ (by simp [pkConstraintText])
    | cons a l =>
      exact Join_ne_nil _ _ _ (plainDef_iff.1 (plainDef_item a (hpre a (by simp)))).2.1
  have hparse := parseCreateTable_createTableText t _ d ht (balanced_Join _ hplain) hbody
  rw [splitColumnDefs_Join _ hplain] at hparse
  obtain ⟨p1, p2, p3⟩ := foldl_defStep_items d pre hpre {}
  obtain ⟨q1, q2, q3⟩ := foldl_defStep_items d post hpost
    (defStep d ((pre.map BodyItem.text).foldl (defStep d) {}) (pkConstraintText ks))
  rw [defStep_pk d _ ks hks hne] at q1 q2 q3
  have hfold : (pre.map BodyItem.text ++ pkConstraintText ks :: post.map BodyItem.text).foldl
      (defStep d) {}
      = (post.map BodyItem.text).foldl (defStep d)
          { (pre.map BodyItem.text).foldl (defStep d) {} with
            constraintPKs := ((pre.map BodyItem.text).foldl (defStep d) {}).constraintPKs
              ++ ks } := by
    rw [List.foldl_append, List.foldl_cons, defStep_pk d _ ks hks hne]
  have hpks : ((pre.map BodyItem.text ++ pkConstraintText ks :: post.map BodyItem.text).foldl
      (defStep d) {}).constraintPKs = ks := by
    rw [hfold, q1]
    simp only [p1]
    rfl
  have hnames : ((pre.map BodyItem.text ++ pkConstraintText ks :: post.map BodyItem.text).foldl
      (defStep d) {}).Columns.map (·.Name) = declaredNames (pre ++ post) := by
    rw [hfold, q2]
    simp only [p2]
    simp [declaredNames, show ({} : DefsState).Columns = [] from rfl]
  have hcols : ∀ col ∈ ((pre.map BodyItem.text ++ pkConstraintText ks
      :: post.map BodyItem.text).foldl (defStep d) {}).Columns, col.IsPrimaryKey = false := by
    rw [hfold]
    exact q3 (p3 (by simp [show ({} : DefsState).Columns = [] from rfl]))
  obtain ⟨r1, r2⟩ := primaryKeys_of_constraint _ ks hcols
  have hn2 : (applyConstraintPKs ((pre.map BodyItem.text ++ pkConstraintText ks
      :: post.map BodyItem.text).foldl (defStep d) {}).Columns ks).map (·.Name)
      = declaredNames (pre ++ post) := by
    rw [applyConstraintPKs_names, hnames]
  refine ⟨_, hparse, rfl, ?_, ?_, ?_⟩
  · simp only [tableOfDefs, hpks]
    exact hn2
  · simp only [tableOfDefs, hpks]
    rw [r1, ← hn2, List.filter_map]
    rfl
  · simp only [tableOfDefs, hpks]
    exact r2

set_option maxRecDepth 100000 in
/-- C2 (witness): `CREATE TABLE t (a INT, b VARCHAR(20) NOT NULL, PRIMARY KEY (B, a),
UNIQUE (b), c TEXT)`. -/
theorem primaryKey_constraint_witness :
    ∃ tbl, parseCreateTable
        (createTableText "t".toList (Join ", ".toList
          ([BodyItem.column "a".toList "INT".toList [],
            BodyItem.column "b".toList "VARCHAR".toList "(20) NOT NULL".toList].map
              BodyItem.text
            ++ pkConstraintText ["B".toList, "a".toList]
              :: [BodyItem.constraint "UNIQUE (b)".toList,
                  BodyItem.column "c".toList "TEXT".toList []].map BodyItem.text))) []
          = .ok tbl
      ∧ tbl.Name = "t".toList
      ∧ tbl.Columns.map (·.Name) = ["a".toList, "b".toList, "c".toList]
      ∧ tbl.PrimaryKeys = ["a".toList, "b".toList]
      ∧ ∀ c ∈ tbl.Columns, namedBy ["B".toList, "a".toList] c = true →
          c.IsPrimaryKey = true ∧ c.IsNullable = false :=
  primaryKey_constraint "t".toList []
    [BodyItem.column "a".toList "INT".toList [],
      BodyItem.column "b".toList "VARCHAR".toList "(20) NOT NULL".toList]
    [BodyItem.constraint "UNIQUE (b)".toList, BodyItem.column "c".toList "TEXT".toList []]
    ["B".toList, "a".toList] (by decide) (by decide) (by decide) (by decide)

/-! ## C3: the stored column type, in a CREATE TABLE statement -/

/-- The script that is one statement `CREATE TABLE t (body)`. -/
theorem ParseCreateStatements_createTableText (t body d : Str) (ht : isIdent t = true)
    (hb : balanced 0 body = true) (hne : body ≠ [])
    (hnc : noCommentMarker (createTableText t body) = true) :
    ∃ d', ParseCreateStatements (createTableText t body) d
      = .ok [tableOfDefs d' t (splitColumnDefs body)] := by
  have hwf : ∀ p ∈ [ScriptPiece.table [] t body []], p.wellFormed = true := by
    intro p hp
    simp only [List.mem_singleton] at hp
    subst hp
    have : body.isEmpty = false := by cases body <;> simp at hne ⊢
    simp [ScriptPiece.wellFormed, ht, hb, this]
  have hsplit := splitStatements_script [ScriptPiece.table [] t body []] hwf
  have htext : scriptText [ScriptPiece.table [] t body []] = createTableText t body := by
    simp [scriptText, ScriptPiece.text, Join]
  rw [htext] at hsplit
  refine ⟨if d.isEmpty then detectDialect (createTableText t body) else d, ?_⟩
  unfold ParseCreateStatements
  simp only [removeComments_id _ hnc, hsplit]
  simp [ScriptPiece.stmts, stmtStep_createTableText t body _ [] ht hb hne]

theorem foldl_defStep_keeps (d : Str) (dfs : List Str) (n ty : Str) : ∀ st : DefsState,
    (∃ col ∈ st.Columns, col.Name = n ∧ col.SqlType = ty) →
    ∃ col ∈ (dfs.foldl (defStep d) st).Columns, col.Name = n ∧ col.SqlType = ty := by
  induction dfs with
  | nil => intro st h; exact h
  | cons df dfs ih =>
    intro st h
    exact ih _ (defStep_keeps d st df n ty h)

theorem applyConstraintPKs_keeps (cols : List ColumnInfo) (ks : List Str) (n ty : Str)
    (h : ∃ col ∈ cols, col.Name = n ∧ col.SqlType = ty) :
    ∃ col ∈ applyConstraintPKs cols ks, col.Name = n ∧ col.SqlType = ty := by
  obtain ⟨col, hcol, h1, h2⟩ := h
  rw [applyConstraintPKs_eq]
  refine ⟨_, List.mem_map_of_mem _ hcol, ?_⟩
  split
  · exact ⟨h1, h2⟩
  · exact ⟨h1, h2⟩

/-- C3 (as amended): in a statement `CREATE TABLE t (d1, ..., name BASE(params)rest,
..., dn)` without comment marker, whose definitions have balanced parentheses counted
character by character and no comma outside parentheses, where the definition of the
column does not start with a constraint keyword and its parameter list is well
nested, the parsed table has a column `name` whose type is `BASE(params)` with the
blanks and back quotes outside quoted literals removed; it is the exact source text
`BASE(params)` when the parameter list holds no blank and no back quote (as in
`VARCHAR(255)`). -/
theorem columnType_keeps_params (t d name base params rest : Str) (pre post : List Str)
    (ht : isIdent t = true) (hn : isIdent name = true) (hb : isIdent base = true)
    (hp : paramsWellNested params = true)
    (hcs : constraintStart (columnDefText name base params rest) = false)
    (hdefs : ∀ df ∈ pre ++ columnDefText name base params rest :: post, plainDef df = true)
    (hnc : noCommentMarker (createTableText t
      (Join ", ".toList (pre ++ columnDefText name base params rest :: post))) = true) :
    ∃ tbl, ParseCreateStatements (createTableText t
        (Join ", ".toList (pre ++ columnDefText name base params rest :: post))) d = .ok [tbl]
      ∧ tbl.Name = t
      ∧ ∃ col ∈ tbl.Columns, col.Name = name
          ∧ col.SqlType = base ++ '(' :: (withoutBlanks params ++ [')'])
          ∧ ((∀ c ∈ params, sqlBlank c = false ∧ c ≠ Char.ofNat 96) →
              col.SqlType = base ++ '(' :: (params ++ [')'])) := by
  have hbody : Join ", ".toList (pre ++ columnDefText name base params rest :: post) ≠ [] := by
    cases pre with
    | nil => exact Join_ne_nil _ _ _ (plainDef_iff.1 (hdefs _ (by simp))).2.1
    | cons a l => exact Join_ne_nil _ _ _ (plainDef_iff.1 (hdefs a (by simp))).2.1
  obtain ⟨d', hparse⟩ := ParseCreateStatements_createTableText t _ d ht
    (balanced_Join _ hdefs) hbody hnc
  rw [splitColumnDefs_Join _ hdefs] at hparse
  have htrim := (plainDef_iff.1 (hdefs (columnDefText name base params rest) (by simp))).2.2
  obtain ⟨col, hcol, hname, hty⟩ := parseColumnDef_type name base params rest d' hn hb hp
  rw [unquoteIdent_ident name (isIdent_iff.1 hn).2] at hname
  have hstep : ∃ c ∈ ((pre ++ columnDefText name base params rest :: post).foldl
      (defStep d') {}).Columns,
      c.Name = name ∧ c.SqlType = base ++ '(' :: (withoutBlanks params ++ [')']) := by
    rw [List.foldl_append, List.foldl_cons]
    apply foldl_defStep_keeps
    rw [defStep_column d' _ _ col htrim hcs hcol]
    exact ⟨col, by simp, hname, hty⟩
  obtain ⟨c, hc, hc1, hc2⟩ := applyConstraintPKs_keeps _
    ((pre ++ columnDefText name base params rest :: post).foldl (defStep d') {}).constraintPKs
    _ _ hstep
  refine ⟨_, hparse, rfl, c, hc, hc1, hc2, fun hplain => ?_⟩
  rw [hc2, withoutBlanks, stripBlanks_id params hplain]

set_option maxRecDepth 100000 in
/-- C3 (witness): `CREATE TABLE items (id INT, name VARCHAR(255) NOT NULL, price
DECIMAL(10, 2))`, for the column `name`. -/
theorem columnType_keeps_params_witness :
    ∃ tbl, ParseCreateStatements (createTableText "items".toList
        (Join ", ".toList (["id INT".toList]
          ++ columnDefText "name".toList "VARCHAR".toList "255".toList " NOT NULL".toList
            :: ["price DECIMAL(10, 2)".toList]))) [] = .ok [tbl]
      ∧ tbl.Name = "items".toList
      ∧ ∃ col ∈ tbl.Columns, col.Name = "name".toList
          ∧ col.SqlType = "VARCHAR(255)".toList :=
  let ⟨tbl, h1, h2, col, h3, h4, _, h6⟩ :=
    columnType_keeps_params "items".toList [] "name".toList "VARCHAR".toList "255".toList
      " NOT NULL".toList ["id INT".toList] ["price DECIMAL(10, 2)".toList]
      (by decide) (by decide) (by decide) (by decide) (by decide) (by decide) (by decide)
  ⟨tbl, h1, h2, col, h3, h4, h6 (by decide)⟩

end GormStudio
